import Mathlib

/-!
Verification of the counting Bloom filters of `src/bloom/counting_bloom.h`
(namespace `counting_bloomfilter`): the plain `CountingBloomFilter` with packed
4-bit counters, the `SuccinctCountingBloomFilter` with its unary inline counter
encoding plus overflow pool, and the `SuccinctCountingBlockedBloomFilter`.

Machine integers are modeled as `Nat` with explicit reduction modulo `2^64`
(resp. `2^32`) where the C++ code computes in `uint64_t` (resp. `uint32_t`).

Shift semantics: the C++ source applies variable shifts to `uint64_t` whose
count can reach 64 or more (for example `1ULL << (i * 4)` with `i` up to 63 in
the overflow-lane code, or `n >>= 8 * (bit & 0xf)` in the blocked filter).
ISO C++ leaves such shifts undefined; this code is a port of a Java original
(where `<<`/`>>` take the count mod 64) and is built and benchmarked on x86-64,
whose shift instructions mask the count to 6 bits.  The code plainly relies on
that behavior, so the embedding adopts it: `shl64`/`shr64` below reduce the
shift count modulo 64.  Arrays are modeled as functions `Nat → Nat` together
with the allocated length; the operations only ever access indices below the
length under the documented preconditions.
-/

set_option maxHeartbeats 1000000
set_option maxRecDepth 1000000

namespace counting_bloomfilter

/-- The modulus of 64-bit machine arithmetic. -/
def U64 : Nat := 2 ^ 64

/-- All-ones 64-bit word, `0xffffffffffffffff`. -/
def mask64 : Nat := 2 ^ 64 - 1

/-- A 64-bit left shift as executed on x86-64: count taken mod 64, result
truncated to 64 bits. -/
def shl64 (x n : Nat) : Nat := (x <<< (n % 64)) % U64

/-- A 64-bit right shift as executed on x86-64: count taken mod 64. -/
def shr64 (x n : Nat) : Nat := (x % U64) >>> (n % 64)

/-- Wrapping 64-bit addition. -/
def add64 (x y : Nat) : Nat := (x + y) % U64

/-- Wrapping 64-bit subtraction. -/
def sub64 (x y : Nat) : Nat := (x % U64 + (U64 - y % U64)) % U64

/-- Wrapping 64-bit multiplication. -/
def mul64 (x y : Nat) : Nat := (x * y) % U64

/-- Bitwise complement of a 64-bit word (C++ `~`). -/
def not64 (x : Nat) : Nat := mask64 ^^^ (x % U64)

/-- Bit-scan loop underlying `bitCount64`, structurally recursive on the number
of remaining bit positions. -/
def bitCountGo : Nat → Nat → Nat
  | 0, _ => 0
  | fuel + 1, x => x % 2 + bitCountGo fuel (x / 2)

/-- Translation of `bitCount64`, i.e. `__builtin_popcountll` on a 64-bit word:
the number of set bits among the 64 bit positions. -/
def bitCount64 (x : Nat) : Nat := bitCountGo 64 x

/-- Loop body of the portable (non-BMI2) branch of `select64`: scan the bits of
`x` from least significant upwards; on the bit where `n` reaches zero return the
index, and return `-1` when the 64 iterations are exhausted. -/
def select64Go (x n i fuel : Nat) : Int :=
  match fuel with
  | 0 => -1
  | fuel + 1 =>
    if x % 2 = 1 then
      if n = 0 then (i : Int) else select64Go (x / 2) (n - 1) (i + 1) fuel
    else select64Go (x / 2) n (i + 1) fuel

/-- Translation of `select64(x, n)` (portable fallback branch): the index of the
`n`-th (0-based) set bit of the 64-bit word `x`, or `-1` when fewer than `n+1`
bits are set.  The BMI2 branch agrees with this one whenever the requested bit
exists, which is the case at every call site of the filters. -/
def select64 (x : Nat) (n : Nat) : Int := select64Go x n 0 64

/-- Bit-length loop: number of binary digits of `x`, examining at most `fuel`
positions. -/
def bitLenGo : Nat → Nat → Nat
  | 0, _ => 0
  | fuel + 1, x => if x = 0 then 0 else bitLenGo fuel (x / 2) + 1

/-- Translation of `numberOfLeadingZeros64`, i.e. `__builtin_clzl` on a 64-bit
word; the C intrinsic is undefined at 0 (this model returns 64 there; every use
in the filters applies it to a nonzero word). -/
def numberOfLeadingZeros64 (x : Nat) : Nat := 64 - bitLenGo 64 (x % U64)

/-- Status codes of the filters. -/
inductive Status where
  | Ok
  | NotFound
  | NotEnoughSpace
  | NotSupported
deriving DecidableEq

/-- Translation of `reduce(hash, n)`: the Lemire fast range reduction
`((uint64_t)hash * n) >> 32` on two `uint32_t` arguments. -/
def reduce (hash n : Nat) : Nat := (hash % 2 ^ 32) * (n % 2 ^ 32) / 2 ^ 32

/-- Pointwise update of a function modeling an array store `f[i] = v`. -/
def upd (f : Nat → Nat) (i v : Nat) : Nat → Nat := fun j => if j = i then v else f j

/-! ### Ghost description of the succinct per-group counter encoding

A group holds 64 counter values `cnt 0, …, cnt 63`.  The presence word has bit
`i` set iff `cnt i > 0`, and the inline counter word concatenates, from the
least significant bit upwards, the unary codes of the nonzero counters in
increasing bit order: a counter of value `v` contributes `v-1` zero bits
followed by a one bit.  The following recursive functions describe that layout;
they are the specification against which the bit-twiddling source code of
`Increment` / `Decrement` / `ReadCount` is verified. -/

/-- Presence mask restricted to bit positions `< j`. -/
def maskBelow (cnt : Nat → Nat) : Nat → Nat
  | 0 => 0
  | j + 1 => maskBelow cnt j + (if cnt j = 0 then 0 else 2 ^ j)

/-- Sum of the counters at positions `< j`. -/
def sumBelow (cnt : Nat → Nat) : Nat → Nat
  | 0 => 0
  | j + 1 => sumBelow cnt j + cnt j

/-- Number of nonzero counters at positions `< j`. -/
def cntBelow (cnt : Nat → Nat) : Nat → Nat
  | 0 => 0
  | j + 1 => cntBelow cnt j + (if cnt j = 0 then 0 else 1)

/-- The unary-coded counter word restricted to the runs of positions `< j`. -/
def encBelow (cnt : Nat → Nat) : Nat → Nat
  | 0 => 0
  | j + 1 => encBelow cnt j + (if cnt j = 0 then 0 else 2 ^ (sumBelow cnt (j + 1) - 1))

/-- Top-down accumulation of the unary-coded word over the highest `r` bit
positions (`64-r, …, 63`), exactly like the demotion loop of `Decrement`
rebuilds it: each nonzero counter `v` contributes `((acc << 1) | 1) << (v-1)`. -/
def encAboveAux (cnt : Nat → Nat) : Nat → Nat
  | 0 => 0
  | r + 1 =>
    encAboveAux cnt r * 2 ^ cnt (63 - r) +
      (if cnt (63 - r) = 0 then 0 else 2 ^ (cnt (63 - r) - 1))

/-- The unary-coded word of the counters at positions `j, …, 63`. -/
def encAbove (cnt : Nat → Nat) (j : Nat) : Nat := encAboveAux cnt (64 - j)

/-- The full inline counter word of a group with counters `cnt`. -/
def encode (cnt : Nat → Nat) : Nat := encAbove cnt 0

/-- Total count of a group. -/
def totalOf (cnt : Nat → Nat) : Nat := sumBelow cnt 64

/-- Contents of the `w`-th word of a 4-word overflow slot: sixteen 4-bit lanes,
lane `j` of word `w` holding the counter of bit `16*w + j`. -/
def laneWordAux (cnt : Nat → Nat) (base : Nat) : Nat → Nat
  | 0 => 0
  | j + 1 => laneWordAux cnt base j + cnt (base + j) * 2 ^ (4 * j)

/-- The `w`-th 64-bit word of a 4-word overflow slot for counters `cnt`. -/
def laneWord (cnt : Nat → Nat) (w : Nat) : Nat := laneWordAux cnt (16 * w) 16

/-- Pointwise increment of one counter. -/
def bump1 (cnt : Nat → Nat) (bit : Nat) : Nat → Nat :=
  fun i => if i = bit then cnt i + 1 else cnt i

/-- Pointwise decrement of one counter. -/
def drop1 (cnt : Nat → Nat) (bit : Nat) : Nat → Nat :=
  fun i => if i = bit then cnt i - 1 else cnt i

/-! ### The inline-path code of the succinct filters

The bodies below are shared, line for line, by `SuccinctCountingBloomFilter`
and `SuccinctCountingBlockedBloomFilter` (the C++ duplicates the text). -/

/-- Inline branch of `Increment(group, bit)` acting on the presence word `m`
and counter word `c` (`counting_bloom.h` lines 355-365). -/
def incInline (m c : Nat) (bit : Nat) : Nat × Nat :=
  let m' := m ||| shl64 1 bit
  let bitsBefore := bitCount64 (m &&& shr64 mask64 (63 - bit))
  let before := select64 (shl64 c 1 ||| 1) bitsBefore
  let d := shr64 m bit &&& 1
  let insertAt := (before - (d : Int)).toNat
  let mask := sub64 (shl64 1 insertAt) 1
  let left := c &&& not64 mask
  let right := c &&& mask
  let c' := shl64 left 1 ||| shl64 (1 ^^^ d) insertAt ||| right
  (m', c')

/-- Inline branch of `Decrement(group, bit)` acting on the presence word `m`
and counter word `c` (`counting_bloom.h` lines 433-444). -/
def decInline (m c : Nat) (bit : Nat) : Nat × Nat :=
  let bitsBefore := bitCount64 (m &&& shr64 mask64 (63 - bit))
  let before := select64 (shl64 c 1 ||| 1) bitsBefore - 1
  let removeAt := (max 0 (before - 1)).toNat
  let mask := sub64 (shl64 1 removeAt) 1
  let left := shr64 c 1 &&& not64 mask
  let right := c &&& mask
  let c' := left ||| right
  let removed := shr64 c removeAt &&& 1
  (m &&& not64 (shl64 removed bit), c')

/-- Inline branch of `ReadCount(group, bit)` (`counting_bloom.h` lines 392-395),
assuming the presence bit is set. -/
def readInline (m c : Nat) (bit : Nat) : Nat :=
  let bitsBefore := bitCount64 (m &&& shr64 mask64 (63 - bit))
  let bitPos := (select64 c (bitsBefore - 1)).toNat
  let y := shl64 (shl64 c (63 - bitPos)) 1 ||| shl64 1 (63 - bitPos)
  numberOfLeadingZeros64 y + 1

/-! ### SuccinctCountingBloomFilter -/

/-- State of a `SuccinctCountingBloomFilter`: the presence plane `data`, the
counter plane `counts`, the overflow pool and the head of its free list, plus
the allocated lengths. -/
structure SuccinctCountingBloomFilter where
  arrayLength : Nat
  overflowLength : Nat
  data : Nat → Nat
  counts : Nat → Nat
  overflow : Nat → Nat
  nextFreeOverflow : Nat

/-- Short alias used throughout the development. -/
abbrev SCBF := SuccinctCountingBloomFilter

namespace SuccinctCountingBloomFilter

/-- Translation of the constructor `SuccinctCountingBloomFilter(n)`: the loop
`for (i = 0; i < overflowLength; i += 4) overflow[i] = i + 4` over the
zero-initialized overflow array. -/
def initFreeList (len : Nat) : Nat → Nat :=
  (List.range ((len + 3) / 4)).foldl (fun f s => upd f (4 * s) (4 * s + 4)) (fun _ => 0)

/-- Translation of the constructor `SuccinctCountingBloomFilter(n)` for the
template parameter `bits_per_item`. -/
def new (n bits_per_item : Nat) : SCBF :=
  let bitCount := n * bits_per_item
  let arrayLength := (bitCount + 63) / 64
  let overflowLength := 100 + arrayLength / 100 * 12
  { arrayLength := arrayLength
    overflowLength := overflowLength
    data := fun _ => 0
    counts := fun _ => 0
    overflow := initFreeList overflowLength
    nextFreeOverflow := 0 }

/-- Translation of `ReadCount(group, bit)`. -/
def ReadCount (s : SCBF) (group bit : Nat) : Nat :=
  let m := s.data group
  if shr64 m bit &&& 1 = 0 then 0
  else
    let c := s.counts group
    if c &&& 0x8000000000000000 ≠ 0 then
      let index := c &&& 0x0fffffff
      shr64 (s.overflow (index + bit / 16)) (4 * (bit &&& 0xf)) &&& 15
    else readInline m c bit

/-- Translation of `Increment(group, bit)`. -/
def Increment (s : SCBF) (group bit : Nat) : SCBF :=
  let m := s.data group
  let c := s.counts group
  if c &&& 0xc000000000000000 ≠ 0 then
    if c &&& 0x8000000000000000 = 0 then
      -- convert the group to an overflow entry
      let index := s.nextFreeOverflow
      if s.overflowLength ≤ index then
        -- "ERROR: overflow too small": set the presence bit and give up
        { s with data := upd s.data group (m ||| shl64 1 bit) }
      else
        let s1 : SCBF :=
          { s with
            nextFreeOverflow := s.overflow index
            overflow := upd (upd (upd (upd s.overflow index 0) (index + 1) 0)
                              (index + 2) 0) (index + 3) 0 }
        let s2 : SCBF := (List.range 64).foldl (fun t i =>
          let w := add64 (t.overflow (index + i / 16))
            (mul64 (ReadCount t group i) (shl64 1 (i * 4)))
          { t with overflow := upd t.overflow (index + i / 16) w }) s1
        let c1 := 0x8000000000000000 ||| (64 <<< 32) ||| index
        let s3 : SCBF := { s2 with counts := upd s2.counts group c1 }
        let w := add64 (s3.overflow (index + bit / 16)) (shl64 1 (bit * 4))
        { s3 with
          overflow := upd s3.overflow (index + bit / 16) w
          data := upd s3.data group (s3.data group ||| shl64 1 bit) }
    else
      -- already an overflow entry
      let index := c &&& 0x0fffffff
      let s1 : SCBF := { s with counts := upd s.counts group (add64 c (1 <<< 32)) }
      let w := add64 (s1.overflow (index + bit / 16)) (shl64 1 (bit * 4))
      { s1 with
        overflow := upd s1.overflow (index + bit / 16) w
        data := upd s1.data group (s1.data group ||| shl64 1 bit) }
  else
    let p := incInline m c bit
    { s with data := upd s.data group p.1, counts := upd s.counts group p.2 }

/-- Translation of `Decrement(group, bit)`. -/
def Decrement (s : SCBF) (group bit : Nat) : SCBF :=
  let m := s.data group
  let c := s.counts group
  if c &&& 0x8000000000000000 ≠ 0 then
    -- an overflow entry
    let index := c &&& 0x0fffffff
    let count := shr64 c 32 &&& 0x0fffffff
    let s1 : SCBF := { s with counts := upd s.counts group (sub64 c (1 <<< 32)) }
    let n := s1.overflow (index + bit / 16)
    let s2 : SCBF :=
      { s1 with overflow := upd s1.overflow (index + bit / 16) (sub64 n (shl64 1 (bit * 4))) }
    let s3 : SCBF :=
      if shr64 n (4 * (bit &&& 0xf)) &&& 0xf = 1 then
        { s2 with data := upd s2.data group (m &&& not64 (shl64 1 bit)) }
      else s2
    if count < 64 then
      -- convert back to an inline entry and free the overflow slot
      let c2 := (List.range 64).foldl (fun c2 jr =>
        let j := 63 - jr
        let cj := shr64 (s3.overflow (index + j / 16)) (4 * j) &&& 0xf
        if 0 < cj then shl64 (shl64 c2 1 ||| 1) (cj - 1) else c2) 0
      let s4 : SCBF := { s3 with counts := upd s3.counts group c2 }
      { s4 with
        overflow := upd s4.overflow index s4.nextFreeOverflow
        nextFreeOverflow := index }
    else s3
  else
    let p := decInline m c bit
    { s with data := upd s.data group p.1, counts := upd s.counts group p.2 }

/-- Probe loop of `Add(key)`: `k` rounds of `Increment(reduce(a, arrayLength),
a & 63)` with `a += b` between rounds (32-bit wrap). -/
def addLoop (s : SCBF) (a b : Nat) : Nat → SCBF
  | 0 => s
  | k + 1 =>
    addLoop (Increment s (reduce a s.arrayLength) (a &&& 63)) ((a + b) % 2 ^ 32) b k

/-- Translation of `Add(key)`; `hash` is the value `hasher(key)` produced by the
external hash family, `k` the probe-count template parameter. -/
def Add (s : SCBF) (k hash : Nat) : SCBF :=
  addLoop s ((hash >>> 32) % 2 ^ 32) (hash % 2 ^ 32) k

/-- Probe loop of `Remove(key)`. -/
def removeLoop (s : SCBF) (a b : Nat) : Nat → SCBF
  | 0 => s
  | k + 1 =>
    removeLoop (Decrement s (reduce a s.arrayLength) (a &&& 63)) ((a + b) % 2 ^ 32) b k

/-- Translation of `Remove(key)`. -/
def Remove (s : SCBF) (k hash : Nat) : SCBF :=
  removeLoop s ((hash >>> 32) % 2 ^ 32) (hash % 2 ^ 32) k

/-- Probe loop of `Contain(key)`. -/
def containLoop (s : SCBF) (a b : Nat) : Nat → Status
  | 0 => Status.Ok
  | k + 1 =>
    if shr64 (s.data (reduce a s.arrayLength)) (a &&& 63) &&& 1 = 0 then Status.NotFound
    else containLoop s ((a + b) % 2 ^ 32) b k

/-- Translation of `Contain(key)`. -/
def Contain (s : SCBF) (k hash : Nat) : Status :=
  containLoop s ((hash >>> 32) % 2 ^ 32) (hash % 2 ^ 32) k

end SuccinctCountingBloomFilter

namespace SuccinctCountingBloomFilter

/-- Translation of `AddBlock(tmp, block, len)`: replay `len` buffered probes of
one block, each packed as `(group << 6) + bit`. -/
def AddBlock (s : SCBF) (tmp : Nat → Nat) (block len : Nat) : SCBF :=
  (List.range len).foldl (fun t i =>
    let index := tmp ((block <<< 14) + i)
    Increment t (index >>> 6) (index &&& 63)) s

/-- Scratch state of `AddAll`: the probe buffer `tmp`, the per-block fill
levels `tmpLen`, and the filter being updated. -/
structure AddAllState where
  tmp : Nat → Nat
  tmpLen : Nat → Nat
  filt : SCBF

/-- One probe of `AddAll`: append `(index << 6) + (a & 63)` to the probe's
block, flushing the block when it reaches `blockLen = 1 << 14` entries. -/
def addAllProbe (bs : AddAllState) (a : Nat) : AddAllState :=
  let index := reduce a bs.filt.arrayLength
  let block := index >>> 14
  let len := bs.tmpLen block
  let tmp' := upd bs.tmp ((block <<< 14) + len) (((index <<< 6) + (a &&& 63)) % 2 ^ 32)
  if len + 1 = 2 ^ 14 then
    { tmp := tmp', tmpLen := upd bs.tmpLen block 0
      filt := AddBlock bs.filt tmp' block (len + 1) }
  else
    { tmp := tmp', tmpLen := upd bs.tmpLen block (len + 1), filt := bs.filt }

/-- The `k` probes of one key inside `AddAll`. -/
def addAllKey (bs : AddAllState) (a b : Nat) : Nat → AddAllState
  | 0 => bs
  | k + 1 => addAllKey (addAllProbe bs a) ((a + b) % 2 ^ 32) b k

/-- Translation of `AddAll(keys, start, end)` for hashed keys `hasher ∘ keys`;
processes keys `start, …, end-1`, then flushes every block in order. -/
def AddAll (s : SCBF) (k : Nat) (hasher : Nat → Nat) (keys : List Nat)
    (start stop : Nat) : SCBF :=
  let blocks := 1 + s.arrayLength / 2 ^ 14
  let bs0 : AddAllState := { tmp := fun _ => 0, tmpLen := fun _ => 0, filt := s }
  let bs1 := (List.range' start (stop - start)).foldl (fun bs i =>
    let hash := hasher (keys.getD i 0)
    addAllKey bs ((hash >>> 32) % 2 ^ 32) (hash % 2 ^ 32) k) bs0
  (List.range blocks).foldl (fun t block => AddBlock t bs1.tmp block (bs1.tmpLen block)) bs1.filt

/-- Sequential insertion `Add(keys[start]); …; Add(keys[stop-1])` for
comparison with `AddAll`. -/
def AddSeq (s : SCBF) (k : Nat) (hasher : Nat → Nat) (keys : List Nat)
    (start stop : Nat) : SCBF :=
  (List.range' start (stop - start)).foldl (fun t i => Add t k (hasher (keys.getD i 0))) s

end SuccinctCountingBloomFilter

/-! ### CountingBloomFilter (packed 4-bit counters) -/

/-- State of a plain `CountingBloomFilter`: one array of 64-bit words, sixteen
4-bit counters per word. -/
structure CountingBloomFilter where
  arrayLength : Nat
  data : Nat → Nat

namespace CountingBloomFilter

/-- Translation of the constructor `CountingBloomFilter(n)` for template
parameter `bits_per_item`. -/
def new (n bits_per_item : Nat) : CountingBloomFilter :=
  let bitCount := 4 * n * bits_per_item
  { arrayLength := (bitCount + 63) / 64, data := fun _ => 0 }

/-- Probe loop of `Add(key)`: `data[reduce(a, len)] += 1 << ((a << 2) & 0x3f)`. -/
def addLoop (s : CountingBloomFilter) (a b : Nat) : Nat → CountingBloomFilter
  | 0 => s
  | k + 1 =>
    let index := reduce a s.arrayLength
    let s' : CountingBloomFilter :=
      { s with data := upd s.data index (add64 (s.data index) (shl64 1 ((a <<< 2) &&& 0x3f))) }
    addLoop s' ((a + b) % 2 ^ 32) b k

/-- Translation of `Add(key)`. -/
def Add (s : CountingBloomFilter) (k hash : Nat) : CountingBloomFilter :=
  addLoop s ((hash >>> 32) % 2 ^ 32) (hash % 2 ^ 32) k

/-- Probe loop of `Remove(key)`. -/
def removeLoop (s : CountingBloomFilter) (a b : Nat) : Nat → CountingBloomFilter
  | 0 => s
  | k + 1 =>
    let index := reduce a s.arrayLength
    let s' : CountingBloomFilter :=
      { s with data := upd s.data index (sub64 (s.data index) (shl64 1 ((a <<< 2) &&& 0x3f))) }
    removeLoop s' ((a + b) % 2 ^ 32) b k

/-- Translation of `Remove(key)`. -/
def Remove (s : CountingBloomFilter) (k hash : Nat) : CountingBloomFilter :=
  removeLoop s ((hash >>> 32) % 2 ^ 32) (hash % 2 ^ 32) k

/-- Probe loop of `Contain(key)`: `NotFound` as soon as a probed nibble is 0. -/
def containLoop (s : CountingBloomFilter) (a b : Nat) : Nat → Status
  | 0 => Status.Ok
  | k + 1 =>
    if shr64 (s.data (reduce a s.arrayLength)) ((a <<< 2) &&& 0x3f) &&& 0xf = 0 then
      Status.NotFound
    else containLoop s ((a + b) % 2 ^ 32) b k

/-- Translation of `Contain(key)`. -/
def Contain (s : CountingBloomFilter) (k hash : Nat) : Status :=
  containLoop s ((hash >>> 32) % 2 ^ 32) (hash % 2 ^ 32) k

/-- Translation of `AddBlock(tmp, block, len)`: each buffered entry packs
`(index << 4) + (a & 0xf)`; the write is
`data[entry >> 4] += 1 << ((entry << 2) & 0x3f)`. -/
def AddBlock (s : CountingBloomFilter) (tmp : Nat → Nat) (block len : Nat) :
    CountingBloomFilter :=
  (List.range len).foldl (fun t i =>
    let index := tmp ((block <<< 14) + i)
    let w := add64 (t.data (index >>> 4)) (shl64 1 ((index <<< 2) &&& 0x3f))
    { t with data := upd t.data (index >>> 4) w }) s

/-- Scratch state of the plain filter's `AddAll`. -/
structure AddAllState where
  tmp : Nat → Nat
  tmpLen : Nat → Nat
  filt : CountingBloomFilter

/-- One probe of the plain filter's `AddAll`. -/
def addAllProbe (bs : AddAllState) (a : Nat) : AddAllState :=
  let index := reduce a bs.filt.arrayLength
  let block := index >>> 14
  let len := bs.tmpLen block
  let tmp' := upd bs.tmp ((block <<< 14) + len) (((index <<< 4) + (a &&& 0xf)) % 2 ^ 32)
  if len + 1 = 2 ^ 14 then
    { tmp := tmp', tmpLen := upd bs.tmpLen block 0
      filt := AddBlock bs.filt tmp' block (len + 1) }
  else
    { tmp := tmp', tmpLen := upd bs.tmpLen block (len + 1), filt := bs.filt }

/-- The `k` probes of one key inside the plain filter's `AddAll`. -/
def addAllKey (bs : AddAllState) (a b : Nat) : Nat → AddAllState
  | 0 => bs
  | k + 1 => addAllKey (addAllProbe bs a) ((a + b) % 2 ^ 32) b k

/-- Translation of the plain filter's `AddAll(keys, start, end)`. -/
def AddAll (s : CountingBloomFilter) (k : Nat) (hasher : Nat → Nat) (keys : List Nat)
    (start stop : Nat) : CountingBloomFilter :=
  let blocks := 1 + s.arrayLength / 2 ^ 14
  let bs0 : AddAllState := { tmp := fun _ => 0, tmpLen := fun _ => 0, filt := s }
  let bs1 := (List.range' start (stop - start)).foldl (fun bs i =>
    let hash := hasher (keys.getD i 0)
    addAllKey bs ((hash >>> 32) % 2 ^ 32) (hash % 2 ^ 32) k) bs0
  (List.range blocks).foldl (fun t block => AddBlock t bs1.tmp block (bs1.tmpLen block)) bs1.filt

/-- Sequential insertion for comparison with `AddAll`. -/
def AddSeq (s : CountingBloomFilter) (k : Nat) (hasher : Nat → Nat) (keys : List Nat)
    (start stop : Nat) : CountingBloomFilter :=
  (List.range' start (stop - start)).foldl (fun t i => Add t k (hasher (keys.getD i 0))) s

/-- The sixteen 4-bit counters of a word: counter `j` is `(w >> 4*j) & 0xf`. -/
def nib (w j : Nat) : Nat := w / 2 ^ (4 * j) % 16

end CountingBloomFilter

/-! ### SuccinctCountingBlockedBloomFilter (only the parts the claims need) -/

/-- State of a `SuccinctCountingBlockedBloomFilter`; its overflow slots are 8
words of eight 8-bit lanes each. -/
structure SuccinctCountingBlockedBloomFilter where
  bucketCount : Nat
  overflowLength : Nat
  data : Nat → Nat
  counts : Nat → Nat
  overflow : Nat → Nat
  nextFreeOverflow : Nat

namespace SuccinctCountingBlockedBloomFilter

/-- Translation of the blocked filter's `Decrement(group, bit)` (8-bit lanes,
slot size 8). -/
def Decrement (s : SuccinctCountingBlockedBloomFilter) (group bit : Nat) :
    SuccinctCountingBlockedBloomFilter :=
  let m := s.data group
  let c := s.counts group
  if c &&& 0x8000000000000000 ≠ 0 then
    -- an overflow entry
    let index := c &&& 0x0fffffff
    let count := shr64 c 32 &&& 0x0fffffff
    let s1 : SuccinctCountingBlockedBloomFilter :=
      { s with counts := upd s.counts group (sub64 c (1 <<< 32)) }
    let n := s1.overflow (index + bit / 8)
    let s2 : SuccinctCountingBlockedBloomFilter :=
      { s1 with overflow := upd s1.overflow (index + bit / 8) (sub64 n (shl64 1 (bit * 8))) }
    let s3 : SuccinctCountingBlockedBloomFilter :=
      if shr64 n (8 * (bit &&& 0xf)) &&& 0xff = 1 then
        { s2 with data := upd s2.data group (m &&& not64 (shl64 1 bit)) }
      else s2
    if count < 64 then
      let c2 := (List.range 64).foldl (fun c2 jr =>
        let j := 63 - jr
        let cj := shr64 (s3.overflow (index + j / 8)) (8 * j) &&& 0xff
        if 0 < cj then shl64 (shl64 c2 1 ||| 1) (cj - 1) else c2) 0
      let s4 : SuccinctCountingBlockedBloomFilter :=
        { s3 with counts := upd s3.counts group c2 }
      { s4 with
        overflow := upd s4.overflow index s4.nextFreeOverflow
        nextFreeOverflow := index }
    else s3
  else
    let p := decInline m c bit
    { s with data := upd s.data group p.1, counts := upd s.counts group p.2 }

/-- Translation of the blocked filter's `ReadCount(group, bit)`. -/
def ReadCount (s : SuccinctCountingBlockedBloomFilter) (group bit : Nat) : Nat :=
  let m := s.data group
  if shr64 m bit &&& 1 = 0 then 0
  else
    let c := s.counts group
    if c &&& 0x8000000000000000 ≠ 0 then
      let index := c &&& 0x0fffffff
      shr64 (s.overflow (index + bit / 8)) (8 * (bit &&& 0xff)) &&& 0xff
    else readInline m c bit

/-- The 8-bit overflow lane of `bit` in the slot at `index`, as laid out by the
blocked filter's promotion loop (`overflow[index + i/8] += n * (1 << (i*8))`,
shift count taken mod 64). -/
def lane8 (ov : Nat → Nat) (index bit : Nat) : Nat :=
  shr64 (ov (index + bit / 8)) (8 * (bit % 8)) &&& 0xff

end SuccinctCountingBlockedBloomFilter

/-! ### Operation sequences over one succinct filter, and their abstract counts -/

/-- A single codec operation on the succinct filter. -/
inductive Op where
  | inc (g bit : Nat)
  | dec (g bit : Nat)
deriving DecidableEq

/-- Apply one operation. -/
def applyOp (s : SCBF) : Op → SCBF
  | .inc g bit => s.Increment g bit
  | .dec g bit => s.Decrement g bit

/-- Run a list of operations from the left. -/
def runOps (s : SCBF) : List Op → SCBF
  | [] => s
  | op :: rest => runOps (applyOp s op) rest

/-- Pointwise increment of an abstract count table. -/
def rcInc (rc : Nat → Nat → Nat) (g bit : Nat) : Nat → Nat → Nat :=
  fun g' b' => if g' = g ∧ b' = bit then rc g' b' + 1 else rc g' b'

/-- Pointwise decrement of an abstract count table. -/
def rcDec (rc : Nat → Nat → Nat) (g bit : Nat) : Nat → Nat → Nat :=
  fun g' b' => if g' = g ∧ b' = bit then rc g' b' - 1 else rc g' b'

/-- Abstract count table after running the operations starting from `rc`. -/
def rcFrom (rc : Nat → Nat → Nat) : List Op → Nat → Nat → Nat
  | [] => rc
  | .inc g b :: rest => rcFrom (rcInc rc g b) rest
  | .dec g b :: rest => rcFrom (rcDec rc g b) rest

/-- Number of increments minus number of decrements applied to each position by
an operation sequence (the "real count" of the source's `VERIFY_COUNT` mode). -/
def rcAfter (ops : List Op) : Nat → Nat → Nat := rcFrom (fun _ _ => 0) ops

/-- Validity of an operation sequence relative to the running abstract counts:
indices in range, never decrement a zero position, and never push one
position's count beyond 15 (the width of an overflow lane). -/
def ValidFrom (len : Nat) (rc : Nat → Nat → Nat) : List Op → Prop
  | [] => True
  | .inc g b :: rest => g < len ∧ b < 64 ∧ rc g b ≤ 14 ∧ ValidFrom len (rcInc rc g b) rest
  | .dec g b :: rest => g < len ∧ b < 64 ∧ 1 ≤ rc g b ∧ ValidFrom len (rcDec rc g b) rest

/-- Validity of an operation sequence from the empty abstract state. -/
def ValidOps (len : Nat) (ops : List Op) : Prop := ValidFrom len (fun _ _ => 0) ops

/-- The next `Increment` on this group would convert it to an overflow entry:
top two bits of the counter word nonzero but the promoted flag still clear. -/
def WillConvert (s : SCBF) (g : Nat) : Prop :=
  s.counts g &&& 0xc000000000000000 ≠ 0 ∧ s.counts g &&& 0x8000000000000000 = 0

/-- Along the run, every conversion to an overflow entry finds a free slot
(the claims' "the overflow pool is never exhausted"). -/
def NoExhaust (s : SCBF) : List Op → Prop
  | [] => True
  | op :: rest =>
    (match op with
     | .inc g _ => WillConvert s g → s.nextFreeOverflow < s.overflowLength
     | .dec _ _ => True) ∧ NoExhaust (applyOp s op) rest

/-! ### The state invariant tying a filter to its abstract counts -/

/-- The group has been promoted to an overflow entry (top bit of its counter
word). -/
def IsPromoted (s : SCBF) (g : Nat) : Prop :=
  s.counts g &&& 0x8000000000000000 ≠ 0

instance (s : SCBF) (g : Nat) : Decidable (IsPromoted s g) := by
  unfold IsPromoted; infer_instance

/-- The overflow-slot index stored in a promoted group's header. -/
def slotIdx (s : SCBF) (g : Nat) : Nat := s.counts g &&& 0x0fffffff

/-- The total count stored in a promoted group's header. -/
def headerTotal (s : SCBF) (g : Nat) : Nat := shr64 (s.counts g) 32 &&& 0x0fffffff

/-- The free list of the overflow pool, read off by chasing `overflow[slot]`
words from `nextFreeOverflow`; it ends at the first index at or beyond
`overflowLength`. -/
def Chain (ov : Nat → Nat) (len : Nat) : Nat → List Nat → Prop
  | n, [] => len ≤ n
  | n, a :: rest => n = a ∧ a < len ∧ Chain ov len (ov a) rest

/-- Configuration facts fixed at construction: the pool length is a multiple of
the slot size and the slot indices fit the 28-bit header field. -/
def CfgInv (s : SCBF) : Prop :=
  s.overflowLength % 4 = 0 ∧ s.overflowLength ≤ 0x0fffffff

/-- Per-group invariant: `data` is the presence mask of the abstract counts and
`counts` is either the inline unary encoding (total ≤ 63) or a well-formed
header whose slot lanes hold the counts (total ≥ 63). -/
def GroupInv (s : SCBF) (rc : Nat → Nat → Nat) (g : Nat) : Prop :=
  (s.arrayLength ≤ g → ∀ i, rc g i = 0) ∧
  (∀ i, 64 ≤ i → rc g i = 0) ∧
  (∀ i, rc g i ≤ 15) ∧
  s.data g = maskBelow (rc g) 64 ∧
  (¬ IsPromoted s g → s.counts g = encode (rc g) ∧ totalOf (rc g) ≤ 63) ∧
  (IsPromoted s g →
    s.counts g = 2 ^ 63 + totalOf (rc g) * 2 ^ 32 + slotIdx s g ∧
    slotIdx s g % 4 = 0 ∧
    slotIdx s g + 3 < s.overflowLength ∧
    63 ≤ totalOf (rc g) ∧
    ∀ w, w < 4 → s.overflow (slotIdx s g + w) = laneWord (rc g) w)

/-- Pool invariant: some list `fl` is the free list; it has no duplicates, all
its entries are slot-aligned and in range, a slot is free exactly when no
promoted group owns it, and promoted groups own distinct slots. -/
def PoolInv (s : SCBF) (fl : List Nat) : Prop :=
  Chain s.overflow s.overflowLength s.nextFreeOverflow fl ∧
  fl.Nodup ∧
  (∀ a ∈ fl, a % 4 = 0 ∧ a < s.overflowLength) ∧
  (∀ slot, slot % 4 = 0 → slot < s.overflowLength →
    (slot ∈ fl ↔ ∀ g, IsPromoted s g → slotIdx s g ≠ slot)) ∧
  (∀ g g', IsPromoted s g → IsPromoted s g' → slotIdx s g = slotIdx s g' → g = g')

/-- The full invariant relating a reachable filter state to its abstract count
table. -/
def Inv (s : SCBF) (rc : Nat → Nat → Nat) : Prop :=
  CfgInv s ∧ (∀ g, GroupInv s rc g) ∧ ∃ fl, PoolInv s fl

/-! ### Ghost helpers used only inside proofs -/

/-- Population count (proof-side companion of `bitCount64`). -/
def popc (x : Nat) : Nat :=
  if x = 0 then 0 else x % 2 + popc (x / 2)
termination_by x
decreasing_by exact Nat.div_lt_self (by omega) (by omega)

/-- Index of the `n`-th (0-based) set bit of `x` (proof-side companion of
`select64`; meaningful when `n < popc x`). -/
def selNat (x n : Nat) : Nat :=
  if x = 0 then 0
  else if x % 2 = 1 then (if n = 0 then 0 else selNat (x / 2) (n - 1) + 1)
  else selNat (x / 2) n + 1
termination_by x
decreasing_by all_goals exact Nat.div_lt_self (by omega) (by omega)

/-- The probe operations of one `Add` call, as an abstract operation list:
`k` rounds of `inc (reduce a len) (a & 63)` with `a += b` (32-bit wrap). -/
def incOps (len : Nat) : Nat → Nat → Nat → List Op
  | _, _, 0 => []
  | a, b, k + 1 => Op.inc (reduce a len) (a &&& 63) :: incOps len ((a + b) % 2 ^ 32) b k

/-- The probe operations of one `Remove` call. -/
def decOps (len : Nat) : Nat → Nat → Nat → List Op
  | _, _, 0 => []
  | a, b, k + 1 => Op.dec (reduce a len) (a &&& 63) :: decOps len ((a + b) % 2 ^ 32) b k

/-- The probe operations of adding every key of a list in order. -/
def addOpsAll (len k : Nat) (hasher : Nat → Nat) : List Nat → List Op
  | [] => []
  | key :: keys =>
    incOps len ((hasher key >>> 32) % 2 ^ 32) (hasher key % 2 ^ 32) k
      ++ addOpsAll len k hasher keys

/-- The probe operations of removing every key of a list in order. -/
def remOpsAll (len k : Nat) (hasher : Nat → Nat) : List Nat → List Op
  | [] => []
  | key :: keys =>
    decOps len ((hasher key >>> 32) % 2 ^ 32) (hasher key % 2 ^ 32) k
      ++ remOpsAll len k hasher keys

/-- Number of increment operations a list applies at one position. -/
def countIncAt : List Op → Nat → Nat → Nat
  | [], _, _ => 0
  | Op.inc g b :: rest, gq, bq =>
    (if g = gq ∧ b = bq then 1 else 0) + countIncAt rest gq bq
  | Op.dec _ _ :: rest, gq, bq => countIncAt rest gq bq

/-- Number of decrement operations a list applies at one position. -/
def countDecAt : List Op → Nat → Nat → Nat
  | [], _, _ => 0
  | Op.dec g b :: rest, gq, bq =>
    (if g = gq ∧ b = bq then 1 else 0) + countDecAt rest gq bq
  | Op.inc _ _ :: rest, gq, bq => countDecAt rest gq bq

/-- The list holds only increment operations. -/
def IsIncList : List Op → Prop
  | [] => True
  | Op.inc _ _ :: rest => IsIncList rest
  | Op.dec _ _ :: rest => False

/-- The list holds only decrement operations, all with in-range indices. -/
def DecBounded (len : Nat) : List Op → Prop
  | [] => True
  | Op.dec g b :: rest => g < len ∧ b < 64 ∧ DecBounded len rest
  | Op.inc _ _ :: rest => False

/-- Effect of one buffered 32-bit probe entry on the plain filter:
`data[e >> 4] += 1 << ((e << 2) & 0x3f)` (the body of `AddBlock`). -/
def applyEntry (t : CountingBloomFilter) (e : Nat) : CountingBloomFilter :=
  { t with data := upd t.data (e >>> 4) (add64 (t.data (e >>> 4)) (shl64 1 ((e <<< 2) &&& 0x3f))) }

/-- The packed probe entry of hash word `a` on a plain filter of `len` words,
as buffered by `AddAll`. -/
def probeEntry (len a : Nat) : Nat := ((reduce a len <<< 4) + (a &&& 0xf)) % 2 ^ 32

/-- The packed entries of the `k` probes of one key, in probe order. -/
def probeEntries (len : Nat) : Nat → Nat → Nat → List Nat
  | _, _, 0 => []
  | a, b, c + 1 => probeEntry len a :: probeEntries len ((a + b) % 2 ^ 32) b c

/-- The packed entries of the probes of `c` consecutive keys starting at
index `start`, in sequential probe order. -/
def seqEntries (len kk : Nat) (hasher : Nat → Nat) (keys : List Nat) : Nat → Nat → List Nat
  | _, 0 => []
  | start, c + 1 =>
    probeEntries len ((hasher (keys.getD start 0) >>> 32) % 2 ^ 32)
        (hasher (keys.getD start 0) % 2 ^ 32) kk
      ++ seqEntries len kk hasher keys (start + 1) c

/-- The buffered (not yet applied) entries of block `b`, in buffer order. -/
def pendingIn (bs : CountingBloomFilter.AddAllState) (b : Nat) : List Nat :=
  (List.range (bs.tmpLen b)).map (fun i => bs.tmp ((b <<< 14) + i))

/-- The buffered entries of the first `B` blocks, in block order. -/
def pendingAll (bs : CountingBloomFilter.AddAllState) : Nat → List Nat
  | 0 => []
  | B + 1 => pendingAll bs B ++ pendingIn bs B

/-! ## Proofs -/

theorem U64_pos : 0 < U64 := by norm_num [U64]

theorem mod_U64_of_lt {x : Nat} (h : x < U64) : x % U64 = x := Nat.mod_eq_of_lt h

theorem two_pow_le_U64 {t : Nat} (h : t ≤ 64) : 2 ^ t ≤ U64 :=
  Nat.pow_le_pow_right (by norm_num) h

/-- Bits of `a * 2^k + b` when `b < 2^k`: low bits from `b`, high bits from `a`. -/
theorem testBit_mulAdd {k b : Nat} (a i : Nat) (hb : b < 2 ^ k) :
    (a * 2 ^ k + b).testBit i = if i < k then b.testBit i else a.testBit (i - k) := by
  rcases lt_or_ge i k with h | h
  · simp only [if_pos h, Nat.testBit_to_div_mod]
    have hk : a * 2 ^ k = a * 2 ^ (k - i - 1) * 2 * 2 ^ i := by
      rw [mul_assoc, mul_assoc, ← pow_succ']
      rw [← pow_add]
      congr 2
      omega
    rw [Nat.add_comm, hk, Nat.add_mul_div_right _ _ (Nat.two_pow_pos i),
      Nat.add_mul_mod_self_right]
  · simp only [if_neg (Nat.not_lt.mpr h)]
    have hk : 2 ^ i = 2 ^ k * 2 ^ (i - k) := by rw [← pow_add]; congr 1; omega
    simp only [Nat.testBit_to_div_mod, hk, ← Nat.div_div_eq_div_mul]
    congr 2
    rw [Nat.add_comm, Nat.add_mul_div_right _ _ (Nat.two_pow_pos k),
      Nat.div_eq_of_lt hb, Nat.zero_add]

/-- Disjoint `or` is addition: `a * 2^k ||| b = a * 2^k + b` when `b < 2^k`. -/
theorem lor_mulAdd {k b : Nat} (a : Nat) (hb : b < 2 ^ k) :
    a * 2 ^ k ||| b = a * 2 ^ k + b := by
  apply Nat.eq_of_testBit_eq
  intro i
  rw [Nat.testBit_lor, testBit_mulAdd a i hb, ← Nat.shiftLeft_eq, Nat.testBit_shiftLeft]
  rcases lt_or_ge i k with h | h
  · have h1 : ¬ (i ≥ k) := by omega
    simp [h, h1]
  · have h1 : ¬ (i < k) := by omega
    have h2 : b.testBit i = false :=
      Nat.testBit_lt_two_pow (lt_of_lt_of_le hb (Nat.pow_le_pow_right (by norm_num) h))
    simp [h, h1, h2]

/-- Low-bits mask: `x &&& (2^t - 1) = x % 2^t`. -/
theorem and_two_pow_sub_one (x t : Nat) : x &&& (2 ^ t - 1) = x % 2 ^ t := by
  apply Nat.eq_of_testBit_eq
  intro i
  simp [Nat.testBit_land, Nat.testBit_two_pow_sub_one, Nat.testBit_mod_two_pow, Bool.and_comm]

theorem not64_two_pow_sub_one {t : Nat} (h : t ≤ 64) :
    not64 (2 ^ t - 1) = (2 ^ (64 - t) - 1) * 2 ^ t := by
  have hlt : 2 ^ t - 1 < U64 := by
    have := two_pow_le_U64 h
    have := Nat.two_pow_pos t
    omega
  have hmask : ∀ j, mask64.testBit j = decide (j < 64) := fun j => by
    rw [mask64, Nat.testBit_two_pow_sub_one]
  have hmul : ∀ j, ((2 ^ (64 - t) - 1) * 2 ^ t).testBit j
      = if j < t then false else decide (j - t < 64 - t) := by
    intro j
    rw [show (2 ^ (64 - t) - 1) * 2 ^ t = (2 ^ (64 - t) - 1) * 2 ^ t + 0 from
        (Nat.add_zero _).symm,
      testBit_mulAdd _ j (Nat.two_pow_pos t)]
    rcases lt_or_ge j t with hj | hj
    · simp [hj]
    · simp [if_neg (Nat.not_lt.mpr hj), Nat.testBit_two_pow_sub_one]
  apply Nat.eq_of_testBit_eq
  intro i
  rw [not64, mod_U64_of_lt hlt, Nat.testBit_xor, hmask, hmul,
    Nat.testBit_two_pow_sub_one]
  rcases lt_or_ge i t with hi | hi
  · have h64 : i < 64 := by omega
    simp [hi, h64]
  · have hiff : (i < 64) ↔ (i - t < 64 - t) := by omega
    simp [Nat.not_lt.mpr hi, if_neg (Nat.not_lt.mpr hi), hiff]

/-- Clearing the low `t` bits of a 64-bit value keeps the upper part. -/
theorem and_not64_mask {x t : Nat} (hx : x < U64) (ht : t ≤ 64) :
    x &&& not64 (2 ^ t - 1) = x / 2 ^ t * 2 ^ t := by
  have h0 : (0 : Nat) < 2 ^ t := Nat.two_pow_pos t
  have hmul : ∀ j, ((2 ^ (64 - t) - 1) * 2 ^ t).testBit j
      = if j < t then false else decide (j - t < 64 - t) := by
    intro j
    rw [show (2 ^ (64 - t) - 1) * 2 ^ t = (2 ^ (64 - t) - 1) * 2 ^ t + 0 from
        (Nat.add_zero _).symm,
      testBit_mulAdd _ j h0]
    rcases lt_or_ge j t with hj | hj
    · simp [hj]
    · simp [if_neg (Nat.not_lt.mpr hj), Nat.testBit_two_pow_sub_one]
  have hdivmul : ∀ j, (x / 2 ^ t * 2 ^ t).testBit j
      = if j < t then false else x.testBit j := by
    intro j
    rw [show x / 2 ^ t * 2 ^ t = x / 2 ^ t * 2 ^ t + 0 from (Nat.add_zero _).symm,
      testBit_mulAdd _ j h0]
    rcases lt_or_ge j t with hj | hj
    · simp [hj]
    · rw [if_neg (Nat.not_lt.mpr hj), if_neg (Nat.not_lt.mpr hj),
        ← Nat.shiftRight_eq_div_pow, Nat.testBit_shiftRight,
        show t + (j - t) = j from by omega]
  apply Nat.eq_of_testBit_eq
  intro i
  rw [not64_two_pow_sub_one ht, Nat.testBit_land, hmul, hdivmul]
  rcases lt_or_ge i t with hi | hi
  · simp [hi]
  · rw [if_neg (Nat.not_lt.mpr hi), if_neg (Nat.not_lt.mpr hi)]
    rcases lt_or_ge i 64 with h64 | h64
    · simp [show i - t < 64 - t from by omega]
    · have hxi : x.testBit i = false :=
        Nat.testBit_lt_two_pow
          (lt_of_lt_of_le hx (by rw [U64]; exact Nat.pow_le_pow_right (by norm_num) h64))
      simp [show ¬ (i - t < 64 - t) from by omega, hxi]

theorem shl64_eq {x n : Nat} (hn : n < 64) : shl64 x n = x * 2 ^ n % U64 := by
  rw [shl64, Nat.mod_eq_of_lt hn, Nat.shiftLeft_eq]

theorem shl64_small {x n : Nat} (hn : n < 64) (hx : x * 2 ^ n < U64) :
    shl64 x n = x * 2 ^ n := by
  rw [shl64_eq hn, Nat.mod_eq_of_lt hx]

theorem shl64_one {n : Nat} (hn : n < 64) : shl64 1 n = 2 ^ n := by
  rw [shl64_small hn (by simpa using Nat.pow_lt_pow_right (a := 2) (by norm_num) hn), one_mul]

theorem shr64_eq {x n : Nat} (hx : x < U64) (hn : n < 64) : shr64 x n = x / 2 ^ n := by
  rw [shr64, Nat.mod_eq_of_lt hx, Nat.mod_eq_of_lt hn, Nat.shiftRight_eq_div_pow]

theorem add64_eq {x y : Nat} (h : x + y < U64) : add64 x y = x + y := by
  rw [add64, Nat.mod_eq_of_lt h]

theorem sub64_eq {x y : Nat} (hx : x < U64) (hyx : y ≤ x) : sub64 x y = x - y := by
  have hy : y < U64 := lt_of_le_of_lt hyx hx
  rw [sub64, Nat.mod_eq_of_lt hx, Nat.mod_eq_of_lt hy]
  have h1 : x + (U64 - y) = (x - y) + U64 := by omega
  rw [h1, Nat.add_mod_right, Nat.mod_eq_of_lt (by omega)]

theorem mul64_eq {x y : Nat} (h : x * y < U64) : mul64 x y = x * y := by
  rw [mul64, Nat.mod_eq_of_lt h]

/-- The 64-bit `and` with a mask of the top bits keeps the upper part. -/
theorem and_top_mask {x t : Nat} (hx : x < U64) (ht : t ≤ 64)
    (hm : m = not64 (2 ^ t - 1)) : x &&& m = x / 2 ^ t * 2 ^ t := by
  rw [hm, and_not64_mask hx ht]

/-- The top-two-bits test of `Increment`: zero iff the counter word is below
`2^62`. -/
theorem and_ctop_eq_zero_iff {x : Nat} (hx : x < U64) :
    x &&& 0xc000000000000000 = 0 ↔ x < 2 ^ 62 := by
  have hc : (0xc000000000000000 : Nat) = not64 (2 ^ 62 - 1) := by
    rw [not64_two_pow_sub_one (by norm_num)]
    norm_num
  rw [hc, and_not64_mask hx (by norm_num)]
  constructor
  · intro h
    have h2 : x / 2 ^ 62 = 0 := by
      have hpos : (0 : Nat) < 2 ^ 62 := Nat.two_pow_pos 62
      rcases Nat.mul_eq_zero.mp h with h1 | h1
      · exact h1
      · omega
    exact (Nat.div_eq_zero_iff (Nat.two_pow_pos 62)).mp h2
  · intro h
    rw [Nat.div_eq_of_lt h, Nat.zero_mul]

/-- The promoted-flag test: zero iff the counter word is below `2^63`. -/
theorem and_top_eq_zero_iff {x : Nat} (hx : x < U64) :
    x &&& 0x8000000000000000 = 0 ↔ x < 2 ^ 63 := by
  have hc : (0x8000000000000000 : Nat) = not64 (2 ^ 63 - 1) := by
    rw [not64_two_pow_sub_one (by norm_num)]
    norm_num
  rw [hc, and_not64_mask hx (by norm_num)]
  constructor
  · intro h
    have h2 : x / 2 ^ 63 = 0 := by
      have hpos : (0 : Nat) < 2 ^ 63 := Nat.two_pow_pos 63
      rcases Nat.mul_eq_zero.mp h with h1 | h1
      · exact h1
      · omega
    exact (Nat.div_eq_zero_iff (Nat.two_pow_pos 63)).mp h2
  · intro h
    rw [Nat.div_eq_of_lt h, Nat.zero_mul]

/-! ### Population count, select and bit length -/

theorem popc_zero : popc 0 = 0 := by
  unfold popc
  simp

theorem popc_decomp (x : Nat) : x % 2 + popc (x / 2) = popc x := by
  by_cases h : x = 0
  · subst h
    simp [popc_zero]
  · conv_rhs => rw [popc]
    rw [if_neg h]

theorem popc_eq_zero_iff {x : Nat} : popc x = 0 ↔ x = 0 := by
  constructor
  · intro h
    by_contra hx
    rw [popc, if_neg hx] at h
    rcases Nat.eq_zero_of_add_eq_zero_right h with h2
    have h3 := Nat.eq_zero_of_add_eq_zero_left h
    have h4 : x / 2 = 0 := popc_eq_zero_iff.mp h3
    omega
  · intro h
    subst h
    exact popc_zero
termination_by x
decreasing_by exact Nat.div_lt_self (by omega) (by omega)

theorem bitCountGo_spec : ∀ fuel x, x < 2 ^ fuel → bitCountGo fuel x = popc x
  | 0, x, h => by
    have hx : x = 0 := by simpa using h
    subst hx
    simp [bitCountGo, popc_zero]
  | fuel + 1, x, h => by
    have hdiv : x / 2 < 2 ^ fuel := by
      rw [Nat.div_lt_iff_lt_mul (by norm_num), ← pow_succ]
      exact h
    rw [bitCountGo, bitCountGo_spec fuel (x / 2) hdiv, popc_decomp]

/-- `bitCount64` agrees with the ghost population count on 64-bit words. -/
theorem bitCount64_eq {x : Nat} (hx : x < U64) : bitCount64 x = popc x :=
  bitCountGo_spec 64 x hx

theorem popc_mulAdd : ∀ (k a b : Nat), b < 2 ^ k → popc (a * 2 ^ k + b) = popc a + popc b
  | 0, a, b, hb => by
    have hb0 : b = 0 := by omega
    subst hb0
    simp [popc_zero]
  | k + 1, a, b, hb => by
    rcases Nat.eq_zero_or_pos (a * 2 ^ (k + 1) + b) with h0 | hpos
    · have ha : a = 0 := by
        have := Nat.two_pow_pos (k + 1)
        rcases Nat.add_eq_zero.mp h0 with ⟨h1, h2⟩
        rcases Nat.mul_eq_zero.mp h1 with h3 | h3
        · exact h3
        · omega
      have hb0 : b = 0 := by
        rcases Nat.add_eq_zero.mp h0 with ⟨h1, h2⟩
        exact h2
      subst ha
      subst hb0
      simp [popc_zero]
    · have hb2 : b / 2 < 2 ^ k := by
        rw [Nat.div_lt_iff_lt_mul (by norm_num), ← pow_succ]
        exact hb
      have hmod : (a * 2 ^ (k + 1) + b) % 2 = b % 2 := by
        rw [pow_succ, ← mul_assoc]
        omega
      have hdiv : (a * 2 ^ (k + 1) + b) / 2 = a * 2 ^ k + b / 2 := by
        rw [pow_succ, ← mul_assoc]
        omega
      rw [← popc_decomp (a * 2 ^ (k + 1) + b), hmod, hdiv,
        popc_mulAdd k a (b / 2) hb2, ← popc_decomp b]
      ring

theorem popc_two_pow (t : Nat) : popc (2 ^ t) = 1 := by
  have h := popc_mulAdd t 1 0 (Nat.two_pow_pos t)
  simpa [popc_zero, show popc 1 = 1 from by rw [popc]; simp [popc_zero]] using h

theorem popc_two_pow_sub_one (t : Nat) : popc (2 ^ t - 1) = t := by
  induction t with
  | zero => simp [popc_zero]
  | succ t ih =>
    have h : 2 ^ (t + 1) - 1 = (2 ^ t - 1) * 2 ^ 1 + 1 := by
      have := Nat.two_pow_pos t
      rw [pow_succ]
      omega
    rw [h, popc_mulAdd 1 _ 1 (by norm_num), ih,
      show popc 1 = 1 from by rw [popc]; simp [popc_zero]]

theorem popc_pos_of_ne_zero {x : Nat} (h : x ≠ 0) : 0 < popc x := by
  rcases Nat.eq_zero_or_pos (popc x) with h0 | h0
  · exact absurd (popc_eq_zero_iff.mp h0) h
  · exact h0

theorem selNat_unfold (x n : Nat) :
    selNat x n = if x = 0 then 0
      else if x % 2 = 1 then (if n = 0 then 0 else selNat (x / 2) (n - 1) + 1)
      else selNat (x / 2) n + 1 := by
  rw [selNat]

theorem selNat_odd_zero {x : Nat} (hodd : x % 2 = 1) : selNat x 0 = 0 := by
  rw [selNat_unfold, if_neg (by omega), if_pos hodd, if_pos rfl]

theorem selNat_odd_succ {x n : Nat} (hodd : x % 2 = 1) (hn : n ≠ 0) :
    selNat x n = selNat (x / 2) (n - 1) + 1 := by
  rw [selNat_unfold, if_neg (by omega), if_pos hodd, if_neg hn]

theorem selNat_even {x n : Nat} (hx : x ≠ 0) (heven : x % 2 = 0) :
    selNat x n = selNat (x / 2) n + 1 := by
  rw [selNat_unfold, if_neg hx, if_neg (by omega)]

/-- The `n`-th set bit of `a * 2^k + b` lies in `b` when `n < popc b`. -/
theorem selNat_low : ∀ (k a b n : Nat), b < 2 ^ k → n < popc b →
    selNat (a * 2 ^ k + b) n = selNat b n
  | 0, a, b, n, hb, hn => by
    have hb0 : b = 0 := by omega
    subst hb0
    rw [popc_zero] at hn
    omega
  | k + 1, a, b, n, hb, hn => by
    have hbne : b ≠ 0 := fun h => by
      subst h
      rw [popc_zero] at hn
      omega
    have hvne : a * 2 ^ (k + 1) + b ≠ 0 := by
      have := Nat.pos_of_ne_zero hbne
      omega
    have hb2 : b / 2 < 2 ^ k := by
      rw [Nat.div_lt_iff_lt_mul (by norm_num), ← pow_succ]
      exact hb
    have hmod : (a * 2 ^ (k + 1) + b) % 2 = b % 2 := by
      rw [pow_succ, ← mul_assoc]
      omega
    have hdiv : (a * 2 ^ (k + 1) + b) / 2 = a * 2 ^ k + b / 2 := by
      rw [pow_succ, ← mul_assoc]
      omega
    rcases Nat.mod_two_eq_zero_or_one b with hpar | hpar
    · rw [selNat_even hvne (by omega : (a * 2 ^ (k + 1) + b) % 2 = 0), hdiv,
        selNat_even hbne hpar]
      have hpb : popc (b / 2) = popc b := by
        rw [← popc_decomp b, hpar]
        omega
      rw [selNat_low k a (b / 2) n hb2 (by omega)]
    · have hmod1 : (a * 2 ^ (k + 1) + b) % 2 = 1 := by omega
      by_cases hn0 : n = 0
      · subst hn0
        rw [selNat_odd_zero hmod1, selNat_odd_zero hpar]
      · rw [selNat_odd_succ hmod1 hn0, hdiv, selNat_odd_succ hpar hn0]
        have hpb : popc (b / 2) + 1 = popc b := by
          rw [← popc_decomp b, hpar]
          omega
        rw [selNat_low k a (b / 2) (n - 1) hb2 (by omega)]

/-- The `(popc b + n)`-th set bit of `a * 2^k + b` lies in `a` when
`n < popc a`. -/
theorem selNat_high : ∀ (k a b n : Nat), b < 2 ^ k → n < popc a →
    selNat (a * 2 ^ k + b) (popc b + n) = k + selNat a n
  | 0, a, b, n, hb, hn => by
    have hb0 : b = 0 := by omega
    subst hb0
    simp [popc_zero]
  | k + 1, a, b, n, hb, hn => by
    have hane : a ≠ 0 := fun h => by
      subst h
      rw [popc_zero] at hn
      omega
    have hvne : a * 2 ^ (k + 1) + b ≠ 0 := by
      have h1 : 0 < a * 2 ^ (k + 1) :=
        Nat.mul_pos (Nat.pos_of_ne_zero hane) (Nat.two_pow_pos _)
      omega
    have hb2 : b / 2 < 2 ^ k := by
      rw [Nat.div_lt_iff_lt_mul (by norm_num), ← pow_succ]
      exact hb
    have hmod : (a * 2 ^ (k + 1) + b) % 2 = b % 2 := by
      rw [pow_succ, ← mul_assoc]
      omega
    have hdiv : (a * 2 ^ (k + 1) + b) / 2 = a * 2 ^ k + b / 2 := by
      rw [pow_succ, ← mul_assoc]
      omega
    rcases Nat.mod_two_eq_zero_or_one b with hpar | hpar
    · have hpb : popc (b / 2) = popc b := by
        rw [← popc_decomp b, hpar]
        omega
      rw [selNat_even hvne (by omega : (a * 2 ^ (k + 1) + b) % 2 = 0), hdiv,
        ← hpb, selNat_high k a (b / 2) n hb2 hn]
      omega
    · have hpb : popc (b / 2) + 1 = popc b := by
        rw [← popc_decomp b, hpar]
        omega
      have hmod1 : (a * 2 ^ (k + 1) + b) % 2 = 1 := by omega
      have hne0 : popc b + n ≠ 0 := by omega
      rw [selNat_odd_succ hmod1 hne0, hdiv,
        show popc b + n - 1 = popc (b / 2) + n from by omega,
        selNat_high k a (b / 2) n hb2 hn]
      omega

/-- The `popc b`-th set bit of `2^t + b` is the top bit when `b < 2^t`. -/
theorem selNat_top {t b : Nat} (hb : b < 2 ^ t) : selNat (2 ^ t + b) (popc b) = t := by
  have h := selNat_high t 1 b 0 hb (by rw [show popc 1 = 1 from by rw [popc]; simp [popc_zero]]; omega)
  have h1 : selNat 1 0 = 0 := selNat_odd_zero (by norm_num)
  simpa [h1] using h

theorem select64Go_found : ∀ (fuel x n i : Nat), x < 2 ^ fuel → n < popc x →
    select64Go x n i fuel = ((i + selNat x n : Nat) : Int)
  | 0, x, n, i, hx, hn => by
    have hx0 : x = 0 := by simpa using hx
    subst hx0
    rw [popc_zero] at hn
    omega
  | fuel + 1, x, n, i, hx, hn => by
    have hxne : x ≠ 0 := fun h => by
      subst h
      rw [popc_zero] at hn
      omega
    have hdiv : x / 2 < 2 ^ fuel := by
      rw [Nat.div_lt_iff_lt_mul (by norm_num), ← pow_succ]
      exact hx
    rcases Nat.mod_two_eq_zero_or_one x with hpar | hpar
    · have hpx : popc (x / 2) = popc x := by
        rw [← popc_decomp x, hpar]
        omega
      rw [select64Go, if_neg (by omega), select64Go_found fuel (x / 2) n (i + 1) hdiv (by omega),
        selNat_even hxne hpar]
      push_cast
      ring
    · by_cases hn0 : n = 0
      · subst hn0
        rw [select64Go, if_pos hpar, if_pos rfl, selNat_odd_zero hpar]
        simp
      · have hpx : popc (x / 2) + 1 = popc x := by
          rw [← popc_decomp x, hpar]
          omega
        rw [select64Go, if_pos hpar, if_neg hn0,
          select64Go_found fuel (x / 2) (n - 1) (i + 1) hdiv (by omega),
          selNat_odd_succ hpar hn0]
        push_cast
        ring

theorem select64Go_none : ∀ (fuel x n i : Nat), x < 2 ^ fuel → popc x ≤ n →
    select64Go x n i fuel = -1
  | 0, _, _, _, _, _ => rfl
  | fuel + 1, x, n, i, hx, hn => by
    have hdiv : x / 2 < 2 ^ fuel := by
      rw [Nat.div_lt_iff_lt_mul (by norm_num), ← pow_succ]
      exact hx
    rcases Nat.mod_two_eq_zero_or_one x with hpar | hpar
    · have hpx : popc (x / 2) ≤ popc x := by
        rw [← popc_decomp x, hpar]
        omega
      rw [select64Go, if_neg (by omega)]
      exact select64Go_none fuel (x / 2) n (i + 1) hdiv (by omega)
    · have hxne : x ≠ 0 := by omega
      have hppos : 0 < popc x := popc_pos_of_ne_zero hxne
      have hpx : popc (x / 2) + 1 = popc x := by
        rw [← popc_decomp x, hpar]
        omega
      rw [select64Go, if_pos hpar, if_neg (by omega)]
      exact select64Go_none fuel (x / 2) (n - 1) (i + 1) hdiv (by omega)

/-- On a 64-bit word with more than `n` set bits, `select64` returns the ghost
select. -/
theorem select64_eq {x n : Nat} (hx : x < U64) (hn : n < popc x) :
    select64 x n = ((selNat x n : Nat) : Int) := by
  have h := select64Go_found 64 x n 0 hx hn
  simpa [select64] using h

/-- On a 64-bit word with at most `n` set bits, `select64` returns `-1`. -/
theorem select64_none {x n : Nat} (hx : x < U64) (hn : popc x ≤ n) :
    select64 x n = -1 :=
  select64Go_none 64 x n 0 hx hn

theorem bitLenGo_le_iff : ∀ (fuel x n : Nat), x < 2 ^ fuel →
    (bitLenGo fuel x ≤ n ↔ x < 2 ^ n)
  | 0, x, n, hx => by
    have hx0 : x = 0 := by simpa using hx
    subst hx0
    simp [bitLenGo, Nat.two_pow_pos]
  | fuel + 1, x, n, hx => by
    by_cases hx0 : x = 0
    · subst hx0
      simp [bitLenGo, Nat.two_pow_pos]
    · have hdiv : x / 2 < 2 ^ fuel := by
        rw [Nat.div_lt_iff_lt_mul (by norm_num), ← pow_succ]
        exact hx
      rw [bitLenGo, if_neg hx0]
      rcases Nat.eq_zero_or_pos n with hn0 | hn0
      · subst hn0
        simp only [pow_zero]
        constructor
        · omega
        · intro h
          omega
      · have hiff := bitLenGo_le_iff fuel (x / 2) (n - 1) hdiv
        constructor
        · intro h
          have h2 : x / 2 < 2 ^ (n - 1) := hiff.mp (by omega)
          have h3 : x < 2 ^ (n - 1) * 2 := by
            rw [← Nat.div_lt_iff_lt_mul (by norm_num)]
            exact h2
          calc x < 2 ^ (n - 1) * 2 := h3
            _ = 2 ^ n := by rw [← pow_succ]; congr 1; omega
        · intro h
          have h2 : x / 2 < 2 ^ (n - 1) := by
            rw [Nat.div_lt_iff_lt_mul (by norm_num), ← pow_succ,
              show n - 1 + 1 = n from by omega]
            exact h
          have := hiff.mpr h2
          omega

/-- The leading-zero count of a word known to lie in `[2^j, 2^(j+1))`. -/
theorem clz_eq {y j : Nat} (hj : j < 64) (h1 : 2 ^ j ≤ y) (h2 : y < 2 ^ (j + 1)) :
    numberOfLeadingZeros64 y = 63 - j := by
  have hy64 : y < 2 ^ 64 := lt_of_lt_of_le h2 (Nat.pow_le_pow_right (by norm_num) (by omega))
  have hyU : y < U64 := hy64
  rw [numberOfLeadingZeros64, mod_U64_of_lt hyU]
  have hle : bitLenGo 64 y ≤ j + 1 := (bitLenGo_le_iff 64 y (j + 1) hy64).mpr h2
  have hgt : ¬ bitLenGo 64 y ≤ j := by
    intro hc
    exact absurd ((bitLenGo_le_iff 64 y j hy64).mp hc) (Nat.not_lt.mpr h1)
  omega

/-- Position of the highest set bit through `selNat`. -/
theorem selNat_last {x t : Nat} (h1 : 2 ^ t ≤ x) (h2 : x < 2 ^ (t + 1)) :
    selNat x (popc x - 1) = t := by
  have hx : x = 2 ^ t + (x - 2 ^ t) := by omega
  have hb : x - 2 ^ t < 2 ^ t := by
    have : (2 : Nat) ^ (t + 1) = 2 ^ t * 2 := pow_succ 2 t
    omega
  have hp : popc x = popc (x - 2 ^ t) + 1 := by
    conv_lhs => rw [hx]
    rw [show (2 : Nat) ^ t + (x - 2 ^ t) = 1 * 2 ^ t + (x - 2 ^ t) from by ring,
      popc_mulAdd t 1 _ hb, show popc 1 = 1 from by rw [popc]; simp [popc_zero]]
    ring
  rw [hp]
  conv_lhs => rw [hx]
  simpa using selNat_top hb

/-! ### Structure of the unary group encoding -/

section Codec

variable (cnt : Nat → Nat)

theorem maskBelow_lt : ∀ j, maskBelow cnt j < 2 ^ j
  | 0 => by simp [maskBelow]
  | j + 1 => by
    have ih := maskBelow_lt j
    have h2 : (2 : Nat) ^ (j + 1) = 2 ^ j * 2 := pow_succ 2 j
    by_cases h : cnt j = 0 <;> simp [maskBelow, h] <;> omega

theorem sumBelow_le : ∀ {j j'}, j ≤ j' → sumBelow cnt j ≤ sumBelow cnt j' := by
  intro j j' h
  induction j' with
  | zero => simpa [Nat.le_zero.mp h]
  | succ j' ih =>
    rcases Nat.lt_or_ge j (j' + 1) with h1 | h1
    · calc sumBelow cnt j ≤ sumBelow cnt j' := ih (by omega)
        _ ≤ sumBelow cnt (j' + 1) := by simp [sumBelow]
    · have : j = j' + 1 := by omega
      subst this
      exact le_refl _

theorem cntBelow_le : ∀ {j j'}, j ≤ j' → cntBelow cnt j ≤ cntBelow cnt j' := by
  intro j j' h
  induction j' with
  | zero => simpa [Nat.le_zero.mp h]
  | succ j' ih =>
    rcases Nat.lt_or_ge j (j' + 1) with h1 | h1
    · calc cntBelow cnt j ≤ cntBelow cnt j' := ih (by omega)
        _ ≤ cntBelow cnt (j' + 1) := by simp [cntBelow]
    · have : j = j' + 1 := by omega
      subst this
      exact le_refl _

theorem sumBelow_eq_zero_iff : ∀ j, sumBelow cnt j = 0 ↔ ∀ i, i < j → cnt i = 0
  | 0 => by simp [sumBelow]
  | j + 1 => by
    rw [sumBelow]
    constructor
    · intro h i hi
      rcases Nat.lt_or_ge i j with h1 | h1
      · exact ((sumBelow_eq_zero_iff j).mp (by omega)) i h1
      · have : i = j := by omega
        subst this
        omega
    · intro h
      have h1 : sumBelow cnt j = 0 := (sumBelow_eq_zero_iff j).mpr fun i hi => h i (by omega)
      have h2 : cnt j = 0 := h j (by omega)
      omega

theorem cntBelow_eq_zero_iff : ∀ j, cntBelow cnt j = 0 ↔ ∀ i, i < j → cnt i = 0
  | 0 => by simp [cntBelow]
  | j + 1 => by
    rw [cntBelow]
    constructor
    · intro h i hi
      rcases Nat.lt_or_ge i j with h1 | h1
      · exact ((cntBelow_eq_zero_iff j).mp (by omega)) i h1
      · have hij : i = j := by omega
        subst hij
        by_contra hc
        simp [hc] at h
    · intro h
      have h1 : cntBelow cnt j = 0 := (cntBelow_eq_zero_iff j).mpr fun i hi => h i (by omega)
      simp [h1, h j (by omega)]

theorem encBelow_lt : ∀ j, encBelow cnt j < 2 ^ sumBelow cnt j
  | 0 => by simp [encBelow, sumBelow]
  | j + 1 => by
    have ih := encBelow_lt j
    by_cases h : cnt j = 0
    · simp [encBelow, sumBelow, h]
      simpa [h] using ih
    · have hB : sumBelow cnt (j + 1) = sumBelow cnt j + cnt j := rfl
      have hle : sumBelow cnt j ≤ sumBelow cnt (j + 1) - 1 := by
        rw [hB]
        omega
      have h1 : encBelow cnt j < 2 ^ (sumBelow cnt (j + 1) - 1) :=
        lt_of_lt_of_le ih (Nat.pow_le_pow_right (by norm_num) hle)
      have h2 : (2 : Nat) ^ (sumBelow cnt (j + 1) - 1) * 2 = 2 ^ sumBelow cnt (j + 1) := by
        rw [← pow_succ]
        congr 1
        rw [hB]
        omega
      simp only [encBelow, if_neg h]
      omega

theorem encBelow_ge : ∀ j, 0 < sumBelow cnt j →
    2 ^ (sumBelow cnt j - 1) ≤ encBelow cnt j
  | 0 => by simp [sumBelow]
  | j + 1 => by
    intro hpos
    by_cases h : cnt j = 0
    · have hB : sumBelow cnt (j + 1) = sumBelow cnt j := by
        simp [sumBelow, h]
      rw [hB] at hpos ⊢
      simpa [encBelow, h] using encBelow_ge j hpos
    · simp only [encBelow, if_neg h]
      omega

theorem encBelow_eq_zero_iff (j : Nat) : encBelow cnt j = 0 ↔ sumBelow cnt j = 0 := by
  constructor
  · intro h
    by_contra hc
    have := encBelow_ge cnt j (by omega)
    have := Nat.two_pow_pos (sumBelow cnt j - 1)
    omega
  · intro h
    induction j with
    | zero => simp [encBelow]
    | succ j ih =>
      rw [sumBelow] at h
      have h1 : cnt j = 0 := by omega
      have h2 : sumBelow cnt j = 0 := by omega
      simp [encBelow, h1, ih h2]

theorem encAbove_64 : encAbove cnt 64 = 0 := by
  simp [encAbove, encAboveAux]

theorem encAbove_step {j : Nat} (hj : j < 64) :
    encAbove cnt j = encAbove cnt (j + 1) * 2 ^ cnt j +
      (if cnt j = 0 then 0 else 2 ^ (cnt j - 1)) := by
  have h1 : 64 - j = (63 - j) + 1 := by omega
  have h2 : 63 - (63 - j) = j := by omega
  rw [encAbove, h1, encAboveAux, h2, encAbove, show 64 - (j + 1) = 63 - j from by omega]

theorem encode_split : ∀ j, j ≤ 64 →
    encAbove cnt 0 = encAbove cnt j * 2 ^ sumBelow cnt j + encBelow cnt j
  | 0, _ => by simp [sumBelow, encBelow]
  | j + 1, h => by
    have ih := encode_split j (by omega)
    rw [ih, encAbove_step cnt (show j < 64 from by omega)]
    have hB : sumBelow cnt (j + 1) = sumBelow cnt j + cnt j := rfl
    by_cases hc : cnt j = 0
    · simp [encBelow, hB, hc, pow_add]
    · simp only [encBelow, if_neg hc, hB]
      have h1 : (2 : Nat) ^ cnt j * 2 ^ sumBelow cnt j = 2 ^ (sumBelow cnt j + cnt j) := by
        rw [← pow_add]
        congr 1
        omega
      have h2 : (2 : Nat) ^ (cnt j - 1) * 2 ^ sumBelow cnt j
          = 2 ^ (sumBelow cnt j + cnt j - 1) := by
        rw [← pow_add]
        congr 1
        omega
      rw [Nat.add_mul, Nat.mul_assoc, h1, h2]
      ring

theorem encode_eq_encBelow : encAbove cnt 0 = encBelow cnt 64 := by
  have h := encode_split cnt 64 (le_refl _)
  rw [encAbove_64] at h
  simpa using h

theorem encode_lt : encAbove cnt 0 < 2 ^ totalOf cnt := by
  rw [encode_eq_encBelow, totalOf]
  exact encBelow_lt cnt 64

theorem encode_ge (h : 0 < totalOf cnt) : 2 ^ (totalOf cnt - 1) ≤ encAbove cnt 0 := by
  rw [encode_eq_encBelow, totalOf]
  exact encBelow_ge cnt 64 h

theorem popc_encBelow : ∀ j, popc (encBelow cnt j) = cntBelow cnt j
  | 0 => by simp [encBelow, cntBelow, popc_zero]
  | j + 1 => by
    by_cases h : cnt j = 0
    · simp [encBelow, cntBelow, h, popc_encBelow j]
    · have hB : sumBelow cnt (j + 1) = sumBelow cnt j + cnt j := rfl
      have hlt : encBelow cnt j < 2 ^ (sumBelow cnt (j + 1) - 1) := by
        refine lt_of_lt_of_le (encBelow_lt cnt j) (Nat.pow_le_pow_right (by norm_num) ?_)
        rw [hB]
        omega
      have heq : encBelow cnt (j + 1) = 1 * 2 ^ (sumBelow cnt (j + 1) - 1) + encBelow cnt j := by
        simp [encBelow, h]
        ring
      rw [heq, popc_mulAdd _ 1 _ hlt, popc_encBelow j,
        show popc 1 = 1 from by rw [popc]; simp [popc_zero]]
      simp [cntBelow, h]
      ring

theorem popc_encode : popc (encAbove cnt 0) = cntBelow cnt 64 := by
  rw [encode_eq_encBelow]
  exact popc_encBelow cnt 64

theorem popc_maskBelow : ∀ j, popc (maskBelow cnt j) = cntBelow cnt j
  | 0 => by simp [maskBelow, cntBelow, popc_zero]
  | j + 1 => by
    by_cases h : cnt j = 0
    · simp [maskBelow, cntBelow, h, popc_maskBelow j]
    · have heq : maskBelow cnt (j + 1) = 1 * 2 ^ j + maskBelow cnt j := by
        simp [maskBelow, h]
        ring
      rw [heq, popc_mulAdd _ 1 _ (maskBelow_lt cnt j), popc_maskBelow j,
        show popc 1 = 1 from by rw [popc]; simp [popc_zero]]
      simp [cntBelow, h]
      ring

/-- Bits of the presence mask. -/
theorem testBit_maskBelow : ∀ j i, (maskBelow cnt j).testBit i
    = (decide (i < j) && decide (cnt i ≠ 0))
  | 0, i => by simp [maskBelow]
  | j + 1, i => by
    have hm : maskBelow cnt (j + 1)
        = (if cnt j = 0 then 0 else 1) * 2 ^ j + maskBelow cnt j := by
      by_cases h : cnt j = 0 <;> simp [maskBelow, h] <;> omega
    rw [hm, testBit_mulAdd _ i (maskBelow_lt cnt j)]
    rcases Nat.lt_trichotomy i j with h1 | h1 | h1
    · rw [if_pos h1, testBit_maskBelow j i]
      simp [h1, show i < j + 1 from by omega]
    · subst h1
      rw [if_neg (by omega)]
      simp only [Nat.sub_self]
      by_cases h : cnt i = 0 <;> simp [h]
    · rw [if_neg (by omega)]
      have hle : (if cnt j = 0 then 0 else 1) < 2 ^ (i - j) := by
        have h1 : (0 : Nat) < 2 ^ (i - j) := Nat.two_pow_pos _
        have h2 : (2 : Nat) ^ 1 ≤ 2 ^ (i - j) := Nat.pow_le_pow_right (by norm_num) (by omega)
        have h3 : (2 : Nat) ^ 1 = 2 := by norm_num
        by_cases h : cnt j = 0
        · rw [if_pos h]
          omega
        · rw [if_neg h]
          omega
      rw [Nat.testBit_lt_two_pow hle]
      simp [show ¬ (i < j + 1) from by omega]

/-- Agreement of the codec functions under pointwise agreement of the counters. -/
theorem sumBelow_congr {cnt' : Nat → Nat} : ∀ j, (∀ i, i < j → cnt i = cnt' i) →
    sumBelow cnt j = sumBelow cnt' j
  | 0, _ => rfl
  | j + 1, h => by
    rw [sumBelow, sumBelow, sumBelow_congr j fun i hi => h i (by omega), h j (by omega)]

theorem cntBelow_congr {cnt' : Nat → Nat} : ∀ j, (∀ i, i < j → cnt i = cnt' i) →
    cntBelow cnt j = cntBelow cnt' j
  | 0, _ => rfl
  | j + 1, h => by
    rw [cntBelow, cntBelow, cntBelow_congr j fun i hi => h i (by omega), h j (by omega)]

theorem maskBelow_congr {cnt' : Nat → Nat} : ∀ j, (∀ i, i < j → cnt i = cnt' i) →
    maskBelow cnt j = maskBelow cnt' j
  | 0, _ => rfl
  | j + 1, h => by
    rw [maskBelow, maskBelow, maskBelow_congr j fun i hi => h i (by omega), h j (by omega)]

theorem encBelow_congr {cnt' : Nat → Nat} : ∀ j, (∀ i, i < j → cnt i = cnt' i) →
    encBelow cnt j = encBelow cnt' j
  | 0, _ => rfl
  | j + 1, h => by
    rw [encBelow, encBelow, encBelow_congr j fun i hi => h i (by omega), h j (by omega),
      sumBelow_congr cnt (j + 1) h]

theorem encAboveAux_congr {cnt' : Nat → Nat} : ∀ r, (∀ i, 64 - r ≤ i → cnt i = cnt' i) →
    encAboveAux cnt r = encAboveAux cnt' r
  | 0, _ => rfl
  | r + 1, h => by
    rw [encAboveAux, encAboveAux, encAboveAux_congr r fun i hi => h i (by omega),
      h (63 - r) (by omega)]

theorem encAbove_congr {cnt' : Nat → Nat} (j : Nat) (hj : j ≤ 64)
    (h : ∀ i, j ≤ i → cnt i = cnt' i) :
    encAbove cnt j = encAbove cnt' j := by
  rw [encAbove, encAbove]
  exact encAboveAux_congr cnt _ fun i hi => h i (by omega)

theorem maskBelow_split : ∀ d j, ∃ X, maskBelow cnt (j + d) = X * 2 ^ j + maskBelow cnt j
  | 0, j => ⟨0, by simp⟩
  | d + 1, j => by
    obtain ⟨X, hX⟩ := maskBelow_split d j
    refine ⟨X + (if cnt (j + d) = 0 then 0 else 1) * 2 ^ d, ?_⟩
    rw [show j + (d + 1) = (j + d) + 1 from by omega, maskBelow, hX]
    by_cases h : cnt (j + d) = 0
    · simp [h]
    · simp only [if_neg h]
      have hp : (2 : Nat) ^ (j + d) = 2 ^ d * 2 ^ j := by
        rw [← pow_add]
        congr 1
        omega
      rw [hp]
      ring

theorem maskBelow_mod {j : Nat} (hj : j ≤ 64) :
    maskBelow cnt 64 % 2 ^ j = maskBelow cnt j := by
  obtain ⟨X, hX⟩ := maskBelow_split cnt (64 - j) j
  rw [show j + (64 - j) = 64 from by omega] at hX
  rw [hX, Nat.mul_comm, Nat.mul_add_mod, Nat.mod_eq_of_lt (maskBelow_lt cnt j)]

end Codec

section CodecCorrect

variable {cnt : Nat → Nat} {bit : Nat}

theorem mask64_lt : mask64 < U64 := by
  rw [mask64, U64]
  have := Nat.two_pow_pos 64
  omega

theorem maskBelow_lt_U64 (cnt : Nat → Nat) : maskBelow cnt 64 < U64 := maskBelow_lt cnt 64

/-- The constant `0xffffffffffffffff >> (63 - bit)` is the low mask of `bit+1`
bits. -/
theorem shr_mask64 (hbit : bit < 64) : shr64 mask64 (63 - bit) = 2 ^ (bit + 1) - 1 := by
  rw [shr64_eq mask64_lt (by omega), mask64]
  have e1 : (2 : Nat) ^ (bit + 1) * 2 ^ (63 - bit) = 2 ^ 64 := by
    rw [← pow_add]
    congr 1
    omega
  have e2 : (2 : Nat) ^ (63 - bit) ≤ 2 ^ 64 := Nat.pow_le_pow_right (by norm_num) (by omega)
  have e3 : (2 : Nat) ^ 64 - 1 = (2 ^ (63 - bit)) - 1 + 2 ^ (63 - bit) * (2 ^ (bit + 1) - 1) := by
    have h1 : (2 : Nat) ^ (63 - bit) * (2 ^ (bit + 1) - 1)
        = 2 ^ 64 - 2 ^ (63 - bit) := by
      rw [Nat.mul_sub, Nat.mul_one, Nat.mul_comm, e1]
    have h2 : (0 : Nat) < 2 ^ (63 - bit) := Nat.two_pow_pos _
    omega
  rw [e3, Nat.add_mul_div_left _ _ (Nat.two_pow_pos (63 - bit)),
    Nat.div_eq_of_lt (by have := Nat.two_pow_pos (63 - bit); omega), Nat.zero_add]

/-- The `bitsBefore` computation of the inline paths equals the rank of `bit`. -/
theorem bitsBefore_eq (cnt : Nat → Nat) (hbit : bit < 64) :
    bitCount64 (maskBelow cnt 64 &&& shr64 mask64 (63 - bit)) = cntBelow cnt (bit + 1) := by
  rw [shr_mask64 hbit, and_two_pow_sub_one, maskBelow_mod cnt (by omega)]
  have hlt : maskBelow cnt (bit + 1) < U64 :=
    lt_of_lt_of_le (maskBelow_lt cnt (bit + 1)) (two_pow_le_U64 (by omega))
  rw [bitCount64_eq hlt, popc_maskBelow]

/-- The presence-bit extraction `(m >> bit) & 1`. -/
theorem dbit_eq (cnt : Nat → Nat) (hbit : bit < 64) :
    shr64 (maskBelow cnt 64) bit &&& 1 = (if cnt bit = 0 then 0 else 1) := by
  rw [shr64_eq (maskBelow_lt_U64 cnt) hbit,
    show (1 : Nat) = 2 ^ 1 - 1 from by norm_num, and_two_pow_sub_one]
  have htb := testBit_maskBelow cnt 64 bit
  rw [Nat.testBit_to_div_mod] at htb
  have hmod : maskBelow cnt 64 / 2 ^ bit % 2 ^ 1 = maskBelow cnt 64 / 2 ^ bit % 2 := by
    norm_num
  rw [hmod]
  by_cases h : cnt bit = 0
  · simp [hbit, h] at htb
    simp [h]
    omega
  · simp [hbit, h] at htb
    simp [h, htb]

/-- Rank-to-position: the `(bitsBefore-1)`-th set bit of the encoded word is the
terminator of `bit`'s unary run, at position `sumBelow bit + cnt bit - 1`. -/
theorem selNat_encode_rank (cnt : Nat → Nat) (hbit : bit < 64) (hK : 1 ≤ cnt bit) :
    selNat (encAbove cnt 0) (cntBelow cnt (bit + 1) - 1)
      = sumBelow cnt bit + cnt bit - 1 := by
  have hr : cntBelow cnt (bit + 1) = cntBelow cnt bit + 1 := by
    rw [cntBelow, if_neg (by omega)]
  have hsplit := encode_split cnt (bit + 1) (by omega)
  have hR : encBelow cnt (bit + 1)
      = 2 ^ (sumBelow cnt (bit + 1) - 1) + encBelow cnt bit := by
    rw [encBelow, if_neg (by omega)]
    ring
  have hpopR : popc (encBelow cnt (bit + 1)) = cntBelow cnt bit + 1 := by
    rw [popc_encBelow, hr]
  have h1 : selNat (encAbove cnt 0) (cntBelow cnt (bit + 1) - 1)
      = selNat (encBelow cnt (bit + 1)) (cntBelow cnt (bit + 1) - 1) := by
    rw [hsplit]
    exact selNat_low _ _ _ _ (encBelow_lt cnt (bit + 1)) (by rw [hpopR]; omega)
  have hB : sumBelow cnt (bit + 1) = sumBelow cnt bit + cnt bit := rfl
  have hlo_lt : encBelow cnt bit < 2 ^ (sumBelow cnt (bit + 1) - 1) := by
    refine lt_of_lt_of_le (encBelow_lt cnt bit) (Nat.pow_le_pow_right (by norm_num) ?_)
    omega
  have hpoplo : popc (encBelow cnt bit) = cntBelow cnt bit := popc_encBelow cnt bit
  rw [h1, hr, hR, Nat.add_sub_cancel, ← hpoplo, selNat_top hlo_lt, hB]

/-- Rank-to-position when `bit` is absent: the `(bitsBefore-1)`-th set bit is
the terminator of the highest present position below `bit`. -/
theorem selNat_encode_below (cnt : Nat → Nat) (hbit : bit ≤ 64)
    (hr : 1 ≤ cntBelow cnt bit) :
    selNat (encAbove cnt 0) (cntBelow cnt bit - 1) = sumBelow cnt bit - 1 := by
  have hsplit := encode_split cnt bit hbit
  have hpopR : popc (encBelow cnt bit) = cntBelow cnt bit := popc_encBelow cnt bit
  have h1 : selNat (encAbove cnt 0) (cntBelow cnt bit - 1)
      = selNat (encBelow cnt bit) (cntBelow cnt bit - 1) := by
    rw [hsplit]
    exact selNat_low _ _ _ _ (encBelow_lt cnt bit) (by omega)
  have hBpos : 0 < sumBelow cnt bit := by
    by_contra hc
    have h0 : sumBelow cnt bit = 0 := by omega
    have := (cntBelow_eq_zero_iff cnt bit).mpr ((sumBelow_eq_zero_iff cnt bit).mp h0)
    omega
  have hge : 2 ^ (sumBelow cnt bit - 1) ≤ encBelow cnt bit := encBelow_ge cnt bit hBpos
  have hlt : encBelow cnt bit < 2 ^ (sumBelow cnt bit - 1 + 1) := by
    rw [show sumBelow cnt bit - 1 + 1 = sumBelow cnt bit from by omega]
    exact encBelow_lt cnt bit
  rw [h1, ← hpopR, selNat_last hge hlt]

/-- Arithmetic core of the inline `ReadCount`: decoding the run length from the
shifted window. -/
theorem readInline_core {A K lo hi : Nat} (hK : 1 ≤ K) (hAK : A + K ≤ 63)
    (hlo : lo < 2 ^ A) (hlo0 : lo = 0 → A = 0) (hlo1 : 1 ≤ lo → 2 ^ (A - 1) ≤ lo) :
    numberOfLeadingZeros64
      (shl64 (shl64 (hi * 2 ^ (A + K) + 2 ^ (A + K - 1) + lo) (63 - (A + K - 1))) 1
        ||| shl64 1 (63 - (A + K - 1))) + 1 = K := by
  set c := hi * 2 ^ (A + K) + 2 ^ (A + K - 1) + lo with hc
  have hS : 63 - (A + K - 1) = 64 - (A + K) := by omega
  set S := 64 - (A + K) with hSdef
  rw [hS]
  have hSlt : S < 64 := by omega
  have e1 : (2 : Nat) ^ (A + K) * 2 ^ S = 2 ^ 64 := by
    rw [← pow_add]
    congr 1
    omega
  have e2 : (2 : Nat) ^ (A + K - 1) * 2 ^ S = 2 ^ 63 := by
    rw [← pow_add]
    congr 1
    omega
  have e3 : (2 : Nat) ^ A * 2 ^ S = 2 ^ (64 - K) := by
    rw [← pow_add]
    congr 1
    omega
  have e4 : (2 : Nat) ^ (64 - K) ≤ 2 ^ 63 := Nat.pow_le_pow_right (by norm_num) (by omega)
  have e5 : (2 : Nat) ^ 63 + 2 ^ 63 = 2 ^ 64 := by
    rw [← Nat.two_mul, ← pow_succ']
  have hb1 : lo * 2 ^ S < 2 ^ (64 - K) := by
    rw [← e3]
    exact (Nat.mul_lt_mul_right (Nat.two_pow_pos S)).mpr hlo
  have hU : U64 = 2 ^ 64 := rfl
  have step1 : shl64 c S = 2 ^ 63 + lo * 2 ^ S := by
    rw [shl64_eq hSlt]
    have hdist : c * 2 ^ S = 2 ^ 64 * hi + (2 ^ 63 + lo * 2 ^ S) := by
      rw [hc]
      rw [Nat.add_mul, Nat.add_mul, Nat.mul_assoc, e1, e2]
      ring
    rw [hdist, hU, Nat.mul_add_mod, Nat.mod_eq_of_lt (show 2 ^ 63 + lo * 2 ^ S < 2 ^ 64 by omega)]
  have e6 : (2 : Nat) ^ S * 2 = 2 ^ (S + 1) := by rw [pow_succ]
  have e7 : (2 : Nat) ^ A * 2 ^ (S + 1) = 2 ^ (65 - K) := by
    rw [← pow_add]
    congr 1
    omega
  have e8 : (2 : Nat) ^ (65 - K) ≤ 2 ^ 64 := Nat.pow_le_pow_right (by norm_num) (by omega)
  have hb2 : lo * 2 ^ (S + 1) + 2 ^ (S + 1) ≤ 2 ^ (65 - K) := by
    have h1 : (lo + 1) * 2 ^ (S + 1) ≤ 2 ^ A * 2 ^ (S + 1) :=
      Nat.mul_le_mul_right _ (by omega)
    rw [e7] at h1
    calc lo * 2 ^ (S + 1) + 2 ^ (S + 1) = (lo + 1) * 2 ^ (S + 1) := by ring
      _ ≤ 2 ^ (65 - K) := h1
  have hSp : (0 : Nat) < 2 ^ (S + 1) := Nat.two_pow_pos _
  have step2 : shl64 (2 ^ 63 + lo * 2 ^ S) 1 = lo * 2 ^ (S + 1) := by
    rw [shl64_eq (by norm_num)]
    have e5' : (2 : Nat) ^ 63 * 2 = 2 ^ 64 := by rw [← pow_succ]
    have hdist : (2 ^ 63 + lo * 2 ^ S) * 2 ^ 1 = 2 ^ 64 * 1 + lo * 2 ^ (S + 1) := by
      rw [show (2 : Nat) ^ 1 = 2 from by norm_num, Nat.add_mul, Nat.mul_assoc, e6, e5']
      ring
    rw [hdist, hU, Nat.mul_add_mod, Nat.mod_eq_of_lt (show lo * 2 ^ (S + 1) < 2 ^ 64 by omega)]
  have step3 : shl64 (1 : Nat) S = 2 ^ S := shl64_one hSlt
  have hor : lo * 2 ^ (S + 1) ||| 2 ^ S = lo * 2 ^ (S + 1) + 2 ^ S :=
    lor_mulAdd lo (Nat.pow_lt_pow_right (by norm_num) (by omega))
  rw [step1, step2, step3, hor]
  rcases Nat.eq_zero_or_pos lo with hlo_z | hlo_p
  · have hA0 : A = 0 := hlo0 hlo_z
    subst hlo_z
    have hclz : numberOfLeadingZeros64 (0 * 2 ^ (S + 1) + 2 ^ S) = 63 - S := by
      apply clz_eq hSlt
      · omega
      · have : (2:Nat) ^ S < 2 ^ (S + 1) := Nat.pow_lt_pow_right (by norm_num) (by omega)
        omega
    rw [hclz]
    omega
  · have hA1 : 1 ≤ A := by
      by_contra hc2
      have : A = 0 := by omega
      subst this
      simp at hlo
      omega
    have e9 : (2 : Nat) ^ (A - 1) * 2 ^ (S + 1) = 2 ^ (64 - K) := by
      rw [← pow_add]
      congr 1
      omega
    have hlow : 2 ^ (64 - K) ≤ lo * 2 ^ (S + 1) + 2 ^ S := by
      have h1 : 2 ^ (A - 1) * 2 ^ (S + 1) ≤ lo * 2 ^ (S + 1) :=
        Nat.mul_le_mul_right _ (hlo1 hlo_p)
      rw [e9] at h1
      omega
    have hhigh : lo * 2 ^ (S + 1) + 2 ^ S < 2 ^ (64 - K + 1) := by
      have hE : (64 : Nat) - K + 1 = 65 - K := by omega
      rw [hE]
      have hS2 : (2:Nat) ^ S < 2 ^ (S + 1) := Nat.pow_lt_pow_right (by norm_num) (by omega)
      omega
    have hclz : numberOfLeadingZeros64 (lo * 2 ^ (S + 1) + 2 ^ S) = 63 - (64 - K) :=
      clz_eq (by omega) hlow hhigh
    rw [hclz]
    omega

/-- Correctness of the inline `ReadCount` path: on a well-formed group it
returns the counter of `bit`. -/
theorem readInline_correct (cnt : Nat → Nat) (hbit : bit < 64)
    (hK : 1 ≤ cnt bit) (hT : totalOf cnt ≤ 63) :
    readInline (maskBelow cnt 64) (encAbove cnt 0) bit = cnt bit := by
  have hB : sumBelow cnt (bit + 1) = sumBelow cnt bit + cnt bit := rfl
  have hAK : sumBelow cnt bit + cnt bit ≤ 63 := by
    have := sumBelow_le cnt (show bit + 1 ≤ 64 from by omega)
    rw [hB] at this
    exact le_trans this hT
  have hR : encBelow cnt (bit + 1)
      = 2 ^ (sumBelow cnt bit + cnt bit - 1) + encBelow cnt bit := by
    rw [encBelow, if_neg (by omega), hB]
    ring
  have hc_eq : encAbove cnt 0
      = encAbove cnt (bit + 1) * 2 ^ (sumBelow cnt bit + cnt bit)
        + 2 ^ (sumBelow cnt bit + cnt bit - 1) + encBelow cnt bit := by
    rw [encode_split cnt (bit + 1) (by omega), hR, hB]
    ring
  have hcU : encAbove cnt 0 < U64 :=
    lt_of_lt_of_le (encode_lt cnt) (two_pow_le_U64 (by omega))
  have hr1 : 1 ≤ cntBelow cnt (bit + 1) := by
    rw [cntBelow, if_neg (by omega)]
    omega
  have hrle : cntBelow cnt (bit + 1) ≤ cntBelow cnt 64 := cntBelow_le cnt (by omega)
  have hsel : select64 (encAbove cnt 0) (cntBelow cnt (bit + 1) - 1)
      = ((sumBelow cnt bit + cnt bit - 1 : Nat) : Int) := by
    rw [select64_eq hcU (by rw [popc_encode]; omega), selNat_encode_rank cnt hbit hK]
  have hlo0 : encBelow cnt bit = 0 → sumBelow cnt bit = 0 := fun h =>
    (encBelow_eq_zero_iff cnt bit).mp h
  have hlo1 : 1 ≤ encBelow cnt bit → 2 ^ (sumBelow cnt bit - 1) ≤ encBelow cnt bit := by
    intro h
    apply encBelow_ge
    by_contra hc
    have h0 : sumBelow cnt bit = 0 := by omega
    have := (encBelow_eq_zero_iff cnt bit).mpr h0
    omega
  simp only [readInline]
  rw [bitsBefore_eq cnt hbit, hsel, Int.toNat_natCast, hc_eq]
  exact readInline_core hK hAK (encBelow_lt cnt bit) hlo0 hlo1

theorem mulAdd_div {t lo : Nat} (q : Nat) (h : lo < 2 ^ t) : (q * 2 ^ t + lo) / 2 ^ t = q := by
  rw [Nat.add_comm, Nat.add_mul_div_right _ _ (Nat.two_pow_pos t), Nat.div_eq_of_lt h,
    Nat.zero_add]

theorem mulAdd_mod {t lo : Nat} (q : Nat) (h : lo < 2 ^ t) : (q * 2 ^ t + lo) % 2 ^ t = lo := by
  rw [Nat.mul_comm, Nat.mul_add_mod, Nat.mod_eq_of_lt h]

/-- The argument `(c << 1) | 1` of the inline select. -/
theorem shl_c_or_one {c : Nat} (hc : c < 2 ^ 63) : shl64 c 1 ||| 1 = c * 2 + 1 := by
  have h1 : c * 2 ^ 1 < U64 := by
    rw [U64]
    have : (2 : Nat) ^ 63 * 2 ^ 1 = 2 ^ 64 := by rw [← pow_add]
    nlinarith [Nat.two_pow_pos 1]
  rw [shl64_small (by norm_num) h1]
  have h3 := lor_mulAdd (k := 1) (b := 1) c (by norm_num)
  simpa using h3

/-- The select over `(c << 1) | 1` on a well-formed encoding, in the
present-bit case: one past the terminator of `bit`'s run. -/
theorem selNat_twoC_rank (cnt : Nat → Nat) (hbit : bit < 64) (hK : 1 ≤ cnt bit) :
    selNat (encAbove cnt 0 * 2 + 1) (cntBelow cnt (bit + 1))
      = sumBelow cnt bit + cnt bit := by
  have hodd : (encAbove cnt 0 * 2 + 1) % 2 = 1 := by omega
  have hr : cntBelow cnt (bit + 1) = cntBelow cnt bit + 1 := by
    rw [cntBelow, if_neg (by omega)]
  have hdiv : (encAbove cnt 0 * 2 + 1) / 2 = encAbove cnt 0 := by omega
  rw [selNat_odd_succ hodd (by omega), hdiv, hr, Nat.add_sub_cancel,
    show cntBelow cnt bit = cntBelow cnt (bit + 1) - 1 from by omega,
    selNat_encode_rank cnt hbit hK]
  have hBpos : 1 ≤ sumBelow cnt bit + cnt bit := by omega
  omega

/-- The select over `(c << 1) | 1` on a well-formed encoding, in the
absent-bit case: the insertion point for a fresh run. -/
theorem selNat_twoC_absent (cnt : Nat → Nat) (hbit : bit < 64) (hK : cnt bit = 0) :
    selNat (encAbove cnt 0 * 2 + 1) (cntBelow cnt (bit + 1)) = sumBelow cnt bit := by
  have hodd : (encAbove cnt 0 * 2 + 1) % 2 = 1 := by omega
  have hr : cntBelow cnt (bit + 1) = cntBelow cnt bit := by
    rw [cntBelow, if_pos hK]
    omega
  have hdiv : (encAbove cnt 0 * 2 + 1) / 2 = encAbove cnt 0 := by omega
  rcases Nat.eq_zero_or_pos (cntBelow cnt bit) with h0 | hpos
  · have hB0 : sumBelow cnt bit = 0 :=
      (sumBelow_eq_zero_iff cnt bit).mpr ((cntBelow_eq_zero_iff cnt bit).mp h0)
    rw [hr, h0, selNat_odd_zero hodd, hB0]
  · have hBpos : 0 < sumBelow cnt bit := by
      by_contra hc
      have h0' : sumBelow cnt bit = 0 := by omega
      have := (cntBelow_eq_zero_iff cnt bit).mpr ((sumBelow_eq_zero_iff cnt bit).mp h0')
      omega
    rw [hr, selNat_odd_succ hodd (by omega), hdiv, selNat_encode_below cnt (by omega) hpos]
    omega

/-- Updating the presence word: `m | (1 << bit)` matches one more increment. -/
theorem maskBelow_bump_or (cnt : Nat → Nat) (hbit : bit < 64) :
    maskBelow cnt 64 ||| 2 ^ bit = maskBelow (bump1 cnt bit) 64 := by
  apply Nat.eq_of_testBit_eq
  intro i
  rw [Nat.testBit_lor, testBit_maskBelow, testBit_maskBelow, Nat.testBit_two_pow]
  by_cases h : i = bit
  · subst h
    simp [bump1, hbit]
  · simp [bump1, Ne.symm h, h]

/-- Decrementing a counter that stays positive leaves the presence word
unchanged. -/
theorem maskBelow_drop_keep (cnt : Nat → Nat) (hK : 2 ≤ cnt bit) :
    maskBelow (drop1 cnt bit) 64 = maskBelow cnt 64 := by
  apply Nat.eq_of_testBit_eq
  intro i
  rw [testBit_maskBelow, testBit_maskBelow]
  by_cases h : i = bit
  · subst h
    have h2 : drop1 cnt i i ≠ 0 := by
      simp [drop1]
      omega
    have h3 : cnt i ≠ 0 := by omega
    simp [h2, h3]
  · simp [drop1, h]

/-- Clearing the presence bit when the counter drops from one to zero. -/
theorem maskBelow_clear (cnt : Nat → Nat) (hbit : bit < 64) (hK : cnt bit = 1) :
    maskBelow cnt 64 &&& not64 (2 ^ bit) = maskBelow (drop1 cnt bit) 64 := by
  have hnot : ∀ i, (not64 (2 ^ bit)).testBit i = (decide (i < 64) ^^ decide (bit = i)) := by
    intro i
    have hlt : (2 : Nat) ^ bit < U64 := lt_of_lt_of_le
      (Nat.pow_lt_pow_right (by norm_num) hbit) (by rw [U64])
    rw [not64, mod_U64_of_lt hlt, Nat.testBit_xor, Nat.testBit_two_pow, mask64,
      Nat.testBit_two_pow_sub_one]
  apply Nat.eq_of_testBit_eq
  intro i
  rw [Nat.testBit_land, hnot, testBit_maskBelow, testBit_maskBelow]
  by_cases h : i = bit
  · subst h
    simp [drop1, hbit, hK]
  · by_cases h64 : i < 64
    · simp [drop1, h, Ne.symm h, h64]
    · simp [drop1, h, h64]

/-- The inline encoding decomposed at `bit`. -/
theorem encode_decompose (cnt : Nat → Nat) (hbit : bit < 64) :
    encAbove cnt 0 = encAbove cnt (bit + 1) * 2 ^ (sumBelow cnt bit + cnt bit)
      + (if cnt bit = 0 then 0 else 2 ^ (sumBelow cnt bit + cnt bit - 1))
      + encBelow cnt bit := by
  have hB : sumBelow cnt (bit + 1) = sumBelow cnt bit + cnt bit := rfl
  rw [encode_split cnt (bit + 1) (by omega), encBelow, hB]
  by_cases h : cnt bit = 0
  · simp [h]
  · simp only [if_neg h]
    ring

/-- Correctness of the inline `Increment` splice. -/
theorem incInline_correct (cnt : Nat → Nat) (hbit : bit < 64) (hT : totalOf cnt ≤ 62) :
    incInline (maskBelow cnt 64) (encAbove cnt 0) bit
      = (maskBelow (bump1 cnt bit) 64, encAbove (bump1 cnt bit) 0) := by
  set c := encAbove cnt 0 with hc_def
  set A := sumBelow cnt bit with hA_def
  set K := cnt bit with hK_def
  set lo := encBelow cnt bit with hlo_def
  set hi := encAbove cnt (bit + 1) with hhi_def
  have hAK_le : A + K ≤ 62 := by
    have h1 := sumBelow_le cnt (show bit + 1 ≤ 64 from by omega)
    have hB : sumBelow cnt (bit + 1) = A + K := rfl
    rw [hB] at h1
    exact le_trans h1 hT
  have hc62 : c < 2 ^ 62 := lt_of_lt_of_le (encode_lt cnt)
    (Nat.pow_le_pow_right (by norm_num) hT)
  have hc63 : c < 2 ^ 63 := lt_of_lt_of_le hc62 (Nat.pow_le_pow_right (by norm_num) (by omega))
  have hcU : c < U64 := lt_of_lt_of_le hc63 (two_pow_le_U64 (by omega))
  have hlo_lt : lo < 2 ^ A := encBelow_lt cnt bit
  have hpopc : popc (c * 2 + 1) = cntBelow cnt 64 + 1 := by
    have h := popc_mulAdd 1 c 1 (by norm_num)
    simp only [pow_one] at h
    rw [h, popc_encode, show popc 1 = 1 from by rw [popc]; simp [popc_zero]]
  have h2c1U : c * 2 + 1 < U64 := by
    rw [U64]
    have : (2 : Nat) ^ 63 * 2 = 2 ^ 64 := by rw [← pow_succ]
    omega
  have hrle : cntBelow cnt (bit + 1) ≤ cntBelow cnt 64 := cntBelow_le cnt (by omega)
  have hsel_pre : select64 (shl64 c 1 ||| 1) (cntBelow cnt (bit + 1))
      = ((selNat (c * 2 + 1) (cntBelow cnt (bit + 1)) : Nat) : Int) := by
    rw [shl_c_or_one hc63]
    exact select64_eq h2c1U (by omega)
  -- unfold; the two cases follow the presence bit d
  simp only [incInline]
  rw [bitsBefore_eq cnt hbit, dbit_eq cnt hbit, shl64_one hbit,
    maskBelow_bump_or cnt hbit, hsel_pre]
  by_cases hK0 : K = 0
  · -- fresh position: insert a lone terminator at position A
    rw [if_pos (hK_def ▸ hK0), hc_def, selNat_twoC_absent cnt hbit (hK_def ▸ hK0), ← hc_def,
      ← hA_def]
    have htoNat : (((A : Nat) : Int) - ((0 : Nat) : Int)).toNat = A := by omega
    rw [htoNat]
    have hAlt : A < 64 := by omega
    have hmask : sub64 (shl64 1 A) 1 = 2 ^ A - 1 := by
      rw [shl64_one hAlt, sub64_eq (lt_of_le_of_lt (le_refl _)
        (lt_of_lt_of_le (Nat.pow_lt_pow_right (by norm_num) hAlt) (two_pow_le_U64 (le_refl _))))
        (Nat.one_le_two_pow)]
    have hcAK : c = hi * 2 ^ A + lo := by
      rw [hc_def, encode_decompose cnt hbit, ← hK_def, hK0]
      simp [← hA_def, ← hlo_def, ← hhi_def]
    rw [hmask, and_not64_mask hcU (by omega), and_two_pow_sub_one, hcAK,
      mulAdd_div hi hlo_lt, mulAdd_mod hi hlo_lt]
    have hhi_bound : hi * 2 ^ A * 2 < 2 ^ 63 := by
      have : hi * 2 ^ A ≤ c := by rw [hcAK]; omega
      omega
    have hshl_left : shl64 (hi * 2 ^ A) 1 = hi * 2 ^ (A + 1) := by
      rw [shl64_small (by norm_num) (by
        rw [U64, pow_one]
        omega)]
      rw [pow_one, pow_succ]
      ring
    have hxor : (1 : Nat) ^^^ 0 = 1 := by norm_num
    rw [hshl_left, hxor, shl64_one hAlt]
    have hor1 : hi * 2 ^ (A + 1) ||| 2 ^ A = hi * 2 ^ (A + 1) + 2 ^ A :=
      lor_mulAdd hi (Nat.pow_lt_pow_right (by norm_num) (by omega))
    have hor2 : (hi * 2 ^ (A + 1) + 2 ^ A) ||| lo
        = hi * 2 ^ (A + 1) + 2 ^ A + lo := by
      have h1 : hi * 2 ^ (A + 1) + 2 ^ A = (hi * 2 + 1) * 2 ^ A := by
        rw [pow_succ]
        ring
      rw [h1, lor_mulAdd (hi * 2 + 1) hlo_lt]
    rw [hor1, hor2]
    -- target encoding
    have htarget : encAbove (bump1 cnt bit) 0 = hi * 2 ^ (A + 1) + 2 ^ A + lo := by
      rw [encode_decompose (bump1 cnt bit) hbit]
      have e1 : bump1 cnt bit bit = 1 := by simp [bump1, ← hK_def, hK0]
      have e2 : sumBelow (bump1 cnt bit) bit = A := by
        rw [hA_def]
        exact (sumBelow_congr _ bit fun i hi2 => by simp [bump1, show i ≠ bit from by omega]).symm
      have e3 : encBelow (bump1 cnt bit) bit = lo := by
        rw [hlo_def]
        exact (encBelow_congr _ bit fun i hi2 => by simp [bump1, show i ≠ bit from by omega]).symm
      have e4 : encAbove (bump1 cnt bit) (bit + 1) = hi := by
        rw [hhi_def]
        exact (encAbove_congr _ (bit + 1) (by omega)
          fun i hi2 => by simp [bump1, show i ≠ bit from by omega]).symm
      rw [e1, e2, e3, e4]
      simp
    rw [htarget]
  · -- present position: extend the run of `bit` by one zero
    have hK1 : 1 ≤ K := by omega
    rw [if_neg (by rw [← hK_def]; omega), hc_def, selNat_twoC_rank cnt hbit (hK_def ▸ hK1),
      ← hc_def, ← hA_def, ← hK_def]
    have htoNat : (((A + K : Nat) : Int) - ((1 : Nat) : Int)).toNat = A + K - 1 := by omega
    rw [htoNat]
    have hAKlt : A + K - 1 < 64 := by omega
    have hmask : sub64 (shl64 1 (A + K - 1)) 1 = 2 ^ (A + K - 1) - 1 := by
      rw [shl64_one hAKlt, sub64_eq (lt_of_lt_of_le
        (Nat.pow_lt_pow_right (by norm_num) hAKlt) (two_pow_le_U64 (le_refl _)))
        (Nat.one_le_two_pow)]
    have hlo_lt' : lo < 2 ^ (A + K - 1) :=
      lt_of_lt_of_le hlo_lt (Nat.pow_le_pow_right (by norm_num) (by omega))
    have hcq : c = (hi * 2 + 1) * 2 ^ (A + K - 1) + lo := by
      rw [hc_def, encode_decompose cnt hbit, ← hK_def, ← hA_def, ← hlo_def, ← hhi_def,
        if_neg (by omega)]
      have hsplit2 : (2 : Nat) ^ (A + K) = 2 ^ (A + K - 1) * 2 := by
        rw [← pow_succ, show A + K - 1 + 1 = A + K from by omega]
      rw [hsplit2]
      ring
    rw [hmask, and_not64_mask hcU (by omega), and_two_pow_sub_one, hcq,
      mulAdd_div _ hlo_lt', mulAdd_mod _ hlo_lt']
    have hleft_bound : (hi * 2 + 1) * 2 ^ (A + K - 1) * 2 < 2 ^ 63 := by
      have h1 : (hi * 2 + 1) * 2 ^ (A + K - 1) ≤ c := by rw [hcq]; omega
      omega
    have hshl_left : shl64 ((hi * 2 + 1) * 2 ^ (A + K - 1)) 1
        = (hi * 2 + 1) * 2 ^ (A + K) := by
      rw [shl64_small (by norm_num) (by rw [U64, pow_one]; omega), pow_one]
      have hsplit2 : (2 : Nat) ^ (A + K) = 2 ^ (A + K - 1) * 2 := by
        rw [← pow_succ, show A + K - 1 + 1 = A + K from by omega]
      rw [hsplit2]
      ring
    have hxor : (1 : Nat) ^^^ 1 = 0 := by norm_num
    have hshl0 : shl64 0 (A + K - 1) = 0 := by
      simp [shl64, Nat.zero_shiftLeft]
    rw [hshl_left, hxor, hshl0, Nat.or_zero]
    have hor : (hi * 2 + 1) * 2 ^ (A + K) ||| lo = (hi * 2 + 1) * 2 ^ (A + K) + lo :=
      lor_mulAdd _ (lt_of_lt_of_le hlo_lt' (Nat.pow_le_pow_right (by norm_num) (by omega)))
    rw [hor]
    have htarget : encAbove (bump1 cnt bit) 0 = (hi * 2 + 1) * 2 ^ (A + K) + lo := by
      rw [encode_decompose (bump1 cnt bit) hbit]
      have e1 : bump1 cnt bit bit = K + 1 := by simp [bump1, ← hK_def]
      have e2 : sumBelow (bump1 cnt bit) bit = A := by
        rw [hA_def]
        exact (sumBelow_congr _ bit fun i hi2 => by simp [bump1, show i ≠ bit from by omega]).symm
      have e3 : encBelow (bump1 cnt bit) bit = lo := by
        rw [hlo_def]
        exact (encBelow_congr _ bit fun i hi2 => by simp [bump1, show i ≠ bit from by omega]).symm
      have e4 : encAbove (bump1 cnt bit) (bit + 1) = hi := by
        rw [hhi_def]
        exact (encAbove_congr _ (bit + 1) (by omega)
          fun i hi2 => by simp [bump1, show i ≠ bit from by omega]).symm
      rw [e1, e2, e3, e4, if_neg (by omega)]
      have hsplit2 : (2 : Nat) ^ (A + (K + 1)) = 2 ^ (A + K) * 2 := by
        rw [← pow_succ, show A + K + 1 = A + (K + 1) from by omega]
      have hsplit3 : A + (K + 1) - 1 = A + K := by omega
      rw [hsplit2, hsplit3]
      ring
    rw [htarget]

/-- Correctness of the inline `Decrement` splice. -/
theorem decInline_correct (cnt : Nat → Nat) (hbit : bit < 64) (hK : 1 ≤ cnt bit)
    (hT : totalOf cnt ≤ 63) :
    decInline (maskBelow cnt 64) (encAbove cnt 0) bit
      = (maskBelow (drop1 cnt bit) 64, encAbove (drop1 cnt bit) 0) := by
  set c := encAbove cnt 0 with hc_def
  set A := sumBelow cnt bit with hA_def
  set K := cnt bit with hK_def
  set lo := encBelow cnt bit with hlo_def
  set hi := encAbove cnt (bit + 1) with hhi_def
  have hAK_le : A + K ≤ 63 := by
    have h1 := sumBelow_le cnt (show bit + 1 ≤ 64 from by omega)
    have hB : sumBelow cnt (bit + 1) = A + K := rfl
    rw [hB] at h1
    exact le_trans h1 hT
  have hc63 : c < 2 ^ 63 := lt_of_lt_of_le (encode_lt cnt)
    (Nat.pow_le_pow_right (by norm_num) hT)
  have hcU : c < U64 := lt_of_lt_of_le hc63 (two_pow_le_U64 (by omega))
  have hlo_lt : lo < 2 ^ A := encBelow_lt cnt bit
  have hpopc : popc (c * 2 + 1) = cntBelow cnt 64 + 1 := by
    have h := popc_mulAdd 1 c 1 (by norm_num)
    simp only [pow_one] at h
    rw [h, popc_encode, show popc 1 = 1 from by rw [popc]; simp [popc_zero]]
  have h2c1U : c * 2 + 1 < U64 := by
    rw [U64]
    have : (2 : Nat) ^ 63 * 2 = 2 ^ 64 := by rw [← pow_succ]
    omega
  have hrle : cntBelow cnt (bit + 1) ≤ cntBelow cnt 64 := cntBelow_le cnt (by omega)
  have hsel : select64 (shl64 c 1 ||| 1) (cntBelow cnt (bit + 1)) = ((A + K : Nat) : Int) := by
    rw [shl_c_or_one hc63, select64_eq h2c1U (by omega), hc_def,
      selNat_twoC_rank cnt hbit (hK_def ▸ hK), ← hA_def, ← hK_def]
  have hcq : c = (hi * 2 + 1) * 2 ^ (A + K - 1) + lo := by
    rw [hc_def, encode_decompose cnt hbit, ← hK_def, ← hA_def, ← hlo_def, ← hhi_def,
      if_neg (by omega)]
    have hsplit2 : (2 : Nat) ^ (A + K) = 2 ^ (A + K - 1) * 2 := by
      rw [← pow_succ, show A + K - 1 + 1 = A + K from by omega]
    rw [hsplit2]
    ring
  have hlo_lt1 : lo < 2 ^ (A + K - 1) :=
    lt_of_lt_of_le hlo_lt (Nat.pow_le_pow_right (by norm_num) (by omega))
  -- target encoding
  have htarget : encAbove (drop1 cnt bit) 0
      = hi * 2 ^ (A + (K - 1))
        + (if K - 1 = 0 then 0 else 2 ^ (A + (K - 1) - 1)) + lo := by
    rw [encode_decompose (drop1 cnt bit) hbit]
    have e1 : drop1 cnt bit bit = K - 1 := by simp [drop1, ← hK_def]
    have e2 : sumBelow (drop1 cnt bit) bit = A := by
      rw [hA_def]
      exact (sumBelow_congr _ bit fun i hi2 => by simp [drop1, show i ≠ bit from by omega]).symm
    have e3 : encBelow (drop1 cnt bit) bit = lo := by
      rw [hlo_def]
      exact (encBelow_congr _ bit fun i hi2 => by simp [drop1, show i ≠ bit from by omega]).symm
    have e4 : encAbove (drop1 cnt bit) (bit + 1) = hi := by
      rw [hhi_def]
      exact (encAbove_congr _ (bit + 1) (by omega)
        fun i hi2 => by simp [drop1, show i ≠ bit from by omega]).symm
    rw [e1, e2, e3, e4]
  simp only [decInline]
  rw [bitsBefore_eq cnt hbit, hsel]
  rcases Nat.lt_or_ge (A + K) 2 with hAK2 | hAK2
  · -- the lone counter of the group: K = 1, A = 0
    have hK1 : K = 1 := by omega
    have hA0 : A = 0 := by omega
    have hlo0 : lo = 0 := by
      rw [hA0] at hlo_lt
      omega
    have htoNat : (max 0 (((A + K : Nat) : Int) - 1 - 1)).toNat = 0 := by
      rw [hA0, hK1]
      decide
    rw [htoNat]
    have hmask : sub64 (shl64 1 0) 1 = 0 := by
      rw [shl64_one (by norm_num), pow_zero, sub64_eq (by rw [U64]; norm_num) (le_refl 1)]
    rw [hmask]
    have hnot0 : not64 0 = mask64 := by
      rw [not64]
      simp
    have hshr : shr64 c 1 = c / 2 := by
      rw [shr64_eq hcU (by norm_num), pow_one]
    have hleft : shr64 c 1 &&& not64 0 = c / 2 := by
      rw [hnot0, mask64, and_two_pow_sub_one, hshr, Nat.mod_eq_of_lt]
      calc c / 2 ≤ c := Nat.div_le_self c 2
        _ < 2 ^ 64 := hcU
    have hcodd : c = hi * 2 + 1 := by
      rw [hcq, hK1, hA0, hlo0]
      norm_num
    have hremoved : shr64 c 0 &&& 1 = 1 := by
      rw [shr64_eq hcU (by norm_num), pow_zero, Nat.div_one,
        show (1 : Nat) = 2 ^ 1 - 1 from by norm_num, and_two_pow_sub_one, hcodd]
      omega
    rw [hleft, Nat.and_zero, Nat.or_zero, hremoved, shl64_one hbit,
      maskBelow_clear cnt hbit (by omega), htarget]
    have hdiv2 : c / 2 = hi := by
      rw [hcodd]
      omega
    rw [hdiv2, hK1, hA0, hlo0]
    norm_num
  · -- a removable zero exists: remove at A+K-2
    have htoNat : (max 0 (((A + K : Nat) : Int) - 1 - 1)).toNat = A + K - 2 := by
      omega
    rw [htoNat]
    have hRlt : A + K - 2 < 64 := by omega
    have hmask : sub64 (shl64 1 (A + K - 2)) 1 = 2 ^ (A + K - 2) - 1 := by
      rw [shl64_one hRlt, sub64_eq (lt_of_lt_of_le
        (Nat.pow_lt_pow_right (by norm_num) hRlt) (two_pow_le_U64 (le_refl _)))
        (Nat.one_le_two_pow)]
    have hc2U : c / 2 < U64 := lt_of_le_of_lt (Nat.div_le_self c 2) hcU
    have hshr : shr64 c 1 = c / 2 := by
      rw [shr64_eq hcU (by norm_num), pow_one]
    rw [hmask, hshr, and_not64_mask hc2U (by omega), and_two_pow_sub_one]
    rcases Nat.lt_or_ge K 2 with hK1' | hK2
    · -- K = 1, A ≥ 1: the removed bit is the terminator
      have hK1 : K = 1 := by omega
      have hA1 : 1 ≤ A := by omega
      have hApos : 0 < sumBelow cnt bit := by omega
      have hlo_ge : 2 ^ (A - 1) ≤ lo := hlo_def ▸ (hA_def ▸ encBelow_ge cnt bit hApos)
      have hpowA : (2 : Nat) ^ A = 2 ^ (A - 1) * 2 := by
        rw [← pow_succ, show A - 1 + 1 = A from by omega]
      have hAK2' : A + K - 2 = A - 1 := by omega
      have hcq3 : c = ((hi * 2 + 1) * 2 + 1) * 2 ^ (A - 1) + (lo - 2 ^ (A - 1)) := by
        rw [hcq, hK1, show A + 1 - 1 = A from by omega, hpowA]
        have hx : (0 : Nat) < 2 ^ (A - 1) := Nat.two_pow_pos _
        ring_nf
        omega
      have hlo' : lo - 2 ^ (A - 1) < 2 ^ (A - 1) := by
        have hx : (0 : Nat) < 2 ^ (A - 1) := Nat.two_pow_pos _
        omega
      have hdivc : c / 2 = (hi * 2 + 1) * 2 ^ (A - 1) + lo / 2 := by
        have hx : c = (hi * 2 + 1) * 2 ^ (A - 1) * 2 + lo := by
          rw [hcq, hK1, show A + 1 - 1 = A from by omega, hpowA]
          ring
        omega
      have hlo2 : lo / 2 < 2 ^ (A - 1) := by
        have : lo < 2 ^ (A - 1) * 2 := by rw [← hpowA]; exact hlo_lt
        omega
      have hmod : c % 2 ^ (A - 1) = lo - 2 ^ (A - 1) := by
        conv_lhs => rw [hcq3]
        exact mulAdd_mod _ hlo'
      have hremoved : shr64 c (A + K - 2) &&& 1 = 1 := by
        rw [shr64_eq hcU hRlt, hAK2']
        conv_lhs => rw [hcq3]
        rw [mulAdd_div _ hlo', show (1 : Nat) = 2 ^ 1 - 1 from by norm_num,
          and_two_pow_sub_one]
        omega
      rw [hremoved, hAK2', hdivc, mulAdd_div _ hlo2, hmod, lor_mulAdd _ hlo',
        shl64_one hbit, maskBelow_clear cnt hbit (by omega), htarget, hK1]
      simp only [Nat.sub_self, if_pos rfl, Nat.add_zero]
      have hfin : (hi * 2 + 1) * 2 ^ (A - 1) + (lo - 2 ^ (A - 1)) = hi * 2 ^ A + lo := by
        rw [hpowA]
        have hx : (0 : Nat) < 2 ^ (A - 1) := Nat.two_pow_pos _
        ring_nf
        omega
      rw [hfin]
      simp
    · -- K ≥ 2: the removed bit is a zero of the run
      have hlo_lt2 : lo < 2 ^ (A + K - 2) :=
        lt_of_lt_of_le hlo_lt (Nat.pow_le_pow_right (by norm_num) (by omega))
      have hpow1 : (2 : Nat) ^ (A + K - 1) = 2 ^ (A + K - 2) * 2 := by
        rw [← pow_succ, show A + K - 2 + 1 = A + K - 1 from by omega]
      have hcq2 : c = ((hi * 2 + 1) * 2) * 2 ^ (A + K - 2) + lo := by
        rw [hcq, hpow1]
        ring
      have hdivc : c / 2 = (hi * 2 + 1) * 2 ^ (A + K - 2) + lo / 2 := by
        have hx : c = (hi * 2 + 1) * 2 ^ (A + K - 2) * 2 + lo := by
          rw [hcq, hpow1]
          ring
        omega
      have hlo2 : lo / 2 < 2 ^ (A + K - 2) := lt_of_le_of_lt (Nat.div_le_self _ _) hlo_lt2
      have hmod : c % 2 ^ (A + K - 2) = lo := by
        conv_lhs => rw [hcq2]
        exact mulAdd_mod _ hlo_lt2
      have hremoved : shr64 c (A + K - 2) &&& 1 = 0 := by
        rw [shr64_eq hcU hRlt]
        conv_lhs => rw [hcq2]
        rw [mulAdd_div _ hlo_lt2, show (1 : Nat) = 2 ^ 1 - 1 from by norm_num,
          and_two_pow_sub_one]
        omega
      rw [hremoved, hdivc, mulAdd_div _ hlo2, hmod, lor_mulAdd _ hlo_lt2]
      have hshl0 : shl64 0 bit = 0 := by
        simp [shl64, Nat.zero_shiftLeft]
      have hnot0 : not64 0 = mask64 := by
        rw [not64]
        simp
      have hm64 : maskBelow cnt 64 &&& mask64 = maskBelow cnt 64 := by
        rw [mask64, and_two_pow_sub_one, Nat.mod_eq_of_lt (maskBelow_lt cnt 64)]
      rw [hshl0, hnot0, hm64,
        (@maskBelow_drop_keep bit cnt (show 2 ≤ cnt bit from by rw [← hK_def]; omega)).symm,
        htarget, if_neg (by omega)]
      have hfin : (hi * 2 + 1) * 2 ^ (A + K - 2) + lo
          = hi * 2 ^ (A + (K - 1)) + 2 ^ (A + (K - 1) - 1) + lo := by
        have h1 : A + (K - 1) = A + K - 1 := by omega
        have h2 : A + (K - 1) - 1 = A + K - 2 := by omega
        rw [h2, h1, hpow1]
        ring
      rw [hfin]

end CodecCorrect

/-! ### Overflow-slot lane arithmetic -/

section Lanes

variable (cnt : Nat → Nat)

theorem upd_self (f : Nat → Nat) (i v : Nat) : upd f i v i = v := by
  simp [upd]

theorem upd_other (f : Nat → Nat) {i j : Nat} (v : Nat) (h : j ≠ i) : upd f i v j = f j := by
  simp [upd, h]

theorem laneWordAux_lt (h15 : ∀ i, cnt i ≤ 15) (base : Nat) :
    ∀ n, laneWordAux cnt base n < 2 ^ (4 * n)
  | 0 => by simp [laneWordAux]
  | n + 1 => by
    have ih := laneWordAux_lt h15 base n
    have hc := h15 (base + n)
    have hstep : (2 : Nat) ^ (4 * (n + 1)) = 2 ^ (4 * n) * 16 := by
      rw [show 4 * (n + 1) = 4 * n + 4 from by omega, pow_add]
      norm_num
    have hterm : cnt (base + n) * 2 ^ (4 * n) ≤ 15 * 2 ^ (4 * n) :=
      Nat.mul_le_mul_right _ hc
    rw [laneWordAux]
    omega

theorem laneWordAux_split (base : Nat) :
    ∀ d m, ∃ X, laneWordAux cnt base (m + d) = X * 2 ^ (4 * m) + laneWordAux cnt base m
  | 0, m => ⟨0, by simp⟩
  | d + 1, m => by
    obtain ⟨X, hX⟩ := laneWordAux_split base d m
    refine ⟨X + cnt (base + (m + d)) * 2 ^ (4 * d), ?_⟩
    rw [show m + (d + 1) = (m + d) + 1 from by omega, laneWordAux, hX]
    have hp : (2 : Nat) ^ (4 * (m + d)) = 2 ^ (4 * d) * 2 ^ (4 * m) := by
      rw [← pow_add]
      congr 1
      omega
    rw [hp]
    ring

/-- Reading one 4-bit lane out of a slot word. -/
theorem lane_extract (h15 : ∀ i, cnt i ≤ 15) {w j : Nat} (hj : j < 16) (hw : w < 4) :
    shr64 (laneWord cnt w) (4 * j) &&& 15 = cnt (16 * w + j) := by
  have hlt : laneWord cnt w < U64 := by
    have := laneWordAux_lt cnt h15 (16 * w) 16
    exact lt_of_lt_of_le this (by rw [U64])
  have hsh : 4 * j < 64 := by omega
  rw [shr64_eq hlt hsh, show (15 : Nat) = 2 ^ 4 - 1 from by norm_num, and_two_pow_sub_one]
  obtain ⟨X, hX⟩ := laneWordAux_split cnt (16 * w) (16 - (j + 1)) (j + 1)
  rw [show j + 1 + (16 - (j + 1)) = 16 from by omega] at hX
  have hstep : laneWordAux cnt (16 * w) (j + 1)
      = laneWordAux cnt (16 * w) j + cnt (16 * w + j) * 2 ^ (4 * j) := rfl
  have hlow : laneWordAux cnt (16 * w) j < 2 ^ (4 * j) := laneWordAux_lt cnt h15 _ j
  have hjj : (2 : Nat) ^ (4 * (j + 1)) = 2 ^ (4 * j) * 2 ^ 4 := by
    rw [show 4 * (j + 1) = 4 * j + 4 from by omega, pow_add]
  have hval : laneWord cnt w
      = (X * 2 ^ 4 + cnt (16 * w + j)) * 2 ^ (4 * j) + laneWordAux cnt (16 * w) j := by
    rw [laneWord, hX, hstep, hjj]
    ring
  rw [hval, mulAdd_div _ hlow, Nat.mul_comm X, Nat.mul_add_mod,
    Nat.mod_eq_of_lt (by have := h15 (16 * w + j); omega)]

/-- The 64-bit shift count `bit * 4` as executed: `4 * (bit % 16)`. -/
theorem shl_lane_bit {bit : Nat} : shl64 1 (bit * 4) = 2 ^ (4 * (bit % 16)) := by
  have hlt : (2 : Nat) ^ (4 * (bit % 16)) < U64 := by
    have h1 : 4 * (bit % 16) < 64 := by omega
    calc (2 : Nat) ^ (4 * (bit % 16)) < 2 ^ 64 := Nat.pow_lt_pow_right (by norm_num) h1
    _ = U64 := rfl
  rw [shl64, show bit * 4 % 64 = 4 * (bit % 16) from by omega, Nat.one_shiftLeft,
    Nat.mod_eq_of_lt hlt]

/-- Bumping one counter adds `2^(4*(bit%16))` to its slot word. -/
theorem laneWord_bump {bit : Nat} (hbit : bit < 64) :
    laneWord (bump1 cnt bit) (bit / 16)
      = laneWord cnt (bit / 16) + 2 ^ (4 * (bit % 16)) := by
  rw [laneWord, laneWord]
  have key : ∀ n, n ≤ 16 → laneWordAux (bump1 cnt bit) (16 * (bit / 16)) n
      = laneWordAux cnt (16 * (bit / 16)) n
        + (if bit % 16 < n then 2 ^ (4 * (bit % 16)) else 0) := by
    intro n
    induction n with
    | zero => simp [laneWordAux]
    | succ n ih =>
      intro hn
      rw [laneWordAux, laneWordAux, ih (by omega)]
      by_cases h : 16 * (bit / 16) + n = bit
      · have hmod : bit % 16 = n := by omega
        rw [show bump1 cnt bit (16 * (bit / 16) + n) = cnt (16 * (bit / 16) + n) + 1 from by
          simp [bump1, h]]
        rw [if_neg (by omega), if_pos (by omega), hmod]
        ring
      · rw [show bump1 cnt bit (16 * (bit / 16) + n) = cnt (16 * (bit / 16) + n) from by
          simp [bump1, h]]
        by_cases h2 : bit % 16 < n
        · rw [if_pos h2, if_pos (by omega)]
          ring
        · have hne : bit % 16 ≠ n := by omega
          rw [if_neg h2, if_neg (by omega)]
          ring
  rw [key 16 (le_refl _), if_pos (by omega)]

theorem laneWord_bump_other {bit w : Nat} (hw : w ≠ bit / 16) :
    laneWord (bump1 cnt bit) w = laneWord cnt w := by
  rw [laneWord, laneWord]
  have key : ∀ n, n ≤ 16 → laneWordAux (bump1 cnt bit) (16 * w) n
      = laneWordAux cnt (16 * w) n := by
    intro n
    induction n with
    | zero => simp [laneWordAux]
    | succ n ih =>
      intro hn
      rw [laneWordAux, laneWordAux, ih (by omega)]
      have h : 16 * w + n ≠ bit := by omega
      rw [show bump1 cnt bit (16 * w + n) = cnt (16 * w + n) from by simp [bump1, h]]
  exact key 16 (le_refl _)

theorem laneWord_drop {bit : Nat} (hbit : bit < 64) (hpos : 1 ≤ cnt bit) :
    laneWord (drop1 cnt bit) (bit / 16)
      = laneWord cnt (bit / 16) - 2 ^ (4 * (bit % 16)) := by
  have h := laneWord_bump (drop1 cnt bit) hbit
  have hb : bump1 (drop1 cnt bit) bit = cnt := by
    funext i
    by_cases hi : i = bit
    · subst hi
      simp [bump1, drop1]
      omega
    · simp [bump1, drop1, hi]
  rw [hb] at h
  omega

theorem laneWord_drop_other {bit w : Nat} (hw : w ≠ bit / 16) :
    laneWord (drop1 cnt bit) w = laneWord cnt w := by
  rw [laneWord, laneWord]
  have key : ∀ n, n ≤ 16 → laneWordAux (drop1 cnt bit) (16 * w) n
      = laneWordAux cnt (16 * w) n := by
    intro n
    induction n with
    | zero => simp [laneWordAux]
    | succ n ih =>
      intro hn
      rw [laneWordAux, laneWordAux, ih (by omega)]
      have h : 16 * w + n ≠ bit := by omega
      rw [show drop1 cnt bit (16 * w + n) = cnt (16 * w + n) from by simp [drop1, h]]
  exact key 16 (le_refl _)

/-- A single lane is bounded by its slot word. -/
theorem lane_le_word (h15 : ∀ i, cnt i ≤ 15) {bit : Nat} (hbit : bit < 64) :
    cnt bit * 2 ^ (4 * (bit % 16)) ≤ laneWord cnt (bit / 16) := by
  rw [laneWord]
  obtain ⟨X, hX⟩ := laneWordAux_split cnt (16 * (bit / 16)) (16 - (bit % 16 + 1)) (bit % 16 + 1)
  rw [show bit % 16 + 1 + (16 - (bit % 16 + 1)) = 16 from by omega] at hX
  have hstep : laneWordAux cnt (16 * (bit / 16)) (bit % 16 + 1)
      = laneWordAux cnt (16 * (bit / 16)) (bit % 16)
        + cnt (16 * (bit / 16) + bit % 16) * 2 ^ (4 * (bit % 16)) := rfl
  rw [hX, hstep, show 16 * (bit / 16) + bit % 16 = bit from by omega]
  omega

end Lanes

/-! ### Header words of promoted groups -/

section Headers

theorem header_lt {T idx : Nat} (hT : T < 2 ^ 28) (hidx : idx < 2 ^ 28) :
    2 ^ 63 + T * 2 ^ 32 + idx < U64 := by
  rw [U64]
  omega

theorem header_and_top {T idx : Nat} (hT : T < 2 ^ 28) (hidx : idx < 2 ^ 28) :
    (2 ^ 63 + T * 2 ^ 32 + idx) &&& 0x8000000000000000 ≠ 0 := by
  intro hz
  have := (and_top_eq_zero_iff (header_lt hT hidx)).mp hz
  omega

theorem header_and_low {T idx : Nat} (hT : T < 2 ^ 28) (hidx : idx < 2 ^ 28) :
    (2 ^ 63 + T * 2 ^ 32 + idx) &&& 0x0fffffff = idx := by
  rw [show (0x0fffffff : Nat) = 2 ^ 28 - 1 from by norm_num, and_two_pow_sub_one]
  omega

theorem header_count {T idx : Nat} (hT : T < 2 ^ 28) (hidx : idx < 2 ^ 28) :
    shr64 (2 ^ 63 + T * 2 ^ 32 + idx) 32 &&& 0x0fffffff = T := by
  rw [shr64_eq (header_lt hT hidx) (by norm_num),
    show (0x0fffffff : Nat) = 2 ^ 28 - 1 from by norm_num, and_two_pow_sub_one]
  omega

/-- `bit & 0xf` is `bit % 16`. -/
theorem and_fifteen (x : Nat) : x &&& 0xf = x % 16 := by
  rw [show (0xf : Nat) = 2 ^ 4 - 1 from by norm_num, and_two_pow_sub_one]
  norm_num

/-- The total of a group with 4-bit counters is at most `15 * 64`. -/
theorem totalOf_le_960 (cnt : Nat → Nat) (h15 : ∀ i, cnt i ≤ 15) :
    totalOf cnt ≤ 960 := by
  have key : ∀ j, sumBelow cnt j ≤ 15 * j := by
    intro j
    induction j with
    | zero => simp [sumBelow]
    | succ j ih =>
      have := h15 j
      rw [sumBelow]
      omega
  have := key 64
  rw [totalOf]
  omega

/-- The total stored in a promoted group's counter word is below `2^28`. -/
theorem totalOf_lt_two_pow (cnt : Nat → Nat) (h15 : ∀ i, cnt i ≤ 15) :
    totalOf cnt < 2 ^ 28 := by
  have := totalOf_le_960 cnt h15
  omega

end Headers

/-! ### ReadCount against the invariant -/

section StateRead

/-- The presence-bit test on a well-formed mask. -/
theorem presence_iff (cnt : Nat → Nat) {bit : Nat} (hbit : bit < 64) :
    shr64 (maskBelow cnt 64) bit &&& 1 = 0 ↔ cnt bit = 0 := by
  have hlt := maskBelow_lt_U64 cnt
  rw [shr64_eq hlt hbit, show (1 : Nat) = 2 ^ 1 - 1 from rfl, and_two_pow_sub_one, pow_one]
  have ht := testBit_maskBelow cnt 64 bit
  rw [Nat.testBit_to_div_mod] at ht
  constructor
  · intro h
    by_contra hc
    simp [hbit, hc] at ht
    omega
  · intro h
    simp [hbit, h] at ht
    omega

/-- `ReadCount` returns the abstract count on any group satisfying the
invariant. -/
theorem ReadCount_eq_rc {s : SCBF} {rc : Nat → Nat → Nat} {g bit : Nat}
    (hg : GroupInv s rc g) (hbit : bit < 64) :
    s.ReadCount g bit = rc g bit := by
  obtain ⟨hout, hhi, h15, hdata, hinl, hpro⟩ := hg
  simp only [SuccinctCountingBloomFilter.ReadCount]
  by_cases hz : rc g bit = 0
  · rw [hdata, if_pos ((presence_iff (rc g) hbit).mpr hz)]
    exact hz.symm
  · rw [hdata, if_neg (fun h => hz ((presence_iff (rc g) hbit).mp h))]
    by_cases hp : s.counts g &&& 0x8000000000000000 ≠ 0
    · obtain ⟨hc, halign, hrange, htot, hlanes⟩ := hpro hp
      simp only [slotIdx] at hlanes
      rw [if_pos hp, hlanes (bit / 16) (by omega), and_fifteen bit,
        lane_extract (rc g) h15 (show bit % 16 < 16 from by omega)
          (show bit / 16 < 4 from by omega),
        show 16 * (bit / 16) + bit % 16 = bit from by omega]
    · obtain ⟨hc, htot⟩ := hinl hp
      rw [if_neg hp, hc]
      exact readInline_correct (rc g) hbit (by omega) htot

end StateRead

/-! ### Helpers for the step lemmas -/

section StepHelpers

theorem upd_refl (f : Nat → Nat) (i : Nat) : upd f i (f i) = f := by
  funext j
  by_cases h : j = i <;> simp [upd, h]

theorem rcInc_self (rc : Nat → Nat → Nat) (g bit : Nat) :
    rcInc rc g bit g = bump1 (rc g) bit := by
  funext i
  simp [rcInc, bump1]

theorem rcInc_other (rc : Nat → Nat → Nat) {g g' : Nat} (bit : Nat) (h : g' ≠ g) :
    rcInc rc g bit g' = rc g' := by
  funext i
  simp [rcInc, h]

theorem rcDec_self (rc : Nat → Nat → Nat) (g bit : Nat) :
    rcDec rc g bit g = drop1 (rc g) bit := by
  funext i
  simp [rcDec, drop1]

theorem rcDec_other (rc : Nat → Nat → Nat) {g g' : Nat} (bit : Nat) (h : g' ≠ g) :
    rcDec rc g bit g' = rc g' := by
  funext i
  simp [rcDec, h]

theorem sumBelow_bump (cnt : Nat → Nat) {bit : Nat} :
    ∀ j, sumBelow (bump1 cnt bit) j = sumBelow cnt j + (if bit < j then 1 else 0)
  | 0 => by simp [sumBelow]
  | j + 1 => by
    rw [sumBelow, sumBelow, sumBelow_bump cnt j]
    by_cases h : j = bit
    · rw [show bump1 cnt bit j = cnt j + 1 from by simp [bump1, h],
        if_neg (show ¬ bit < j from by omega), if_pos (show bit < j + 1 from by omega)]
      omega
    · rw [show bump1 cnt bit j = cnt j from by simp [bump1, h]]
      split_ifs <;> omega

theorem totalOf_bump (cnt : Nat → Nat) {bit : Nat} (hbit : bit < 64) :
    totalOf (bump1 cnt bit) = totalOf cnt + 1 := by
  rw [totalOf, totalOf, sumBelow_bump, if_pos (by omega)]

theorem sumBelow_drop (cnt : Nat → Nat) {bit : Nat} (hpos : 1 ≤ cnt bit) :
    ∀ j, sumBelow (drop1 cnt bit) j + (if bit < j then 1 else 0) = sumBelow cnt j
  | 0 => by simp [sumBelow]
  | j + 1 => by
    rw [sumBelow, sumBelow, ← sumBelow_drop cnt hpos j]
    by_cases h : j = bit
    · rw [show drop1 cnt bit j = cnt j - 1 from by simp [drop1, h],
        if_neg (show ¬ bit < j from by omega), if_pos (show bit < j + 1 from by omega)]
      have : 1 ≤ cnt j := by rw [h]; exact hpos
      omega
    · rw [show drop1 cnt bit j = cnt j from by simp [drop1, h]]
      split_ifs <;> omega

theorem totalOf_drop (cnt : Nat → Nat) {bit : Nat} (hbit : bit < 64) (hpos : 1 ≤ cnt bit) :
    totalOf (drop1 cnt bit) + 1 = totalOf cnt := by
  have := sumBelow_drop cnt hpos 64
  rw [if_pos (by omega)] at this
  exact this

theorem encode_lt_two_pow {cnt : Nat → Nat} {t : Nat} (h : totalOf cnt ≤ t) :
    encAbove cnt 0 < 2 ^ t :=
  lt_of_lt_of_le (encode_lt cnt) (Nat.pow_le_pow_right (by norm_num) h)

theorem encode_not_promoted {cnt : Nat → Nat} (h : totalOf cnt ≤ 63) :
    encAbove cnt 0 &&& 0x8000000000000000 = 0 := by
  have hlt : encAbove cnt 0 < U64 :=
    lt_of_lt_of_le (encode_lt_two_pow h) (two_pow_le_U64 (by omega))
  rw [and_top_eq_zero_iff hlt]
  exact encode_lt_two_pow h

/-- The `Increment` branch test on an inline counter word reads off whether the
group total is still at most 62. -/
theorem inline_branch_iff {cnt : Nat → Nat} (hT : totalOf cnt ≤ 63) :
    encAbove cnt 0 &&& 0xc000000000000000 = 0 ↔ totalOf cnt ≤ 62 := by
  have hlt : encAbove cnt 0 < U64 :=
    lt_of_lt_of_le (encode_lt_two_pow hT) (two_pow_le_U64 (by omega))
  rw [and_ctop_eq_zero_iff hlt]
  constructor
  · intro h
    by_contra hc
    have h63 : totalOf cnt = 63 := by omega
    have := encode_ge cnt (by omega)
    rw [h63] at this
    norm_num at this
    omega
  · intro h
    exact encode_lt_two_pow h

theorem Chain_congr {ov ov' : Nat → Nat} {len : Nat} {l : List Nat} :
    ∀ {n : Nat}, Chain ov len n l → (∀ a ∈ l, ov' a = ov a) → Chain ov' len n l := by
  induction l with
  | nil =>
    intro n h _
    exact h
  | cons a rest ih =>
    intro n h hcong
    obtain ⟨h1, h2, h3⟩ := h
    refine ⟨h1, h2, ?_⟩
    rw [hcong a (by simp)]
    exact ih h3 (fun b hb => hcong b (by simp [hb]))

theorem IsPromoted_congr {s s' : SCBF} {g : Nat} (h : s'.counts g = s.counts g) :
    IsPromoted s' g ↔ IsPromoted s g := by
  unfold IsPromoted
  rw [h]

theorem slotIdx_congr {s s' : SCBF} {g : Nat} (h : s'.counts g = s.counts g) :
    slotIdx s' g = slotIdx s g := by
  unfold slotIdx
  rw [h]

theorem PoolInv_transfer {s s' : SCBF} {fl : List Nat}
    (hov : s'.overflow = s.overflow) (hnf : s'.nextFreeOverflow = s.nextFreeOverflow)
    (hlen : s'.overflowLength = s.overflowLength)
    (hpro : ∀ g, IsPromoted s' g ↔ IsPromoted s g)
    (hidx : ∀ g, IsPromoted s g → slotIdx s' g = slotIdx s g)
    (h : PoolInv s fl) : PoolInv s' fl := by
  obtain ⟨hch, hnd, hal, hfree, hinj⟩ := h
  refine ⟨?_, hnd, ?_, ?_, ?_⟩
  · rw [hov, hnf, hlen]
    exact hch
  · intro a ha
    rw [hlen]
    exact hal a ha
  · intro slot h4 hlt
    rw [hlen] at hlt
    rw [hfree slot h4 hlt]
    constructor
    · intro hall g hg
      have hg' := (hpro g).mp hg
      rw [hidx g hg']
      exact hall g hg'
    · intro hall g hg
      have := hall g ((hpro g).mpr hg)
      rwa [hidx g hg] at this
  · intro g g' hg hg' heq
    have hg1 := (hpro g).mp hg
    have hg1' := (hpro g').mp hg'
    refine hinj g g' hg1 hg1' ?_
    rw [← hidx g hg1, ← hidx g' hg1', heq]

theorem GroupInv_frame {s s' : SCBF} {rc rc' : Nat → Nat → Nat} {g : Nat}
    (hd : s'.data g = s.data g) (hc : s'.counts g = s.counts g)
    (hlen : s'.arrayLength = s.arrayLength) (hovlen : s'.overflowLength = s.overflowLength)
    (hrc : rc' g = rc g)
    (hov : IsPromoted s g → ∀ w, w < 4 →
      s'.overflow (slotIdx s g + w) = s.overflow (slotIdx s g + w))
    (h : GroupInv s rc g) : GroupInv s' rc' g := by
  obtain ⟨h1, h2, h3, h4, h5, h6⟩ := h
  have hp : IsPromoted s' g ↔ IsPromoted s g := IsPromoted_congr hc
  have hsl : slotIdx s' g = slotIdx s g := slotIdx_congr hc
  refine ⟨?_, ?_, ?_, ?_, ?_, ?_⟩
  · rw [hlen, hrc]
    exact h1
  · rw [hrc]
    exact h2
  · rw [hrc]
    exact h3
  · rw [hd, hrc]
    exact h4
  · intro hnp
    rw [hc, hrc]
    exact h5 (fun hq => hnp (hp.mpr hq))
  · intro hpp
    have hps := hp.mp hpp
    obtain ⟨k1, k2, k3, k4, k5⟩ := h6 hps
    refine ⟨?_, ?_, ?_, ?_, ?_⟩
    · rw [hc, hsl, hrc]
      exact k1
    · rw [hsl]
      exact k2
    · rw [hsl, hovlen]
      exact k3
    · rw [hrc]
      exact k4
    · intro w hw
      rw [hsl, hov hps w hw, hrc]
      exact k5 w hw

end StepHelpers

/-! ### The inline branches of `Increment` and `Decrement` -/

section InlineStep

/-- On a group whose total is at most 62, `Increment` takes the inline branch
and only rewrites the group's presence and counter words. -/
theorem Increment_inline_spec {s : SCBF} {rc : Nat → Nat → Nat} {g bit : Nat}
    (hInv : Inv s rc) (hbit : bit < 64) (hT : totalOf (rc g) ≤ 62) :
    SuccinctCountingBloomFilter.Increment s g bit =
      { s with data := upd s.data g (maskBelow (bump1 (rc g) bit) 64),
               counts := upd s.counts g (encAbove (bump1 (rc g) bit) 0) } := by
  obtain ⟨hcfg, hgrp, hpool⟩ := hInv
  obtain ⟨h1, h2, h3, h4, h5, h6⟩ := hgrp g
  have hnp : ¬ IsPromoted s g := by
    intro hp
    have := (h6 hp).2.2.2.1
    omega
  obtain ⟨hc, hT'⟩ := h5 hnp
  rw [encode] at hc
  have hbranch : s.counts g &&& 0xc000000000000000 = 0 := by
    rw [hc]
    exact (inline_branch_iff (by omega)).mpr hT
  simp only [SuccinctCountingBloomFilter.Increment]
  rw [if_neg (fun h => h hbranch), h4, hc,
    incInline_correct (rc g) hbit hT]

/-- Updating one group's presence and counter words to the bumped inline
encoding preserves the invariant. -/
theorem Inv_inline_bump {s s' : SCBF} {rc : Nat → Nat → Nat} {g bit : Nat}
    (hInv : Inv s rc) (hg : g < s.arrayLength) (hbit : bit < 64) (h14 : rc g bit ≤ 14)
    (hT : totalOf (rc g) ≤ 62)
    (hd : s'.data = upd s.data g (maskBelow (bump1 (rc g) bit) 64))
    (hc : s'.counts = upd s.counts g (encAbove (bump1 (rc g) bit) 0))
    (hov : s'.overflow = s.overflow) (hnf : s'.nextFreeOverflow = s.nextFreeOverflow)
    (hal : s'.arrayLength = s.arrayLength) (holen : s'.overflowLength = s.overflowLength) :
    Inv s' (rcInc rc g bit) := by
  obtain ⟨hcfg, hgrp, fl, hpool⟩ := hInv
  obtain ⟨h1, h2, h3, h4, h5, h6⟩ := hgrp g
  have hnp : ¬ IsPromoted s g := by
    intro hp
    have := (h6 hp).2.2.2.1
    omega
  have hT1 : totalOf (bump1 (rc g) bit) = totalOf (rc g) + 1 := totalOf_bump (rc g) hbit
  have hvz : s'.counts g &&& 0x8000000000000000 = 0 := by
    rw [hc, upd_self]
    exact encode_not_promoted (by omega)
  have hnp' : ¬ IsPromoted s' g := fun hp => hp hvz
  refine ⟨?_, ?_, fl, ?_⟩
  · obtain ⟨k1, k2⟩ := hcfg
    rw [CfgInv, holen]
    exact ⟨k1, k2⟩
  · intro g'
    by_cases hgg : g' = g
    · subst hgg
      refine ⟨?_, ?_, ?_, ?_, ?_, ?_⟩
      · intro hlen
        rw [hal] at hlen
        exact absurd hg (by omega)
      · intro i hi
        rw [rcInc_self]
        simp only [bump1, if_neg (show i ≠ bit from by omega)]
        exact h2 i hi
      · intro i
        rw [rcInc_self]
        simp only [bump1]
        split
        · rename_i hib
          subst hib
          omega
        · exact h3 i
      · rw [rcInc_self, hd, upd_self]
      · intro _
        rw [rcInc_self, hc, upd_self]
        exact ⟨rfl, by omega⟩
      · intro hp
        exact absurd hp hnp'
    · refine GroupInv_frame (by rw [hd]; exact upd_other _ _ hgg)
        (by rw [hc]; exact upd_other _ _ hgg) hal holen
        (rcInc_other rc bit hgg) (fun _ _ _ => by rw [hov]) (hgrp g')
  · refine PoolInv_transfer hov hnf holen ?_ ?_ hpool
    · intro g'
      by_cases hgg : g' = g
      · subst hgg
        exact iff_of_false hnp' hnp
      · exact IsPromoted_congr (by rw [hc]; exact upd_other _ _ hgg)
    · intro g' hp
      by_cases hgg : g' = g
      · subst hgg
        exact absurd hp hnp
      · exact slotIdx_congr (by rw [hc]; exact upd_other _ _ hgg)

/-- On an unpromoted group, `Decrement` takes the inline branch and only
rewrites the group's presence and counter words. -/
theorem Decrement_inline_spec {s : SCBF} {rc : Nat → Nat → Nat} {g bit : Nat}
    (hInv : Inv s rc) (hbit : bit < 64) (hpos : 1 ≤ rc g bit) (hnp : ¬ IsPromoted s g) :
    SuccinctCountingBloomFilter.Decrement s g bit =
      { s with data := upd s.data g (maskBelow (drop1 (rc g) bit) 64),
               counts := upd s.counts g (encAbove (drop1 (rc g) bit) 0) } := by
  obtain ⟨hcfg, hgrp, hpool⟩ := hInv
  obtain ⟨h1, h2, h3, h4, h5, h6⟩ := hgrp g
  obtain ⟨hc, hT'⟩ := h5 hnp
  rw [encode] at hc
  have hbranch : s.counts g &&& 0x8000000000000000 = 0 := by
    rw [hc]
    exact encode_not_promoted hT'
  simp only [SuccinctCountingBloomFilter.Decrement]
  rw [if_neg (fun h => h hbranch), h4, hc,
    decInline_correct (rc g) hbit hpos hT']

/-- Updating one group's presence and counter words to the dropped inline
encoding preserves the invariant. -/
theorem Inv_inline_drop {s s' : SCBF} {rc : Nat → Nat → Nat} {g bit : Nat}
    (hInv : Inv s rc) (hbit : bit < 64) (hpos : 1 ≤ rc g bit)
    (hT : totalOf (rc g) ≤ 63) (hnp : ¬ IsPromoted s g)
    (hd : s'.data = upd s.data g (maskBelow (drop1 (rc g) bit) 64))
    (hc : s'.counts = upd s.counts g (encAbove (drop1 (rc g) bit) 0))
    (hov : s'.overflow = s.overflow) (hnf : s'.nextFreeOverflow = s.nextFreeOverflow)
    (hal : s'.arrayLength = s.arrayLength) (holen : s'.overflowLength = s.overflowLength) :
    Inv s' (rcDec rc g bit) := by
  obtain ⟨hcfg, hgrp, fl, hpool⟩ := hInv
  obtain ⟨h1, h2, h3, h4, h5, h6⟩ := hgrp g
  have hT1 : totalOf (drop1 (rc g) bit) + 1 = totalOf (rc g) := totalOf_drop (rc g) hbit hpos
  have hvz : s'.counts g &&& 0x8000000000000000 = 0 := by
    rw [hc, upd_self]
    exact encode_not_promoted (by omega)
  have hnp' : ¬ IsPromoted s' g := fun hp => hp hvz
  refine ⟨?_, ?_, fl, ?_⟩
  · obtain ⟨k1, k2⟩ := hcfg
    rw [CfgInv, holen]
    exact ⟨k1, k2⟩
  · intro g'
    by_cases hgg : g' = g
    · subst hgg
      refine ⟨?_, ?_, ?_, ?_, ?_, ?_⟩
      · intro hlen
        rw [hal] at hlen
        have := h1 hlen bit
        omega
      · intro i hi
        rw [rcDec_self]
        simp only [drop1, if_neg (show i ≠ bit from by omega)]
        exact h2 i hi
      · intro i
        rw [rcDec_self]
        simp only [drop1]
        split
        · have := h3 i
          omega
        · exact h3 i
      · rw [rcDec_self, hd, upd_self]
      · intro _
        rw [rcDec_self, hc, upd_self]
        exact ⟨rfl, by omega⟩
      · intro hp
        exact absurd hp hnp'
    · refine GroupInv_frame (by rw [hd]; exact upd_other _ _ hgg)
        (by rw [hc]; exact upd_other _ _ hgg) hal holen
        (rcDec_other rc bit hgg) (fun _ _ _ => by rw [hov]) (hgrp g')
  · refine PoolInv_transfer hov hnf holen ?_ ?_ hpool
    · intro g'
      by_cases hgg : g' = g
      · subst hgg
        exact iff_of_false hnp' hnp
      · exact IsPromoted_congr (by rw [hc]; exact upd_other _ _ hgg)
    · intro g' hp
      by_cases hgg : g' = g
      · subst hgg
        exact absurd hp hnp
      · exact slotIdx_congr (by rw [hc]; exact upd_other _ _ hgg)

end InlineStep

/-! ### The promoted branches of `Increment` and `Decrement` -/

section PromotedStep

theorem PoolInv_transfer2 {s s' : SCBF} {fl : List Nat}
    (hch : Chain s'.overflow s'.overflowLength s'.nextFreeOverflow fl)
    (hlen : s'.overflowLength = s.overflowLength)
    (hpro : ∀ g, IsPromoted s' g ↔ IsPromoted s g)
    (hidx : ∀ g, IsPromoted s g → slotIdx s' g = slotIdx s g)
    (h : PoolInv s fl) : PoolInv s' fl := by
  obtain ⟨hch0, hnd, hal, hfree, hinj⟩ := h
  refine ⟨hch, hnd, ?_, ?_, ?_⟩
  · intro a ha
    rw [hlen]
    exact hal a ha
  · intro slot h4 hlt
    rw [hlen] at hlt
    rw [hfree slot h4 hlt]
    constructor
    · intro hall g hg
      have hg' := (hpro g).mp hg
      rw [hidx g hg']
      exact hall g hg'
    · intro hall g hg
      have := hall g ((hpro g).mpr hg)
      rwa [hidx g hg] at this
  · intro g g' hg hg' heq
    have hg1 := (hpro g).mp hg
    have hg1' := (hpro g').mp hg'
    refine hinj g g' hg1 hg1' ?_
    rw [← hidx g hg1, ← hidx g' hg1', heq]

/-- A promoted group covers strictly positive total, so its group index is in
range. -/
theorem promoted_in_range {s : SCBF} {rc : Nat → Nat → Nat} {g : Nat}
    (hgrp : ∀ g', GroupInv s rc g') (hp : IsPromoted s g) : g < s.arrayLength := by
  obtain ⟨h1, h2, h3, h4, h5, h6⟩ := hgrp g
  by_contra hgn
  have hz : ∀ i, i < 64 → rc g i = 0 := fun i _ => h1 (by omega) i
  have h0 : totalOf (rc g) = 0 := (sumBelow_eq_zero_iff (rc g) 64).mpr hz
  have := (h6 hp).2.2.2.1
  omega

/-- On a promoted group, `Increment` bumps the header count and the bit's
overflow lane and sets the presence bit. -/
theorem Increment_promoted_spec {s : SCBF} {rc : Nat → Nat → Nat} {g bit : Nat}
    (hInv : Inv s rc) (hbit : bit < 64) (h14 : rc g bit ≤ 14) (hp : IsPromoted s g) :
    SuccinctCountingBloomFilter.Increment s g bit =
      { s with
        data := upd s.data g (maskBelow (bump1 (rc g) bit) 64)
        counts := upd s.counts g
          (2 ^ 63 + (totalOf (rc g) + 1) * 2 ^ 32 + slotIdx s g)
        overflow := upd s.overflow (slotIdx s g + bit / 16)
          (laneWord (bump1 (rc g) bit) (bit / 16)) } := by
  obtain ⟨hcfg, hgrp, hpool⟩ := hInv
  obtain ⟨h1, h2, h3, h4, h5, h6⟩ := hgrp g
  obtain ⟨k1, k2, k3, k4, k5⟩ := h6 hp
  have hT960 : totalOf (rc g) ≤ 960 := totalOf_le_960 (rc g) h3
  have hidx28 : slotIdx s g < 2 ^ 28 := by
    have := hcfg.2
    omega
  have hclt : s.counts g < U64 := by
    rw [k1]
    exact header_lt (by omega) hidx28
  have hcond : s.counts g &&& 0xc000000000000000 ≠ 0 := by
    intro h
    rw [and_ctop_eq_zero_iff hclt, k1] at h
    omega
  have h32 : (1 <<< 32 : Nat) = 2 ^ 32 := by norm_num [Nat.shiftLeft_eq]
  have hcounts : add64 (s.counts g) (1 <<< 32)
      = 2 ^ 63 + (totalOf (rc g) + 1) * 2 ^ 32 + slotIdx s g := by
    rw [h32, k1, add64_eq (by rw [U64]; omega)]
    ring
  have hb15 : ∀ i, bump1 (rc g) bit i ≤ 15 := by
    intro i
    simp only [bump1]
    split
    · rename_i hib
      subst hib
      omega
    · exact h3 i
  have hlw : add64 (s.overflow (slotIdx s g + bit / 16)) (shl64 1 (bit * 4))
      = laneWord (bump1 (rc g) bit) (bit / 16) := by
    rw [k5 (bit / 16) (by omega), shl_lane_bit,
      add64_eq (by
        rw [← laneWord_bump (rc g) hbit]
        exact lt_of_lt_of_le (laneWordAux_lt _ hb15 _ 16) (by rw [U64])),
      ← laneWord_bump (rc g) hbit]
  simp only [SuccinctCountingBloomFilter.Increment, slotIdx] at hcounts hlw ⊢
  rw [if_pos hcond, if_neg hp, hcounts, hlw, h4, shl64_one hbit,
    maskBelow_bump_or (rc g) hbit]

/-- Bumping a lane of a promoted group preserves the invariant. -/
theorem Inv_promoted_bump {s s' : SCBF} {rc : Nat → Nat → Nat} {g bit : Nat}
    (hInv : Inv s rc) (hbit : bit < 64) (h14 : rc g bit ≤ 14) (hp : IsPromoted s g)
    (hd : s'.data = upd s.data g (maskBelow (bump1 (rc g) bit) 64))
    (hc : s'.counts = upd s.counts g
      (2 ^ 63 + (totalOf (rc g) + 1) * 2 ^ 32 + slotIdx s g))
    (hov : s'.overflow = upd s.overflow (slotIdx s g + bit / 16)
      (laneWord (bump1 (rc g) bit) (bit / 16)))
    (hnf : s'.nextFreeOverflow = s.nextFreeOverflow)
    (hal : s'.arrayLength = s.arrayLength) (holen : s'.overflowLength = s.overflowLength) :
    Inv s' (rcInc rc g bit) := by
  obtain ⟨hcfg, hgrp, fl, hpool⟩ := hInv
  obtain ⟨h1, h2, h3, h4, h5, h6⟩ := hgrp g
  obtain ⟨k1, k2, k3, k4, k5⟩ := h6 hp
  have hg : g < s.arrayLength := promoted_in_range hgrp hp
  have hT960 : totalOf (rc g) ≤ 960 := totalOf_le_960 (rc g) h3
  have hidx28 : slotIdx s g < 2 ^ 28 := by
    have := hcfg.2
    omega
  have hT1 : totalOf (bump1 (rc g) bit) = totalOf (rc g) + 1 := totalOf_bump (rc g) hbit
  have hb15 : ∀ i, bump1 (rc g) bit i ≤ 15 := by
    intro i
    simp only [bump1]
    split
    · rename_i hib
      subst hib
      omega
    · exact h3 i
  have hcg' : s'.counts g = 2 ^ 63 + (totalOf (rc g) + 1) * 2 ^ 32 + slotIdx s g := by
    rw [hc, upd_self]
  have hp' : IsPromoted s' g := by
    intro hz
    rw [hcg'] at hz
    exact header_and_top (by omega) hidx28 hz
  have hsl' : slotIdx s' g = slotIdx s g := by
    unfold slotIdx
    rw [hcg']
    exact header_and_low (by omega) hidx28
  have hproiff : ∀ g', IsPromoted s' g' ↔ IsPromoted s g' := by
    intro g'
    by_cases hgg : g' = g
    · subst hgg
      exact iff_of_true hp' hp
    · exact IsPromoted_congr (by rw [hc]; exact upd_other _ _ hgg)
  have hidxeq : ∀ g', IsPromoted s g' → slotIdx s' g' = slotIdx s g' := by
    intro g' hpg'
    by_cases hgg : g' = g
    · subst hgg
      exact hsl'
    · exact slotIdx_congr (by rw [hc]; exact upd_other _ _ hgg)
  have hidxnotfree : slotIdx s g ∉ fl := by
    obtain ⟨hch, hnd, hal2, hfree, hinj⟩ := hpool
    intro hin
    exact (hfree (slotIdx s g) k2 (by omega)).mp hin g hp rfl
  have hslotne : ∀ a ∈ fl, a ≠ slotIdx s g + bit / 16 := by
    obtain ⟨hch, hnd, hal2, hfree, hinj⟩ := hpool
    intro a ha he
    have ha4 := (hal2 a ha).1
    by_cases hb0 : bit / 16 = 0
    · rw [hb0, Nat.add_zero] at he
      rw [he] at ha
      exact hidxnotfree ha
    · have : bit / 16 < 4 := by omega
      omega
  refine ⟨?_, ?_, fl, ?_⟩
  · obtain ⟨c1, c2⟩ := hcfg
    rw [CfgInv, holen]
    exact ⟨c1, c2⟩
  · intro g'
    by_cases hgg : g' = g
    · subst hgg
      refine ⟨?_, ?_, ?_, ?_, ?_, ?_⟩
      · intro hlen
        rw [hal] at hlen
        exact absurd hg (by omega)
      · intro i hi
        rw [rcInc_self]
        simp only [bump1, if_neg (show i ≠ bit from by omega)]
        exact h2 i hi
      · intro i
        rw [rcInc_self]
        exact hb15 i
      · rw [rcInc_self, hd, upd_self]
      · intro hq
        exact absurd hp' hq
      · intro _
        rw [rcInc_self]
        refine ⟨?_, ?_, ?_, ?_, ?_⟩
        · rw [hcg', hsl', hT1]
        · rw [hsl']
          exact k2
        · rw [hsl', holen]
          exact k3
        · rw [hT1]
          omega
        · intro w hw
          rw [hsl', hov]
          by_cases hwb : w = bit / 16
          · rw [hwb, upd_self]
          · rw [upd_other s.overflow (laneWord (bump1 (rc g') bit) (bit / 16))
                (show slotIdx s g' + w ≠ slotIdx s g' + bit / 16 from by omega),
              k5 w hw, laneWord_bump_other (rc g') hwb]
    · have hg'inv := hgrp g'
      refine GroupInv_frame (by rw [hd]; exact upd_other _ _ hgg)
        (by rw [hc]; exact upd_other _ _ hgg) hal holen
        (rcInc_other rc bit hgg) ?_ hg'inv
      intro hpg' w hw
      obtain ⟨m1, m2, m3, m4, m5⟩ := hg'inv.2.2.2.2.2 hpg'
      have hne : slotIdx s g' ≠ slotIdx s g := by
        intro he
        exact hgg (hpool.2.2.2.2 g' g hpg' hp he)
      rw [hov]
      exact upd_other _ _ (by omega)
  · refine PoolInv_transfer2 ?_ holen hproiff hidxeq hpool
    rw [holen, hnf, hov]
    exact Chain_congr hpool.1 (fun a ha => upd_other _ _ (hslotne a ha))

/-- On a promoted group whose header count is still at least 64, `Decrement`
lowers the header count and the bit's overflow lane, clearing the presence bit
exactly when the counter drops to zero. -/
theorem Decrement_promoted_spec {s : SCBF} {rc : Nat → Nat → Nat} {g bit : Nat}
    (hInv : Inv s rc) (hbit : bit < 64) (hpos : 1 ≤ rc g bit) (hp : IsPromoted s g)
    (hT64 : 64 ≤ totalOf (rc g)) :
    SuccinctCountingBloomFilter.Decrement s g bit =
      { s with
        data := upd s.data g (maskBelow (drop1 (rc g) bit) 64)
        counts := upd s.counts g
          (2 ^ 63 + (totalOf (rc g) - 1) * 2 ^ 32 + slotIdx s g)
        overflow := upd s.overflow (slotIdx s g + bit / 16)
          (laneWord (drop1 (rc g) bit) (bit / 16)) } := by
  obtain ⟨hcfg, hgrp, hpool⟩ := hInv
  obtain ⟨h1, h2, h3, h4, h5, h6⟩ := hgrp g
  obtain ⟨k1, k2, k3, k4, k5⟩ := h6 hp
  have hT960 : totalOf (rc g) ≤ 960 := totalOf_le_960 (rc g) h3
  have hidx28 : slotIdx s g < 2 ^ 28 := by
    have := hcfg.2
    omega
  have hclt : s.counts g < U64 := by
    rw [k1]
    exact header_lt (by omega) hidx28
  have h32 : (1 <<< 32 : Nat) = 2 ^ 32 := by norm_num [Nat.shiftLeft_eq]
  have hcounts : sub64 (s.counts g) (1 <<< 32)
      = 2 ^ 63 + (totalOf (rc g) - 1) * 2 ^ 32 + slotIdx s g := by
    rw [h32, k1, sub64_eq (by rw [← k1]; exact hclt) (by omega)]
    have hm : (totalOf (rc g) - 1) * 2 ^ 32 + 2 ^ 32 = totalOf (rc g) * 2 ^ 32 := by
      have : totalOf (rc g) - 1 + 1 = totalOf (rc g) := by omega
      calc (totalOf (rc g) - 1) * 2 ^ 32 + 2 ^ 32
          = (totalOf (rc g) - 1 + 1) * 2 ^ 32 := by ring
        _ = totalOf (rc g) * 2 ^ 32 := by rw [this]
    omega
  have hlane_lt : laneWord (rc g) (bit / 16) < U64 :=
    lt_of_lt_of_le (laneWordAux_lt _ h3 _ 16) (by rw [U64])
  have hlane_ge : 2 ^ (4 * (bit % 16)) ≤ laneWord (rc g) (bit / 16) := by
    have ha := lane_le_word (rc g) h3 hbit
    have hb : 2 ^ (4 * (bit % 16)) ≤ rc g bit * 2 ^ (4 * (bit % 16)) :=
      Nat.le_mul_of_pos_left _ (by omega)
    omega
  have hlw : sub64 (s.overflow (slotIdx s g + bit / 16)) (shl64 1 (bit * 4))
      = laneWord (drop1 (rc g) bit) (bit / 16) := by
    rw [k5 (bit / 16) (by omega), shl_lane_bit, sub64_eq hlane_lt hlane_ge,
      ← laneWord_drop (rc g) hbit hpos]
  have hcond : shr64 (s.overflow (slotIdx s g + bit / 16)) (4 * (bit &&& 0xf)) &&& 0xf
      = rc g bit := by
    rw [k5 (bit / 16) (by omega), and_fifteen bit,
      lane_extract (rc g) h3 (show bit % 16 < 16 from by omega)
        (show bit / 16 < 4 from by omega),
      show 16 * (bit / 16) + bit % 16 = bit from by omega]
  have hcount : shr64 (s.counts g) 32 &&& 0x0fffffff = totalOf (rc g) := by
    rw [k1]
    exact header_count (by omega) hidx28
  have hp2 : s.counts g &&& 0x8000000000000000 ≠ 0 := hp
  simp only [SuccinctCountingBloomFilter.Decrement, slotIdx] at hcounts hlw hcond hcount ⊢
  rw [if_pos hp2, hcounts, hlw, hcond, hcount,
    if_neg (show ¬ totalOf (rc g) < 64 from by omega)]
  by_cases hK1 : rc g bit = 1
  · rw [if_pos hK1, h4, shl64_one hbit, maskBelow_clear (rc g) hbit hK1]
  · rw [if_neg hK1, show maskBelow (drop1 (rc g) bit) 64 = maskBelow (rc g) 64 from
      @maskBelow_drop_keep bit (rc g) (by omega), ← h4, upd_refl]

/-- Dropping a lane of a promoted group that stays promoted preserves the
invariant. -/
theorem Inv_promoted_drop {s s' : SCBF} {rc : Nat → Nat → Nat} {g bit : Nat}
    (hInv : Inv s rc) (hbit : bit < 64) (hpos : 1 ≤ rc g bit) (hp : IsPromoted s g)
    (hT64 : 64 ≤ totalOf (rc g))
    (hd : s'.data = upd s.data g (maskBelow (drop1 (rc g) bit) 64))
    (hc : s'.counts = upd s.counts g
      (2 ^ 63 + (totalOf (rc g) - 1) * 2 ^ 32 + slotIdx s g))
    (hov : s'.overflow = upd s.overflow (slotIdx s g + bit / 16)
      (laneWord (drop1 (rc g) bit) (bit / 16)))
    (hnf : s'.nextFreeOverflow = s.nextFreeOverflow)
    (hal : s'.arrayLength = s.arrayLength) (holen : s'.overflowLength = s.overflowLength) :
    Inv s' (rcDec rc g bit) := by
  obtain ⟨hcfg, hgrp, fl, hpool⟩ := hInv
  obtain ⟨h1, h2, h3, h4, h5, h6⟩ := hgrp g
  obtain ⟨k1, k2, k3, k4, k5⟩ := h6 hp
  have hg : g < s.arrayLength := promoted_in_range hgrp hp
  have hT960 : totalOf (rc g) ≤ 960 := totalOf_le_960 (rc g) h3
  have hidx28 : slotIdx s g < 2 ^ 28 := by
    have := hcfg.2
    omega
  have hT1 : totalOf (drop1 (rc g) bit) + 1 = totalOf (rc g) := totalOf_drop (rc g) hbit hpos
  have hcg' : s'.counts g = 2 ^ 63 + (totalOf (rc g) - 1) * 2 ^ 32 + slotIdx s g := by
    rw [hc, upd_self]
  have hp' : IsPromoted s' g := by
    intro hz
    rw [hcg'] at hz
    exact header_and_top (by omega) hidx28 hz
  have hsl' : slotIdx s' g = slotIdx s g := by
    unfold slotIdx
    rw [hcg']
    exact header_and_low (by omega) hidx28
  have hproiff : ∀ g', IsPromoted s' g' ↔ IsPromoted s g' := by
    intro g'
    by_cases hgg : g' = g
    · subst hgg
      exact iff_of_true hp' hp
    · exact IsPromoted_congr (by rw [hc]; exact upd_other _ _ hgg)
  have hidxeq : ∀ g', IsPromoted s g' → slotIdx s' g' = slotIdx s g' := by
    intro g' hpg'
    by_cases hgg : g' = g
    · subst hgg
      exact hsl'
    · exact slotIdx_congr (by rw [hc]; exact upd_other _ _ hgg)
  have hidxnotfree : slotIdx s g ∉ fl := by
    obtain ⟨hch, hnd, hal2, hfree, hinj⟩ := hpool
    intro hin
    exact (hfree (slotIdx s g) k2 (by omega)).mp hin g hp rfl
  have hslotne : ∀ a ∈ fl, a ≠ slotIdx s g + bit / 16 := by
    obtain ⟨hch, hnd, hal2, hfree, hinj⟩ := hpool
    intro a ha he
    have ha4 := (hal2 a ha).1
    by_cases hb0 : bit / 16 = 0
    · rw [hb0, Nat.add_zero] at he
      rw [he] at ha
      exact hidxnotfree ha
    · have : bit / 16 < 4 := by omega
      omega
  refine ⟨?_, ?_, fl, ?_⟩
  · obtain ⟨c1, c2⟩ := hcfg
    rw [CfgInv, holen]
    exact ⟨c1, c2⟩
  · intro g'
    by_cases hgg : g' = g
    · subst hgg
      refine ⟨?_, ?_, ?_, ?_, ?_, ?_⟩
      · intro hlen
        rw [hal] at hlen
        exact absurd hg (by omega)
      · intro i hi
        rw [rcDec_self]
        simp only [drop1, if_neg (show i ≠ bit from by omega)]
        exact h2 i hi
      · intro i
        rw [rcDec_self]
        simp only [drop1]
        split
        · have := h3 i
          omega
        · exact h3 i
      · rw [rcDec_self, hd, upd_self]
      · intro hq
        exact absurd hp' hq
      · intro _
        rw [rcDec_self]
        refine ⟨?_, ?_, ?_, ?_, ?_⟩
        · rw [hcg', hsl']
          have : totalOf (drop1 (rc g') bit) = totalOf (rc g') - 1 := by omega
          rw [this]
        · rw [hsl']
          exact k2
        · rw [hsl', holen]
          exact k3
        · omega
        · intro w hw
          rw [hsl', hov]
          by_cases hwb : w = bit / 16
          · rw [hwb, upd_self]
          · rw [upd_other s.overflow (laneWord (drop1 (rc g') bit) (bit / 16))
                (show slotIdx s g' + w ≠ slotIdx s g' + bit / 16 from by omega),
              k5 w hw, laneWord_drop_other (rc g') hwb]
    · have hg'inv := hgrp g'
      refine GroupInv_frame (by rw [hd]; exact upd_other _ _ hgg)
        (by rw [hc]; exact upd_other _ _ hgg) hal holen
        (rcDec_other rc bit hgg) ?_ hg'inv
      intro hpg' w hw
      obtain ⟨m1, m2, m3, m4, m5⟩ := hg'inv.2.2.2.2.2 hpg'
      have hne : slotIdx s g' ≠ slotIdx s g := by
        intro he
        exact hgg (hpool.2.2.2.2 g' g hpg' hp he)
      rw [hov]
      exact upd_other _ _ (by omega)
  · refine PoolInv_transfer2 ?_ holen hproiff hidxeq hpool
    rw [holen, hnf, hov]
    exact Chain_congr hpool.1 (fun a ha => upd_other _ _ (hslotne a ha))

end PromotedStep

/-! ### The conversion branch of `Increment` -/

section ConvertStep

theorem upd_upd_same (f : Nat → Nat) (i v v' : Nat) :
    upd (upd f i v) i v' = upd f i v' := by
  funext j
  by_cases h : j = i <;> simp [upd, h]

theorem upd_comm (f : Nat → Nat) {i i' : Nat} (v v' : Nat) (h : i ≠ i') :
    upd (upd f i v) i' v' = upd (upd f i' v') i v := by
  funext j
  by_cases h1 : j = i'
  · subst h1
    rw [upd_self, upd_other _ _ (Ne.symm h), upd_self]
  · by_cases h2 : j = i
    · subst h2
      rw [upd_other _ _ h1, upd_self, upd_self]
    · rw [upd_other _ _ h1, upd_other _ _ h2, upd_other _ _ h2, upd_other _ _ h1]

/-- An unpromoted group's invariant does not involve the overflow pool, so it
survives arbitrary pool rewrites. -/
theorem GroupInv_overflow_irrel {s : SCBF} {rc : Nat → Nat → Nat} {g : Nat}
    (hnp : ¬ IsPromoted s g) (h : GroupInv s rc g) (ov : Nat → Nat) (nf : Nat) :
    GroupInv { s with overflow := ov, nextFreeOverflow := nf } rc g :=
  ⟨h.1, h.2.1, h.2.2.1, h.2.2.2.1, fun _ => h.2.2.2.2.1 hnp, fun hp => absurd hp hnp⟩

/-- The conversion loop of `Increment` copies the sixteen 4-bit counters of
each quarter of the group into the four freshly zeroed overflow words. -/
theorem convert_fill_spec {s : SCBF} {rc : Nat → Nat → Nat} {g : Nat}
    (hgrp : ∀ g', GroupInv s rc g') (hnp : ¬ IsPromoted s g) (idx : Nat) :
    ∀ n, n ≤ 64 →
      List.foldl (fun t i =>
          { t with overflow := upd t.overflow (idx + i / 16) (add64 (t.overflow (idx + i / 16)) (mul64 (SuccinctCountingBloomFilter.ReadCount t g i) (shl64 1 (i * 4)))) })
        { s with nextFreeOverflow := s.overflow idx,
                 overflow := upd (upd (upd (upd s.overflow idx 0) (idx + 1) 0) (idx + 2) 0) (idx + 3) 0 }
        (List.range n)
      = { s with nextFreeOverflow := s.overflow idx, overflow := upd (upd (upd (upd s.overflow idx (laneWordAux (rc g) 0 (min 16 n))) (idx + 1) (laneWordAux (rc g) 16 (min 16 (n - 16)))) (idx + 2) (laneWordAux (rc g) 32 (min 16 (n - 32)))) (idx + 3) (laneWordAux (rc g) 48 (min 16 (n - 48))) } := by
  intro n
  induction n with
  | zero =>
    intro _
    rw [List.range_zero, List.foldl_nil]
    norm_num [laneWordAux]
  | succ n ih =>
    intro hn
    rw [List.range_succ, List.foldl_append, List.foldl_cons, List.foldl_nil, ih (by omega)]
    dsimp only
    have hrcn : SuccinctCountingBloomFilter.ReadCount
        { s with nextFreeOverflow := s.overflow idx, overflow := upd (upd (upd (upd s.overflow idx (laneWordAux (rc g) 0 (min 16 n))) (idx + 1) (laneWordAux (rc g) 16 (min 16 (n - 16)))) (idx + 2) (laneWordAux (rc g) 32 (min 16 (n - 32)))) (idx + 3) (laneWordAux (rc g) 48 (min 16 (n - 48))) } g n
        = rc g n := by
      refine ReadCount_eq_rc ?_ (by omega)
      exact GroupInv_overflow_irrel hnp (hgrp g) _ _
    have h3 : ∀ i, rc g i ≤ 15 := (hgrp g).2.2.1
    have hmul : mul64 (rc g n) (shl64 1 (n * 4)) = rc g n * 2 ^ (4 * (n % 16)) := by
      rw [shl_lane_bit]
      refine mul64_eq (lt_of_le_of_lt (Nat.mul_le_mul_right _ (h3 n)) ?_)
      have : (4 * (n % 16)) ≤ 60 := by omega
      calc 15 * 2 ^ (4 * (n % 16)) ≤ 15 * 2 ^ 60 :=
            Nat.mul_le_mul_left _ (Nat.pow_le_pow_right (by norm_num) this)
        _ < U64 := by rw [U64]; norm_num
    have hstep : ∀ w₀, n / 16 = w₀ →
        add64 (laneWordAux (rc g) (16 * w₀) (n % 16)) (rc g n * 2 ^ (4 * (n % 16)))
          = laneWordAux (rc g) (16 * w₀) (n % 16 + 1) := by
      intro w₀ hw₀
      have harg : rc g (16 * w₀ + n % 16) = rc g n := by
        rw [show 16 * w₀ + n % 16 = n from by omega]
      have hlt : laneWordAux (rc g) (16 * w₀) (n % 16 + 1) < U64 :=
        lt_of_lt_of_le (laneWordAux_lt (rc g) h3 _ _) (two_pow_le_U64 (by omega))
      have hrfl : laneWordAux (rc g) (16 * w₀) (n % 16 + 1)
          = laneWordAux (rc g) (16 * w₀) (n % 16) + rc g n * 2 ^ (4 * (n % 16)) := by
        rw [← harg]
        rfl
      calc add64 (laneWordAux (rc g) (16 * w₀) (n % 16)) (rc g n * 2 ^ (4 * (n % 16)))
          = laneWordAux (rc g) (16 * w₀) (n % 16) + rc g n * 2 ^ (4 * (n % 16)) :=
            add64_eq (by rw [← hrfl]; exact hlt)
        _ = laneWordAux (rc g) (16 * w₀) (n % 16 + 1) := hrfl.symm
    have hw4 : n / 16 = 0 ∨ n / 16 = 1 ∨ n / 16 = 2 ∨ n / 16 = 3 := by omega
    rcases hw4 with hw | hw | hw | hw
    · rw [hw, show idx + 0 = idx from by omega, hrcn, hmul,
        upd_other _ _ (show idx ≠ idx + 3 from by omega),
        upd_other _ _ (show idx ≠ idx + 2 from by omega),
        upd_other _ _ (show idx ≠ idx + 1 from by omega), upd_self,
        show min 16 n = n % 16 from by omega,
        show laneWordAux (rc g) 0 (n % 16) = laneWordAux (rc g) (16 * 0) (n % 16) from
          by norm_num,
        hstep 0 hw,
        upd_comm _ _ _ (show idx + 3 ≠ idx from by omega),
        upd_comm _ _ _ (show idx + 2 ≠ idx from by omega),
        upd_comm _ _ _ (show idx + 1 ≠ idx from by omega),
        upd_upd_same,
        show laneWordAux (rc g) (16 * 0) (n % 16 + 1)
          = laneWordAux (rc g) 0 (min 16 (n + 1)) from by norm_num [show min 16 (n + 1) = n % 16 + 1 from by omega],
        show min 16 (n - 16) = min 16 (n + 1 - 16) from by omega,
        show min 16 (n - 32) = min 16 (n + 1 - 32) from by omega,
        show min 16 (n - 48) = min 16 (n + 1 - 48) from by omega]
    · rw [hw, hrcn, hmul,
        upd_other _ _ (show idx + 1 ≠ idx + 3 from by omega),
        upd_other _ _ (show idx + 1 ≠ idx + 2 from by omega), upd_self,
        show min 16 (n - 16) = n % 16 from by omega,
        show laneWordAux (rc g) 16 (n % 16) = laneWordAux (rc g) (16 * 1) (n % 16) from
          by norm_num,
        hstep 1 hw,
        upd_comm _ _ _ (show idx + 3 ≠ idx + 1 from by omega),
        upd_comm _ _ _ (show idx + 2 ≠ idx + 1 from by omega),
        upd_upd_same,
        show laneWordAux (rc g) (16 * 1) (n % 16 + 1)
          = laneWordAux (rc g) 16 (min 16 (n + 1 - 16)) from by norm_num [show min 16 (n + 1 - 16) = n % 16 + 1 from by omega],
        show min 16 n = min 16 (n + 1) from by omega,
        show min 16 (n - 32) = min 16 (n + 1 - 32) from by omega,
        show min 16 (n - 48) = min 16 (n + 1 - 48) from by omega]
    · rw [hw, hrcn, hmul,
        upd_other _ _ (show idx + 2 ≠ idx + 3 from by omega), upd_self,
        show min 16 (n - 32) = n % 16 from by omega,
        show laneWordAux (rc g) 32 (n % 16) = laneWordAux (rc g) (16 * 2) (n % 16) from
          by norm_num,
        hstep 2 hw,
        upd_comm _ _ _ (show idx + 3 ≠ idx + 2 from by omega),
        upd_upd_same,
        show laneWordAux (rc g) (16 * 2) (n % 16 + 1)
          = laneWordAux (rc g) 32 (min 16 (n + 1 - 32)) from by norm_num [show min 16 (n + 1 - 32) = n % 16 + 1 from by omega],
        show min 16 n = min 16 (n + 1) from by omega,
        show min 16 (n - 16) = min 16 (n + 1 - 16) from by omega,
        show min 16 (n - 48) = min 16 (n + 1 - 48) from by omega]
    · rw [hw, hrcn, hmul, upd_self,
        show min 16 (n - 48) = n % 16 from by omega,
        show laneWordAux (rc g) 48 (n % 16) = laneWordAux (rc g) (16 * 3) (n % 16) from
          by norm_num,
        hstep 3 hw,
        upd_upd_same,
        show laneWordAux (rc g) (16 * 3) (n % 16 + 1)
          = laneWordAux (rc g) 48 (min 16 (n + 1 - 48)) from by norm_num [show min 16 (n + 1 - 48) = n % 16 + 1 from by omega],
        show min 16 n = min 16 (n + 1) from by omega,
        show min 16 (n - 16) = min 16 (n + 1 - 16) from by omega,
        show min 16 (n - 32) = min 16 (n + 1 - 32) from by omega]

theorem Chain_head {ov : Nat → Nat} {len n : Nat} {l : List Nat}
    (h : Chain ov len n l) (hlt : n < len) :
    ∃ rest, l = n :: rest ∧ Chain ov len (ov n) rest := by
  cases l with
  | nil =>
    have hle : len ≤ n := h
    omega
  | cons a rest =>
    obtain ⟨h1, h2, h3⟩ := h
    subst h1
    exact ⟨rest, rfl, h3⟩

/-- On an unpromoted group whose total has reached 63, `Increment` converts the
group to a freshly allocated overflow slot. -/
theorem Increment_convert_spec {s : SCBF} {rc : Nat → Nat → Nat} {g bit : Nat}
    (hInv : Inv s rc) (hbit : bit < 64) (h14 : rc g bit ≤ 14)
    (hnp : ¬ IsPromoted s g) (hT63 : totalOf (rc g) = 63)
    (hfree : s.nextFreeOverflow < s.overflowLength) :
    SuccinctCountingBloomFilter.Increment s g bit =
      { s with
        data := upd s.data g (maskBelow (bump1 (rc g) bit) 64)
        counts := upd s.counts g (2 ^ 63 + 64 * 2 ^ 32 + s.nextFreeOverflow)
        overflow := upd (upd (upd (upd (upd s.overflow s.nextFreeOverflow (laneWord (rc g) 0)) (s.nextFreeOverflow + 1) (laneWord (rc g) 1)) (s.nextFreeOverflow + 2) (laneWord (rc g) 2)) (s.nextFreeOverflow + 3) (laneWord (rc g) 3)) (s.nextFreeOverflow + bit / 16) (laneWord (bump1 (rc g) bit) (bit / 16))
        nextFreeOverflow := s.overflow s.nextFreeOverflow } := by
  obtain ⟨hcfg, hgrp, hpool⟩ := hInv
  obtain ⟨h1, h2, h3, h4, h5, h6⟩ := hgrp g
  obtain ⟨hc, hT'⟩ := h5 hnp
  rw [encode] at hc
  have hcond : s.counts g &&& 0xc000000000000000 ≠ 0 := by
    intro h
    rw [hc, inline_branch_iff (by omega)] at h
    omega
  have hnp0 : s.counts g &&& 0x8000000000000000 = 0 := by
    rw [hc]
    exact encode_not_promoted (by omega)
  have hnf32 : s.nextFreeOverflow < 2 ^ 32 := by
    have := hcfg.2
    omega
  have hb15 : ∀ i, bump1 (rc g) bit i ≤ 15 := by
    intro i
    simp only [bump1]
    split
    · rename_i hib
      subst hib
      omega
    · exact h3 i
  have hc1 : (0x8000000000000000 ||| 64 <<< 32 : Nat) ||| s.nextFreeOverflow
      = 2 ^ 63 + 64 * 2 ^ 32 + s.nextFreeOverflow := by
    have hlit : (0x8000000000000000 ||| 64 <<< 32 : Nat) = (2 ^ 31 + 64) * 2 ^ 32 := by
      decide
    rw [hlit, lor_mulAdd _ hnf32]
    omega
  have hfin : ∀ w₀, bit / 16 = w₀ →
      add64 (laneWord (rc g) w₀) (shl64 1 (bit * 4))
        = laneWord (bump1 (rc g) bit) w₀ := by
    intro w₀ hww
    rw [← hww, shl_lane_bit,
      add64_eq (by
        rw [← laneWord_bump (rc g) hbit]
        exact lt_of_lt_of_le (laneWordAux_lt _ hb15 _ 16) (by rw [U64])),
      ← laneWord_bump (rc g) hbit]
  simp only [SuccinctCountingBloomFilter.Increment]
  rw [if_pos hcond, if_pos hnp0,
    if_neg (show ¬ s.overflowLength ≤ s.nextFreeOverflow from by omega),
    convert_fill_spec hgrp hnp s.nextFreeOverflow 64 (le_refl 64)]
  dsimp only
  rw [show laneWordAux (rc g) 0 (min 16 64) = laneWord (rc g) 0 from by norm_num [laneWord],
    show laneWordAux (rc g) 16 (min 16 (64 - 16)) = laneWord (rc g) 1 from by norm_num [laneWord],
    show laneWordAux (rc g) 32 (min 16 (64 - 32)) = laneWord (rc g) 2 from by norm_num [laneWord],
    show laneWordAux (rc g) 48 (min 16 (64 - 48)) = laneWord (rc g) 3 from by norm_num [laneWord],
    hc1, h4, shl64_one hbit, maskBelow_bump_or (rc g) hbit]
  have hw4 : bit / 16 = 0 ∨ bit / 16 = 1 ∨ bit / 16 = 2 ∨ bit / 16 = 3 := by omega
  rcases hw4 with hw | hw | hw | hw
  · rw [hw, show s.nextFreeOverflow + 0 = s.nextFreeOverflow from by omega,
      upd_other _ _ (show s.nextFreeOverflow ≠ s.nextFreeOverflow + 3 from by omega),
      upd_other _ _ (show s.nextFreeOverflow ≠ s.nextFreeOverflow + 2 from by omega),
      upd_other _ _ (show s.nextFreeOverflow ≠ s.nextFreeOverflow + 1 from by omega),
      upd_self, hfin 0 hw]
  · rw [hw,
      upd_other _ _ (show s.nextFreeOverflow + 1 ≠ s.nextFreeOverflow + 3 from by omega),
      upd_other _ _ (show s.nextFreeOverflow + 1 ≠ s.nextFreeOverflow + 2 from by omega),
      upd_self, hfin 1 hw]
  · rw [hw,
      upd_other _ _ (show s.nextFreeOverflow + 2 ≠ s.nextFreeOverflow + 3 from by omega),
      upd_self, hfin 2 hw]
  · rw [hw, upd_self, hfin 3 hw]

/-- Converting a full inline group to a fresh overflow slot preserves the
invariant, consuming the head of the free list. -/
theorem Inv_convert {s s' : SCBF} {rc : Nat → Nat → Nat} {g bit : Nat}
    (hInv : Inv s rc) (hbit : bit < 64) (h14 : rc g bit ≤ 14)
    (hnp : ¬ IsPromoted s g) (hT63 : totalOf (rc g) = 63)
    (hfree : s.nextFreeOverflow < s.overflowLength)
    (hd : s'.data = upd s.data g (maskBelow (bump1 (rc g) bit) 64))
    (hc : s'.counts = upd s.counts g (2 ^ 63 + 64 * 2 ^ 32 + s.nextFreeOverflow))
    (hov : s'.overflow = upd (upd (upd (upd (upd s.overflow s.nextFreeOverflow (laneWord (rc g) 0)) (s.nextFreeOverflow + 1) (laneWord (rc g) 1)) (s.nextFreeOverflow + 2) (laneWord (rc g) 2)) (s.nextFreeOverflow + 3) (laneWord (rc g) 3)) (s.nextFreeOverflow + bit / 16) (laneWord (bump1 (rc g) bit) (bit / 16)))
    (hnf : s'.nextFreeOverflow = s.overflow s.nextFreeOverflow)
    (hal : s'.arrayLength = s.arrayLength) (holen : s'.overflowLength = s.overflowLength) :
    Inv s' (rcInc rc g bit) := by
  obtain ⟨hcfg, hgrp, fl, hpool⟩ := hInv
  obtain ⟨h1, h2, h3, h4, h5, h6⟩ := hgrp g
  obtain ⟨hch, hnd, hal2, hfreeiff, hinj⟩ := hpool
  obtain ⟨rest, hfl, hchrest⟩ := Chain_head hch hfree
  subst hfl
  have hnf4 : s.nextFreeOverflow % 4 = 0 := (hal2 _ (by simp)).1
  have hnf28 : s.nextFreeOverflow < 2 ^ 28 := by
    have := hcfg.2
    omega
  have hnfnotrest : s.nextFreeOverflow ∉ rest := (List.nodup_cons.mp hnd).1
  have hndrest : rest.Nodup := (List.nodup_cons.mp hnd).2
  have hnoowner : ∀ g'', IsPromoted s g'' → slotIdx s g'' ≠ s.nextFreeOverflow :=
    (hfreeiff _ hnf4 hfree).mp (by simp)
  have hg : g < s.arrayLength := by
    by_contra hgn
    have hz : ∀ i, i < 64 → rc g i = 0 := fun i _ => h1 (by omega) i
    have h0 : totalOf (rc g) = 0 := (sumBelow_eq_zero_iff (rc g) 64).mpr hz
    omega
  have hT1 : totalOf (bump1 (rc g) bit) = totalOf (rc g) + 1 := totalOf_bump (rc g) hbit
  have hcg' : s'.counts g = 2 ^ 63 + 64 * 2 ^ 32 + s.nextFreeOverflow := by
    rw [hc, upd_self]
  have hp' : IsPromoted s' g := by
    intro hz
    rw [hcg'] at hz
    exact header_and_top (by norm_num) hnf28 hz
  have hsl' : slotIdx s' g = s.nextFreeOverflow := by
    unfold slotIdx
    rw [hcg']
    exact header_and_low (by norm_num) hnf28
  have hb15 : ∀ i, bump1 (rc g) bit i ≤ 15 := by
    intro i
    simp only [bump1]
    split
    · rename_i hib
      subst hib
      omega
    · exact h3 i
  have hcong : ∀ g'', g'' ≠ g → s'.counts g'' = s.counts g'' := by
    intro g'' hgg
    rw [hc]
    exact upd_other _ _ hgg
  have hlane : ∀ w, w < 4 →
      s'.overflow (s.nextFreeOverflow + w) = laneWord (bump1 (rc g) bit) w := by
    intro w hw
    rw [hov]
    by_cases hwb : w = bit / 16
    · rw [hwb, upd_self]
    · rw [upd_other _ _
        (show s.nextFreeOverflow + w ≠ s.nextFreeOverflow + bit / 16 from by omega)]
      have hw4 : w = 0 ∨ w = 1 ∨ w = 2 ∨ w = 3 := by omega
      rcases hw4 with h | h | h | h <;> subst h
      · rw [show s.nextFreeOverflow + 0 = s.nextFreeOverflow from by omega,
          upd_other _ _ (show s.nextFreeOverflow ≠ s.nextFreeOverflow + 3 from by omega),
          upd_other _ _ (show s.nextFreeOverflow ≠ s.nextFreeOverflow + 2 from by omega),
          upd_other _ _ (show s.nextFreeOverflow ≠ s.nextFreeOverflow + 1 from by omega),
          upd_self]
        exact (laneWord_bump_other (rc g) hwb).symm
      · rw [upd_other _ _
            (show s.nextFreeOverflow + 1 ≠ s.nextFreeOverflow + 3 from by omega),
          upd_other _ _
            (show s.nextFreeOverflow + 1 ≠ s.nextFreeOverflow + 2 from by omega),
          upd_self]
        exact (laneWord_bump_other (rc g) hwb).symm
      · rw [upd_other _ _
            (show s.nextFreeOverflow + 2 ≠ s.nextFreeOverflow + 3 from by omega),
          upd_self]
        exact (laneWord_bump_other (rc g) hwb).symm
      · rw [upd_self]
        exact (laneWord_bump_other (rc g) hwb).symm
  have hother : ∀ a, a ≠ s.nextFreeOverflow → a ≠ s.nextFreeOverflow + 1 →
      a ≠ s.nextFreeOverflow + 2 → a ≠ s.nextFreeOverflow + 3 →
      a ≠ s.nextFreeOverflow + bit / 16 → s'.overflow a = s.overflow a := by
    intro a k0 k1' k2' k3' kb
    rw [hov, upd_other _ _ kb, upd_other _ _ k3', upd_other _ _ k2', upd_other _ _ k1',
      upd_other _ _ k0]
  have hrest_ne : ∀ a ∈ rest, s'.overflow a = s.overflow a := by
    intro a ha
    have ha4 := (hal2 a (by simp [ha])).1
    have hane : a ≠ s.nextFreeOverflow := fun he => hnfnotrest (he ▸ ha)
    exact hother a hane (by omega) (by omega) (by omega) (by omega)
  refine ⟨?_, ?_, rest, ?_⟩
  · obtain ⟨c1, c2⟩ := hcfg
    rw [CfgInv, holen]
    exact ⟨c1, c2⟩
  · intro g'
    by_cases hgg : g' = g
    · subst hgg
      refine ⟨?_, ?_, ?_, ?_, ?_, ?_⟩
      · intro hlen
        rw [hal] at hlen
        exact absurd hg (by omega)
      · intro i hi
        rw [rcInc_self]
        simp only [bump1, if_neg (show i ≠ bit from by omega)]
        exact h2 i hi
      · intro i
        rw [rcInc_self]
        exact hb15 i
      · rw [rcInc_self, hd, upd_self]
      · intro hq
        exact absurd hp' hq
      · intro _
        rw [rcInc_self]
        refine ⟨?_, ?_, ?_, ?_, ?_⟩
        · rw [hcg', hsl', hT1, hT63, show (63 + 1 : Nat) = 64 from rfl]
        · rw [hsl']
          exact hnf4
        · rw [hsl', holen]
          have := hcfg.1
          omega
        · rw [hT1]
          omega
        · intro w hw
          rw [hsl']
          exact hlane w hw
    · have hg'inv := hgrp g'
      refine GroupInv_frame (by rw [hd]; exact upd_other _ _ hgg)
        (hcong g' hgg) hal holen (rcInc_other rc bit hgg) ?_ hg'inv
      intro hpg' w hw
      have hslot4 := (hg'inv.2.2.2.2.2 hpg').2.1
      have hne : slotIdx s g' ≠ s.nextFreeOverflow := hnoowner g' hpg'
      exact hother _ (by omega) (by omega) (by omega) (by omega) (by omega)
  · refine ⟨?_, hndrest, ?_, ?_, ?_⟩
    · rw [holen, hnf]
      exact Chain_congr hchrest hrest_ne
    · intro a ha
      rw [holen]
      exact hal2 a (by simp [ha])
    · intro slot h4s hlt
      rw [holen] at hlt
      by_cases hslot : slot = s.nextFreeOverflow
      · subst hslot
        refine iff_of_false hnfnotrest (fun hall => hall g hp' hsl')
      · have hmem : (slot ∈ rest) = (slot ∈ s.nextFreeOverflow :: rest) := by
          simp [hslot]
        rw [hmem, hfreeiff slot h4s hlt]
        constructor
        · intro hall g'' hpg''
          by_cases hgg : g'' = g
          · subst hgg
            rw [hsl']
            exact fun he => hslot he.symm
          · have hpold : IsPromoted s g'' := (IsPromoted_congr (hcong g'' hgg)).mp hpg''
            rw [slotIdx_congr (hcong g'' hgg)]
            exact hall g'' hpold
        · intro hall g'' hpg''
          by_cases hgg : g'' = g
          · subst hgg
            exact absurd hpg'' hnp
          · have hpnew : IsPromoted s' g'' := (IsPromoted_congr (hcong g'' hgg)).mpr hpg''
            have h2' := hall g'' hpnew
            rwa [slotIdx_congr (hcong g'' hgg)] at h2'
    · intro g1 g2 hp1 hp2 heq
      by_cases hg1 : g1 = g <;> by_cases hg2 : g2 = g
      · rw [hg1, hg2]
      · exfalso
        have hpold : IsPromoted s g2 := (IsPromoted_congr (hcong g2 hg2)).mp hp2
        have hsl2 : slotIdx s' g2 = slotIdx s g2 := slotIdx_congr (hcong g2 hg2)
        refine hnoowner g2 hpold ?_
        rw [← hsl2, ← heq, hg1, hsl']
      · exfalso
        have hpold : IsPromoted s g1 := (IsPromoted_congr (hcong g1 hg1)).mp hp1
        have hsl1 : slotIdx s' g1 = slotIdx s g1 := slotIdx_congr (hcong g1 hg1)
        refine hnoowner g1 hpold ?_
        rw [← hsl1, heq, hg2, hsl']
      · have hpold1 : IsPromoted s g1 := (IsPromoted_congr (hcong g1 hg1)).mp hp1
        have hpold2 : IsPromoted s g2 := (IsPromoted_congr (hcong g2 hg2)).mp hp2
        refine hinj g1 g2 hpold1 hpold2 ?_
        rw [← slotIdx_congr (hcong g1 hg1), ← slotIdx_congr (hcong g2 hg2), heq]

end ConvertStep

/-! ### The demotion branch of `Decrement` -/

section DemoteStep

theorem encAbove_le_encode (cnt : Nat → Nat) {j : Nat} (hj : j ≤ 64) :
    encAbove cnt j ≤ encAbove cnt 0 := by
  have h := encode_split cnt j hj
  have h1 : encAbove cnt j ≤ encAbove cnt j * 2 ^ sumBelow cnt j :=
    Nat.le_mul_of_pos_right _ (Nat.two_pow_pos _)
  omega

theorem encAboveAux_lt (cnt : Nat → Nat) (hT : totalOf cnt ≤ 62) {r : Nat} (hr : r ≤ 64) :
    encAboveAux cnt r < 2 ^ 62 := by
  have he : encAboveAux cnt r = encAbove cnt (64 - r) := by
    rw [encAbove, show 64 - (64 - r) = r from by omega]
  rw [he]
  exact lt_of_le_of_lt (encAbove_le_encode cnt (by omega)) (encode_lt_two_pow hT)

/-- The rebuild loop of demotion reads the sixteen lanes of each slot word from
the top bit down and reassembles the inline unary encoding. -/
theorem demote_fold_spec (cnt : Nat → Nat) (idx : Nat) (ov : Nat → Nat)
    (h15 : ∀ i, cnt i ≤ 15) (hT : totalOf cnt ≤ 62)
    (hov : ∀ w, w < 4 → ov (idx + w) = laneWord cnt w) :
    ∀ r, r ≤ 64 →
      List.foldl (fun c2 jr =>
        if 0 < shr64 (ov (idx + (63 - jr) / 16)) (4 * (63 - jr)) &&& 0xf then
          shl64 (shl64 c2 1 ||| 1) ((shr64 (ov (idx + (63 - jr) / 16)) (4 * (63 - jr)) &&& 0xf) - 1)
        else c2) 0 (List.range r)
      = encAboveAux cnt r := by
  intro r
  induction r with
  | zero =>
    intro _
    rw [List.range_zero, List.foldl_nil]
    rfl
  | succ r ih =>
    intro hr
    rw [List.range_succ, List.foldl_append, List.foldl_cons, List.foldl_nil, ih (by omega)]
    have hcj : shr64 (ov (idx + (63 - r) / 16)) (4 * (63 - r)) &&& 0xf = cnt (63 - r) := by
      rw [hov _ (by omega)]
      have hsh : shr64 (laneWord cnt ((63 - r) / 16)) (4 * (63 - r))
          = shr64 (laneWord cnt ((63 - r) / 16)) (4 * ((63 - r) % 16)) := by
        simp only [shr64]
        rw [show 4 * (63 - r) % 64 = 4 * ((63 - r) % 16) % 64 from by omega]
      rw [hsh, lane_extract cnt h15 (show (63 - r) % 16 < 16 from by omega)
          (show (63 - r) / 16 < 4 from by omega),
        show 16 * ((63 - r) / 16) + (63 - r) % 16 = 63 - r from by omega]
    rw [hcj]
    by_cases hcz : cnt (63 - r) = 0
    · rw [if_neg (by omega)]
      rw [encAboveAux, hcz]
      norm_num
    · rw [if_pos (by omega)]
      have hacc : encAboveAux cnt r < 2 ^ 62 := encAboveAux_lt cnt hT (by omega)
      have hacc1 : encAboveAux cnt (r + 1) < 2 ^ 62 := encAboveAux_lt cnt hT (by omega)
      have hval : encAboveAux cnt (r + 1)
          = encAboveAux cnt r * 2 ^ cnt (63 - r) + 2 ^ (cnt (63 - r) - 1) := by
        rw [encAboveAux, if_neg hcz]
      have hs1 : shl64 (encAboveAux cnt r) 1 = encAboveAux cnt r * 2 := by
        rw [shl64_small (by norm_num) (by rw [U64]; omega)]
        norm_num
      have hs2 : encAboveAux cnt r * 2 ||| 1 = encAboveAux cnt r * 2 + 1 := by
        have := lor_mulAdd (k := 1) (encAboveAux cnt r) (show 1 < 2 ^ 1 from by norm_num)
        norm_num at this
        exact this
      have h2c : 2 * 2 ^ (cnt (63 - r) - 1) = 2 ^ cnt (63 - r) := by
        rw [← pow_succ', show cnt (63 - r) - 1 + 1 = cnt (63 - r) from by omega]
      have hident : (encAboveAux cnt r * 2 + 1) * 2 ^ (cnt (63 - r) - 1)
          = encAboveAux cnt r * 2 ^ cnt (63 - r) + 2 ^ (cnt (63 - r) - 1) := by
        calc (encAboveAux cnt r * 2 + 1) * 2 ^ (cnt (63 - r) - 1)
            = encAboveAux cnt r * (2 * 2 ^ (cnt (63 - r) - 1)) + 2 ^ (cnt (63 - r) - 1) := by
              ring
          _ = encAboveAux cnt r * 2 ^ cnt (63 - r) + 2 ^ (cnt (63 - r) - 1) := by rw [h2c]
      have hs3 : shl64 (encAboveAux cnt r * 2 + 1) (cnt (63 - r) - 1)
          = (encAboveAux cnt r * 2 + 1) * 2 ^ (cnt (63 - r) - 1) := by
        refine shl64_small (by have := h15 (63 - r); omega) ?_
        rw [hident, ← hval]
        exact lt_of_lt_of_le hacc1 (two_pow_le_U64 (by norm_num))
      rw [hs1, hs2, hs3, hident, hval]

/-- On a promoted group whose header count has fallen to 63, `Decrement`
rebuilds the inline encoding and frees the overflow slot. -/
theorem Decrement_demote_spec {s : SCBF} {rc : Nat → Nat → Nat} {g bit : Nat}
    (hInv : Inv s rc) (hbit : bit < 64) (hpos : 1 ≤ rc g bit) (hp : IsPromoted s g)
    (hT63 : totalOf (rc g) = 63) :
    SuccinctCountingBloomFilter.Decrement s g bit =
      { s with
        data := upd s.data g (maskBelow (drop1 (rc g) bit) 64)
        counts := upd s.counts g (encAbove (drop1 (rc g) bit) 0)
        overflow := upd (upd s.overflow (slotIdx s g + bit / 16) (laneWord (drop1 (rc g) bit) (bit / 16))) (slotIdx s g) s.nextFreeOverflow
        nextFreeOverflow := slotIdx s g } := by
  obtain ⟨hcfg, hgrp, hpool⟩ := hInv
  obtain ⟨h1, h2, h3, h4, h5, h6⟩ := hgrp g
  obtain ⟨k1, k2, k3, k4, k5⟩ := h6 hp
  have hT960 : totalOf (rc g) ≤ 960 := totalOf_le_960 (rc g) h3
  have hidx28 : slotIdx s g < 2 ^ 28 := by
    have := hcfg.2
    omega
  have hclt : s.counts g < U64 := by
    rw [k1]
    exact header_lt (by omega) hidx28
  have h32 : (1 <<< 32 : Nat) = 2 ^ 32 := by norm_num [Nat.shiftLeft_eq]
  have hd15 : ∀ i, drop1 (rc g) bit i ≤ 15 := by
    intro i
    simp only [drop1]
    split
    · have := h3 i
      omega
    · exact h3 i
  have hT62 : totalOf (drop1 (rc g) bit) ≤ 62 := by
    have := totalOf_drop (rc g) hbit hpos
    omega
  have hlane_lt : laneWord (rc g) (bit / 16) < U64 :=
    lt_of_lt_of_le (laneWordAux_lt _ h3 _ 16) (by rw [U64])
  have hlane_ge : 2 ^ (4 * (bit % 16)) ≤ laneWord (rc g) (bit / 16) := by
    have ha := lane_le_word (rc g) h3 hbit
    have hb : 2 ^ (4 * (bit % 16)) ≤ rc g bit * 2 ^ (4 * (bit % 16)) :=
      Nat.le_mul_of_pos_left _ (by omega)
    omega
  have hlw : sub64 (s.overflow (slotIdx s g + bit / 16)) (shl64 1 (bit * 4))
      = laneWord (drop1 (rc g) bit) (bit / 16) := by
    rw [k5 (bit / 16) (by omega), shl_lane_bit, sub64_eq hlane_lt hlane_ge,
      ← laneWord_drop (rc g) hbit hpos]
  have hcond : shr64 (s.overflow (slotIdx s g + bit / 16)) (4 * (bit &&& 0xf)) &&& 0xf
      = rc g bit := by
    rw [k5 (bit / 16) (by omega), and_fifteen bit,
      lane_extract (rc g) h3 (show bit % 16 < 16 from by omega)
        (show bit / 16 < 4 from by omega),
      show 16 * (bit / 16) + bit % 16 = bit from by omega]
  have hcount : shr64 (s.counts g) 32 &&& 0x0fffffff = totalOf (rc g) := by
    rw [k1]
    exact header_count (by omega) hidx28
  have hp2 : s.counts g &&& 0x8000000000000000 ≠ 0 := hp
  have hovlanes : ∀ w, w < 4 →
      upd s.overflow (slotIdx s g + bit / 16) (laneWord (drop1 (rc g) bit) (bit / 16))
        (slotIdx s g + w) = laneWord (drop1 (rc g) bit) w := by
    intro w hw
    by_cases hwb : w = bit / 16
    · rw [hwb, upd_self]
    · rw [upd_other _ _ (show slotIdx s g + w ≠ slotIdx s g + bit / 16 from by omega),
        k5 w hw, laneWord_drop_other (rc g) hwb]
  have hfold := demote_fold_spec (drop1 (rc g) bit) (slotIdx s g)
    (upd s.overflow (slotIdx s g + bit / 16) (laneWord (drop1 (rc g) bit) (bit / 16)))
    hd15 hT62 hovlanes 64 (le_refl 64)
  have haux : encAboveAux (drop1 (rc g) bit) 64 = encAbove (drop1 (rc g) bit) 0 := rfl
  rw [haux] at hfold
  simp only [SuccinctCountingBloomFilter.Decrement, slotIdx]
    at hlw hcond hcount hovlanes hfold ⊢
  rw [if_pos hp2, hlw, hcond, hcount, if_pos (show totalOf (rc g) < 64 from by omega)]
  by_cases hK1 : rc g bit = 1
  · rw [if_pos hK1, h4, shl64_one hbit, maskBelow_clear (rc g) hbit hK1]
    dsimp only
    rw [hfold, upd_upd_same]
  · rw [if_neg hK1]
    dsimp only
    rw [hfold, upd_upd_same,
      show maskBelow (drop1 (rc g) bit) 64 = maskBelow (rc g) 64 from
        @maskBelow_drop_keep bit (rc g) (by omega),
      ← h4, upd_refl]

/-- Demoting a promoted group back to inline form preserves the invariant and
returns the slot to the free list. -/
theorem Inv_demote {s s' : SCBF} {rc : Nat → Nat → Nat} {g bit : Nat}
    (hInv : Inv s rc) (hbit : bit < 64) (hpos : 1 ≤ rc g bit) (hp : IsPromoted s g)
    (hT63 : totalOf (rc g) = 63)
    (hd : s'.data = upd s.data g (maskBelow (drop1 (rc g) bit) 64))
    (hc : s'.counts = upd s.counts g (encAbove (drop1 (rc g) bit) 0))
    (hov : s'.overflow = upd (upd s.overflow (slotIdx s g + bit / 16) (laneWord (drop1 (rc g) bit) (bit / 16))) (slotIdx s g) s.nextFreeOverflow)
    (hnf : s'.nextFreeOverflow = slotIdx s g)
    (hal : s'.arrayLength = s.arrayLength) (holen : s'.overflowLength = s.overflowLength) :
    Inv s' (rcDec rc g bit) := by
  obtain ⟨hcfg, hgrp, fl, hpool⟩ := hInv
  have hg : g < s.arrayLength := promoted_in_range hgrp hp
  obtain ⟨h1, h2, h3, h4, h5, h6⟩ := hgrp g
  obtain ⟨k1, k2, k3, k4, k5⟩ := h6 hp
  obtain ⟨hch, hnd, hal2, hfreeiff, hinj⟩ := hpool
  have hT62 : totalOf (drop1 (rc g) bit) ≤ 62 := by
    have := totalOf_drop (rc g) hbit hpos
    omega
  have hd15 : ∀ i, drop1 (rc g) bit i ≤ 15 := by
    intro i
    simp only [drop1]
    split
    · have := h3 i
      omega
    · exact h3 i
  have hcg' : s'.counts g = encAbove (drop1 (rc g) bit) 0 := by
    rw [hc, upd_self]
  have hvz : s'.counts g &&& 0x8000000000000000 = 0 := by
    rw [hcg']
    exact encode_not_promoted (by omega)
  have hnp' : ¬ IsPromoted s' g := fun hq => hq hvz
  have hcong : ∀ g'', g'' ≠ g → s'.counts g'' = s.counts g'' := by
    intro g'' hgg
    rw [hc]
    exact upd_other _ _ hgg
  have hidxnotfl : slotIdx s g ∉ fl := by
    intro hin
    exact (hfreeiff _ k2 (by omega)).mp hin g hp rfl
  have hfl_ne : ∀ a ∈ fl, s'.overflow a = s.overflow a := by
    intro a ha
    have ha4 := (hal2 a ha).1
    have hane : a ≠ slotIdx s g := fun he => hidxnotfl (he ▸ ha)
    rw [hov, upd_other _ _ hane,
      upd_other _ _ (show a ≠ slotIdx s g + bit / 16 from by omega)]
  refine ⟨?_, ?_, slotIdx s g :: fl, ?_⟩
  · obtain ⟨c1, c2⟩ := hcfg
    rw [CfgInv, holen]
    exact ⟨c1, c2⟩
  · intro g'
    by_cases hgg : g' = g
    · subst hgg
      refine ⟨?_, ?_, ?_, ?_, ?_, ?_⟩
      · intro hlen
        rw [hal] at hlen
        exact absurd hg (by omega)
      · intro i hi
        rw [rcDec_self]
        simp only [drop1, if_neg (show i ≠ bit from by omega)]
        exact h2 i hi
      · intro i
        rw [rcDec_self]
        exact hd15 i
      · rw [rcDec_self, hd, upd_self]
      · intro _
        rw [rcDec_self]
        exact ⟨hcg', by omega⟩
      · intro hq
        exact absurd hq hnp'
    · have hg'inv := hgrp g'
      refine GroupInv_frame (by rw [hd]; exact upd_other _ _ hgg)
        (hcong g' hgg) hal holen (rcDec_other rc bit hgg) ?_ hg'inv
      intro hpg' w hw
      have hslot4 := (hg'inv.2.2.2.2.2 hpg').2.1
      have hne : slotIdx s g' ≠ slotIdx s g := fun he => hgg (hinj g' g hpg' hp he)
      rw [hov, upd_other _ _ (show slotIdx s g' + w ≠ slotIdx s g from by omega),
        upd_other _ _ (show slotIdx s g' + w ≠ slotIdx s g + bit / 16 from by omega)]
  · refine ⟨?_, ?_, ?_, ?_, ?_⟩
    · rw [holen, hnf]
      refine ⟨rfl, by omega, ?_⟩
      rw [show s'.overflow (slotIdx s g) = s.nextFreeOverflow from by rw [hov, upd_self]]
      exact Chain_congr hch hfl_ne
    · rw [List.nodup_cons]
      exact ⟨hidxnotfl, hnd⟩
    · intro a ha
      rw [holen]
      rcases List.mem_cons.mp ha with h | h
      · subst h
        exact ⟨k2, by omega⟩
      · exact hal2 a h
    · intro slot h4s hlt
      rw [holen] at hlt
      by_cases hslot : slot = slotIdx s g
      · subst hslot
        refine iff_of_true (by simp) ?_
        intro g'' hpg''
        by_cases hgg : g'' = g
        · subst hgg
          exact absurd hpg'' hnp'
        · have hpold : IsPromoted s g'' := (IsPromoted_congr (hcong g'' hgg)).mp hpg''
          rw [slotIdx_congr (hcong g'' hgg)]
          exact fun he => hgg (hinj g'' g hpold hp he)
      · have hmem : (slot ∈ slotIdx s g :: fl) = (slot ∈ fl) := by
          simp [hslot]
        rw [hmem, hfreeiff slot h4s hlt]
        constructor
        · intro hall g'' hpg''
          by_cases hgg : g'' = g
          · subst hgg
            exact absurd hpg'' hnp'
          · have hpold := (IsPromoted_congr (hcong g'' hgg)).mp hpg''
            rw [slotIdx_congr (hcong g'' hgg)]
            exact hall g'' hpold
        · intro hall g'' hpg''
          by_cases hgg : g'' = g
          · subst hgg
            exact fun he => hslot he.symm
          · have hpnew := (IsPromoted_congr (hcong g'' hgg)).mpr hpg''
            have h2' := hall g'' hpnew
            rwa [slotIdx_congr (hcong g'' hgg)] at h2'
    · intro g1 g2 hp1 hp2 heq
      have hgg1 : g1 ≠ g := fun he => hnp' (he ▸ hp1)
      have hgg2 : g2 ≠ g := fun he => hnp' (he ▸ hp2)
      have hpold1 := (IsPromoted_congr (hcong g1 hgg1)).mp hp1
      have hpold2 := (IsPromoted_congr (hcong g2 hgg2)).mp hp2
      refine hinj g1 g2 hpold1 hpold2 ?_
      rw [← slotIdx_congr (hcong g1 hgg1), ← slotIdx_congr (hcong g2 hgg2), heq]

end DemoteStep

/-! ### The combined step theorems and the run-level invariant -/

section RunInv

/-- `Increment` preserves the invariant, provided a free slot exists whenever
conversion is due. -/
theorem Increment_inv {s : SCBF} {rc : Nat → Nat → Nat} {g bit : Nat}
    (hInv : Inv s rc) (hg : g < s.arrayLength) (hbit : bit < 64) (h14 : rc g bit ≤ 14)
    (hex : WillConvert s g → s.nextFreeOverflow < s.overflowLength) :
    Inv (SuccinctCountingBloomFilter.Increment s g bit) (rcInc rc g bit) ∧
    (SuccinctCountingBloomFilter.Increment s g bit).arrayLength = s.arrayLength ∧
    (SuccinctCountingBloomFilter.Increment s g bit).overflowLength = s.overflowLength := by
  by_cases hp : IsPromoted s g
  · rw [Increment_promoted_spec hInv hbit h14 hp]
    exact ⟨Inv_promoted_bump hInv hbit h14 hp rfl rfl rfl rfl rfl rfl, rfl, rfl⟩
  · have h5' := (hInv.2.1 g).2.2.2.2.1 hp
    by_cases hT : totalOf (rc g) ≤ 62
    · rw [Increment_inline_spec hInv hbit hT]
      exact ⟨Inv_inline_bump hInv hg hbit h14 hT rfl rfl rfl rfl rfl rfl, rfl, rfl⟩
    · have hT63 : totalOf (rc g) = 63 := by
        have := h5'.2
        omega
      have hcc := h5'.1
      rw [encode] at hcc
      have hfree : s.nextFreeOverflow < s.overflowLength := by
        refine hex ⟨?_, ?_⟩
        · rw [hcc]
          intro hzz
          rw [inline_branch_iff (by omega)] at hzz
          omega
        · rw [hcc]
          exact encode_not_promoted (by omega)
      rw [Increment_convert_spec hInv hbit h14 hp hT63 hfree]
      exact ⟨Inv_convert hInv hbit h14 hp hT63 hfree rfl rfl rfl rfl rfl rfl, rfl, rfl⟩

/-- `Decrement` of a positive position preserves the invariant. -/
theorem Decrement_inv {s : SCBF} {rc : Nat → Nat → Nat} {g bit : Nat}
    (hInv : Inv s rc) (hbit : bit < 64) (hpos : 1 ≤ rc g bit) :
    Inv (SuccinctCountingBloomFilter.Decrement s g bit) (rcDec rc g bit) ∧
    (SuccinctCountingBloomFilter.Decrement s g bit).arrayLength = s.arrayLength ∧
    (SuccinctCountingBloomFilter.Decrement s g bit).overflowLength = s.overflowLength := by
  by_cases hp : IsPromoted s g
  · have hT63ge : 63 ≤ totalOf (rc g) := ((hInv.2.1 g).2.2.2.2.2 hp).2.2.2.1
    by_cases hT : totalOf (rc g) = 63
    · rw [Decrement_demote_spec hInv hbit hpos hp hT]
      exact ⟨Inv_demote hInv hbit hpos hp hT rfl rfl rfl rfl rfl rfl, rfl, rfl⟩
    · have hT64 : 64 ≤ totalOf (rc g) := by omega
      rw [Decrement_promoted_spec hInv hbit hpos hp hT64]
      exact ⟨Inv_promoted_drop hInv hbit hpos hp hT64 rfl rfl rfl rfl rfl rfl, rfl, rfl⟩
  · have hT := ((hInv.2.1 g).2.2.2.2.1 hp).2
    rw [Decrement_inline_spec hInv hbit hpos hp]
    exact ⟨Inv_inline_drop hInv hbit hpos hT hp rfl rfl rfl rfl rfl rfl, rfl, rfl⟩

/-- Running a valid, non-exhausting operation sequence preserves the invariant
against the running abstract counts. -/
theorem runOps_inv : ∀ (ops : List Op) (s : SCBF) (rc : Nat → Nat → Nat),
    Inv s rc → ValidFrom s.arrayLength rc ops → NoExhaust s ops →
    Inv (runOps s ops) (rcFrom rc ops) := by
  intro ops
  induction ops with
  | nil =>
    intro s rc hInv _ _
    exact hInv
  | cons op rest ih =>
    intro s rc hInv hval hne
    cases op with
    | inc g b =>
      obtain ⟨hg, hb, h14, hval'⟩ := hval
      obtain ⟨hex, hne'⟩ := hne
      obtain ⟨hInv', hal, holen⟩ := Increment_inv hInv hg hb h14 hex
      rw [runOps, rcFrom]
      refine ih _ _ hInv' ?_ hne'
      rw [show (applyOp s (Op.inc g b)).arrayLength = s.arrayLength from hal]
      exact hval'
    | dec g b =>
      obtain ⟨hg, hb, h1', hval'⟩ := hval
      obtain ⟨_, hne'⟩ := hne
      obtain ⟨hInv', hal, holen⟩ := Decrement_inv hInv hb h1'
      rw [runOps, rcFrom]
      refine ih _ _ hInv' ?_ hne'
      rw [show (applyOp s (Op.dec g b)).arrayLength = s.arrayLength from hal]
      exact hval'

end RunInv

/-! ### The freshly constructed filter satisfies the invariant -/

section FreshInv

theorem maskBelow_zero : ∀ j, maskBelow (fun _ => 0) j = 0
  | 0 => rfl
  | j + 1 => by
    rw [maskBelow, maskBelow_zero j]
    simp

theorem encAboveAux_zero : ∀ r, encAboveAux (fun _ => 0) r = 0
  | 0 => rfl
  | r + 1 => by
    rw [encAboveAux, encAboveAux_zero r]
    simp

theorem sumBelow_zero : ∀ j, sumBelow (fun _ => 0) j = 0
  | 0 => rfl
  | j + 1 => by
    rw [sumBelow, sumBelow_zero j]

/-- Value of the constructor's free-list fold at an aligned index. -/
theorem initFoldl_get : ∀ (N : Nat) (f : Nat → Nat) (t : Nat),
    List.foldl (fun f s => upd f (4 * s) (4 * s + 4)) f (List.range N) (4 * t)
      = if t < N then 4 * t + 4 else f (4 * t) := by
  intro N
  induction N with
  | zero =>
    intro f t
    simp
  | succ N ih =>
    intro f t
    rw [List.range_succ, List.foldl_append, List.foldl_cons, List.foldl_nil]
    by_cases ht : t = N
    · subst ht
      rw [upd_self, if_pos (by omega)]
    · rw [upd_other _ _ (show 4 * t ≠ 4 * N from by omega), ih f t]
      by_cases h2 : t < N
      · rw [if_pos h2, if_pos (by omega)]
      · rw [if_neg h2, if_neg (by omega)]

theorem initFreeList_get {len t : Nat} (ht : t < (len + 3) / 4) :
    SuccinctCountingBloomFilter.initFreeList len (4 * t) = 4 * t + 4 := by
  rw [SuccinctCountingBloomFilter.initFreeList, initFoldl_get, if_pos ht]

/-- The constructor's free list is the chain `0, 4, 8, …`. -/
theorem initFreeList_chain (len : Nat) (h4 : len % 4 = 0) :
    ∀ (m k : Nat), 4 * (k + m) = len →
      Chain (SuccinctCountingBloomFilter.initFreeList len) len (4 * k)
        ((List.range' k m).map (fun t => 4 * t))
  | 0, k => by
    intro he
    rw [List.range'_zero, List.map_nil]
    show len ≤ 4 * k
    omega
  | m + 1, k => by
    intro he
    rw [List.range'_succ, List.map_cons]
    refine ⟨rfl, by omega, ?_⟩
    rw [initFreeList_get (show k < (len + 3) / 4 from by omega),
      show 4 * k + 4 = 4 * (k + 1) from by omega]
    exact initFreeList_chain len h4 m (k + 1) (by omega)

/-- The invariant holds for a freshly constructed filter with all counts zero,
provided the pool length fits the 28-bit header field. -/
theorem Inv_new (n b : Nat)
    (hsize : (SuccinctCountingBloomFilter.new n b).overflowLength ≤ 0x0fffffff) :
    Inv (SuccinctCountingBloomFilter.new n b) (fun _ _ => 0) := by
  have hlen4 : (SuccinctCountingBloomFilter.new n b).overflowLength % 4 = 0 := by
    show (100 + (n * b + 63) / 64 / 100 * 12) % 4 = 0
    omega
  refine ⟨⟨hlen4, hsize⟩, ?_, ?_⟩
  · intro g
    refine ⟨fun _ i => rfl, fun i _ => rfl, fun i => by norm_num, ?_, ?_, ?_⟩
    · exact (maskBelow_zero 64).symm
    · intro _
      constructor
      · show (0 : Nat) = encAbove (fun _ => 0) 0
        rw [encAbove]
        exact (encAboveAux_zero _).symm
      · show sumBelow (fun _ => 0) 64 ≤ 63
        rw [sumBelow_zero]
        omega
    · intro hposd
      exact absurd (Nat.zero_and 0x8000000000000000) hposd
  · refine ⟨(List.range' 0 ((SuccinctCountingBloomFilter.new n b).overflowLength / 4)).map
      (fun t => 4 * t), ?_, ?_, ?_, ?_, ?_⟩
    · have := initFreeList_chain (SuccinctCountingBloomFilter.new n b).overflowLength hlen4
        ((SuccinctCountingBloomFilter.new n b).overflowLength / 4) 0 (by omega)
      rw [show (4 * 0 : Nat) = 0 from rfl] at this
      exact this
    · exact List.Nodup.map (fun a b hab => by omega) (List.nodup_range' _ _)
    · intro a ha
      simp only [List.mem_map, List.mem_range'_1] at ha
      obtain ⟨t, ⟨_, htl⟩, hta⟩ := ha
      constructor
      · omega
      · omega
    · intro slot hs4 hslt
      refine iff_of_true ?_ ?_
      · simp only [List.mem_map, List.mem_range'_1]
        exact ⟨slot / 4, ⟨by omega, by omega⟩, by omega⟩
      · intro g'' hpg''
        exact absurd (Nat.zero_and 0x8000000000000000) hpg''
    · intro g1 g2 hp1 hp2 _
      exact absurd (Nat.zero_and 0x8000000000000000) hp1

end FreshInv

/-! ### Prefix closure and decidability of the side conditions -/

section Prefixes

theorem ValidFrom_append {len : Nat} {suf : List Op} :
    ∀ (pre : List Op) (rc : Nat → Nat → Nat),
      ValidFrom len rc (pre ++ suf) → ValidFrom len rc pre := by
  intro pre
  induction pre with
  | nil =>
    intro rc _
    trivial
  | cons op rest ih =>
    intro rc hv
    cases op with
    | inc g b =>
      obtain ⟨h1, h2, h3, h4⟩ := hv
      exact ⟨h1, h2, h3, ih _ h4⟩
    | dec g b =>
      obtain ⟨h1, h2, h3, h4⟩ := hv
      exact ⟨h1, h2, h3, ih _ h4⟩

theorem NoExhaust_append {suf : List Op} :
    ∀ (pre : List Op) (s : SCBF),
      NoExhaust s (pre ++ suf) → NoExhaust s pre := by
  intro pre
  induction pre with
  | nil =>
    intro s _
    trivial
  | cons op rest ih =>
    intro s hv
    obtain ⟨h1, h2⟩ := hv
    exact ⟨h1, ih _ h2⟩

instance instDecidableValidFrom (len : Nat) :
    (rc : Nat → Nat → Nat) → (l : List Op) → Decidable (ValidFrom len rc l)
  | _, [] => .isTrue trivial
  | rc, .inc g b :: rest => by
    have := instDecidableValidFrom len (rcInc rc g b) rest
    show Decidable (g < len ∧ b < 64 ∧ rc g b ≤ 14 ∧ ValidFrom len (rcInc rc g b) rest)
    infer_instance
  | rc, .dec g b :: rest => by
    have := instDecidableValidFrom len (rcDec rc g b) rest
    show Decidable (g < len ∧ b < 64 ∧ 1 ≤ rc g b ∧ ValidFrom len (rcDec rc g b) rest)
    infer_instance

instance (len : Nat) (l : List Op) : Decidable (ValidOps len l) :=
  instDecidableValidFrom len _ l

instance (s : SCBF) (g : Nat) : Decidable (WillConvert s g) := by
  unfold WillConvert
  infer_instance

instance instDecidableNoExhaust (s : SCBF) : (l : List Op) → Decidable (NoExhaust s l)
  | [] => .isTrue trivial
  | .inc g b :: rest => by
    have := instDecidableNoExhaust (applyOp s (.inc g b)) rest
    show Decidable ((WillConvert s g → s.nextFreeOverflow < s.overflowLength) ∧
      NoExhaust (applyOp s (.inc g b)) rest)
    infer_instance
  | .dec g b :: rest => by
    have := instDecidableNoExhaust (applyOp s (.dec g b)) rest
    show Decidable (True ∧ NoExhaust (applyOp s (.dec g b)) rest)
    infer_instance

end Prefixes

/-! ### Claims C1 and C2 -/

/-- C1: starting from a freshly constructed `SuccinctCountingBloomFilter`, for
every valid, non-exhausting sequence of `Increment`/`Decrement` operations
(no decrement of a zero position, per-position counts at most 15), after every
prefix of the sequence `ReadCount(g, i)` equals the number of increments minus
the number of decrements applied to `(g, i)` so far, for every group
`g < arrayLength` and bit `i < 64`. -/
theorem scbf_readCount_tracks_counts (n b : Nat) (ops : List Op)
    (hsize : (SuccinctCountingBloomFilter.new n b).overflowLength ≤ 0x0fffffff)
    (hval : ValidOps (SuccinctCountingBloomFilter.new n b).arrayLength ops)
    (hne : NoExhaust (SuccinctCountingBloomFilter.new n b) ops) :
    ∀ pre suf, ops = pre ++ suf →
      ∀ g bit, g < (SuccinctCountingBloomFilter.new n b).arrayLength → bit < 64 →
        (runOps (SuccinctCountingBloomFilter.new n b) pre).ReadCount g bit
          = rcAfter pre g bit := by
  intro pre suf hsplit g bit hg hbit
  rw [hsplit] at hval hne
  have hval' := ValidFrom_append pre _ hval
  have hne' := NoExhaust_append pre _ hne
  have hInv := runOps_inv pre _ _ (Inv_new n b hsize) hval' hne'
  exact ReadCount_eq_rc (hInv.2.1 g) hbit

/-- Witness for C1 at a concrete filter and operation sequence. -/
theorem scbf_readCount_tracks_counts_witness :
    (SuccinctCountingBloomFilter.new 64 1).overflowLength ≤ 0x0fffffff ∧
    ValidOps (SuccinctCountingBloomFilter.new 64 1).arrayLength
      [Op.inc 0 0, Op.inc 0 0, Op.dec 0 0] ∧
    NoExhaust (SuccinctCountingBloomFilter.new 64 1) [Op.inc 0 0, Op.inc 0 0, Op.dec 0 0] ∧
    (runOps (SuccinctCountingBloomFilter.new 64 1) [Op.inc 0 0, Op.inc 0 0]).ReadCount 0 0
      = rcAfter [Op.inc 0 0, Op.inc 0 0] 0 0 :=
  ⟨by decide, by decide, by decide,
    scbf_readCount_tracks_counts 64 1 [Op.inc 0 0, Op.inc 0 0, Op.dec 0 0]
      (by decide) (by decide) (by decide)
      [Op.inc 0 0, Op.inc 0 0] [Op.dec 0 0] rfl 0 0 (by decide) (by decide)⟩

/-- C2: at every state reachable from a fresh `SuccinctCountingBloomFilter` by
a valid, non-exhausting operation sequence, bit `i` of `data[g]` is 1 exactly
when `ReadCount(g, i)` is positive. -/
theorem scbf_presence_bit_iff_positive_count (n b : Nat) (ops : List Op)
    (hsize : (SuccinctCountingBloomFilter.new n b).overflowLength ≤ 0x0fffffff)
    (hval : ValidOps (SuccinctCountingBloomFilter.new n b).arrayLength ops)
    (hne : NoExhaust (SuccinctCountingBloomFilter.new n b) ops) :
    ∀ g bit, bit < 64 →
      (shr64 ((runOps (SuccinctCountingBloomFilter.new n b) ops).data g) bit &&& 1 = 1 ↔
        0 < (runOps (SuccinctCountingBloomFilter.new n b) ops).ReadCount g bit) := by
  intro g bit hbit
  have hInv := runOps_inv ops _ _ (Inv_new n b hsize) hval hne
  have hd := (hInv.2.1 g).2.2.2.1
  rw [hd, ReadCount_eq_rc (hInv.2.1 g) hbit]
  have hle : shr64 (maskBelow (rcFrom (fun _ _ => 0) ops g) 64) bit &&& 1 ≤ 1 := by
    rw [show (1 : Nat) = 2 ^ 1 - 1 from rfl, and_two_pow_sub_one]
    have := Nat.mod_lt (shr64 (maskBelow (rcFrom (fun _ _ => 0) ops g) 64) bit)
      (show 0 < 2 ^ 1 from by norm_num)
    omega
  constructor
  · intro h1
    by_contra h0
    have hz : rcFrom (fun _ _ => 0) ops g bit = 0 := by omega
    have := (presence_iff _ hbit).mpr hz
    omega
  · intro hpos
    have hnz : ¬ shr64 (maskBelow (rcFrom (fun _ _ => 0) ops g) 64) bit &&& 1 = 0 := by
      intro h0
      have := (presence_iff _ hbit).mp h0
      omega
    omega

theorem sumBelow_add (A B : Nat → Nat) :
    ∀ j, sumBelow (fun i => A i + B i) j = sumBelow A j + sumBelow B j
  | 0 => rfl
  | j + 1 => by
    rw [sumBelow, sumBelow, sumBelow, sumBelow_add A B j]
    ring

theorem sumBelow_delta {b : Nat} (hb : b < 64) :
    sumBelow (fun i => if i = b then 1 else 0) 64 = 1 := by
  have h2 : sumBelow (fun i => if i = b then 1 else 0) 64
      = sumBelow (bump1 (fun _ => 0) b) 64 := by
    refine sumBelow_congr _ 64 ?_
    intro i _
    simp [bump1]
  rw [h2]
  have h1 := @sumBelow_bump (fun _ => 0) b 64
  rw [sumBelow_zero, if_pos hb] at h1
  omega

theorem sumBelow_indicator : ∀ (bs : List Nat), bs.Nodup → (∀ i, i ∈ bs → i < 64) →
    sumBelow (fun i => if i ∈ bs then 1 else 0) 64 = bs.length
  | [] => by
    intro _ _
    have he : (fun i => if i ∈ ([] : List Nat) then 1 else 0) = (fun _ : Nat => 0) := by
      funext i
      simp
    rw [he, sumBelow_zero]
    rfl
  | b :: bs => by
    intro hnd hbits
    have hbnot : b ∉ bs := (List.nodup_cons.mp hnd).1
    have hpt : ∀ i, i < 64 → (if i ∈ b :: bs then 1 else 0)
        = (if i ∈ bs then 1 else 0) + (if i = b then 1 else 0) := by
      intro i _
      by_cases hib : i = b
      · subst hib
        simp [hbnot]
      · by_cases himem : i ∈ bs <;> simp [hib, himem]
    rw [sumBelow_congr _ 64 hpt, sumBelow_add, sumBelow_delta (hbits b (by simp)),
      sumBelow_indicator bs (List.nodup_cons.mp hnd).2 (fun i hi => hbits i (by simp [hi]))]
    simp

/-- A run of inline increments on distinct fresh bits of one group stays in
the inline representation and never touches the overflow pool. -/
theorem inline_run_spec (g : Nat) : ∀ (bs : List Nat) (s : SCBF) (rc : Nat → Nat → Nat),
    Inv s rc → (∀ i, i ∈ bs → i < 64) → bs.Nodup → (∀ i, i ∈ bs → rc g i = 0) →
    g < s.arrayLength → ¬ IsPromoted s g → totalOf (rc g) + bs.length ≤ 63 →
    Inv (runOps s (bs.map (Op.inc g))) (rcFrom rc (bs.map (Op.inc g))) ∧
    (runOps s (bs.map (Op.inc g))).nextFreeOverflow = s.nextFreeOverflow ∧
    (runOps s (bs.map (Op.inc g))).overflow = s.overflow ∧
    (runOps s (bs.map (Op.inc g))).arrayLength = s.arrayLength ∧
    (runOps s (bs.map (Op.inc g))).overflowLength = s.overflowLength ∧
    ¬ IsPromoted (runOps s (bs.map (Op.inc g))) g ∧
    (∀ i, rcFrom rc (bs.map (Op.inc g)) g i = rc g i + (if i ∈ bs then 1 else 0)) := by
  intro bs
  induction bs with
  | nil =>
    intro s rc hInv _ _ _ _ hnp _
    refine ⟨hInv, rfl, rfl, rfl, rfl, hnp, ?_⟩
    intro i
    simp [rcFrom]
  | cons b bs ih =>
    intro s rc hInv hbits hnd hz hg hnp hbound
    have hb64 : b < 64 := hbits b (by simp)
    have hT62 : totalOf (rc g) ≤ 62 := by
      have := hbound
      simp only [List.length_cons] at this
      omega
    have h14 : rc g b ≤ 14 := by
      rw [hz b (by simp)]
      omega
    have hbnotbs : b ∉ bs := (List.nodup_cons.mp hnd).1
    rw [List.map_cons, runOps, rcFrom]
    simp only [applyOp]
    rw [Increment_inline_spec hInv hb64 hT62]
    have hInv1 : Inv { s with data := upd s.data g (maskBelow (bump1 (rc g) b) 64), counts := upd s.counts g (encAbove (bump1 (rc g) b) 0) } (rcInc rc g b) :=
      Inv_inline_bump hInv hg hb64 h14 hT62 rfl rfl rfl rfl rfl rfl
    have hz1 : ∀ i, i ∈ bs → rcInc rc g b g i = 0 := by
      intro i hi
      have hne : i ≠ b := fun he => hbnotbs (he ▸ hi)
      rw [rcInc_self]
      simp only [bump1, if_neg hne]
      exact hz i (by simp [hi])
    have hbound1 : totalOf (rcInc rc g b g) + bs.length ≤ 63 := by
      rw [rcInc_self, totalOf_bump (rc g) hb64]
      simp only [List.length_cons] at hbound
      omega
    have hnp1 : ¬ IsPromoted { s with
        data := upd s.data g (maskBelow (bump1 (rc g) b) 64),
        counts := upd s.counts g (encAbove (bump1 (rc g) b) 0) } g := by
      intro hq
      refine hq ?_
      show upd s.counts g (encAbove (bump1 (rc g) b) 0) g &&& 0x8000000000000000 = 0
      rw [upd_self]
      refine encode_not_promoted ?_
      rw [totalOf_bump (rc g) hb64]
      omega
    obtain ⟨r1, r2, r3, r4, r5, r6, r7⟩ := ih _ (rcInc rc g b) hInv1
      (fun i hi => hbits i (by simp [hi])) (List.nodup_cons.mp hnd).2 hz1 hg hnp1 hbound1
    refine ⟨r1, r2, r3, r4, r5, r6, ?_⟩
    intro i
    rw [r7 i]
    by_cases hib : i = b
    · subst hib
      rw [if_neg hbnotbs, if_pos (by simp)]
      simp [rcInc]
    · by_cases himem : i ∈ bs <;> simp [rcInc, hib, himem]

/-- C3 (counterexample): on a fresh filter, sixty-four increments on sixty-four
distinct bits of group 0 already allocate an overflow slot — promotion happens
on the 64th distinct increment, not the 65th. -/
theorem scbf_promotion_at_64th_counterexample :
    (runOps (SuccinctCountingBloomFilter.new 64 1)
        ((List.range 64).map (fun i => Op.inc 0 i))).nextFreeOverflow
      ≠ (SuccinctCountingBloomFilter.new 64 1).nextFreeOverflow := by
  decide

/-- C3 (amended): on a fresh filter, 63 increments on distinct bits of a group
fill it inline — no promotion, and the overflow pool is untouched — and the
64th increment on any bit of that group forces promotion to an overflow slot. -/
theorem scbf_promotion_at_64th_increment (n b g : Nat) (bs : List Nat)
    (hsize : (SuccinctCountingBloomFilter.new n b).overflowLength ≤ 0x0fffffff)
    (hbits : ∀ i, i ∈ bs → i < 64) (hnd : bs.Nodup) (hlen : bs.length = 63)
    (hg : g < (SuccinctCountingBloomFilter.new n b).arrayLength) :
    (runOps (SuccinctCountingBloomFilter.new n b) (bs.map (Op.inc g))).nextFreeOverflow
      = (SuccinctCountingBloomFilter.new n b).nextFreeOverflow ∧
    (runOps (SuccinctCountingBloomFilter.new n b) (bs.map (Op.inc g))).overflow
      = (SuccinctCountingBloomFilter.new n b).overflow ∧
    ¬ IsPromoted (runOps (SuccinctCountingBloomFilter.new n b) (bs.map (Op.inc g))) g ∧
    ∀ bit, bit < 64 →
      IsPromoted (SuccinctCountingBloomFilter.Increment
        (runOps (SuccinctCountingBloomFilter.new n b) (bs.map (Op.inc g))) g bit) g := by
  have hnp0 : ¬ IsPromoted (SuccinctCountingBloomFilter.new n b) g :=
    fun hq => hq (Nat.zero_and 0x8000000000000000)
  have hT0 : totalOf ((fun _ _ => 0) g) = 0 := sumBelow_zero 64
  obtain ⟨r1, r2, r3, r4, r5, r6, r7⟩ := inline_run_spec g bs
    (SuccinctCountingBloomFilter.new n b) (fun _ _ => 0) (Inv_new n b hsize)
    hbits hnd (fun _ _ => rfl) hg hnp0 (by rw [hT0, hlen])
  refine ⟨r2, r3, r6, ?_⟩
  intro bit hbit
  have hT63 : totalOf (rcFrom (fun _ _ => 0) (bs.map (Op.inc g)) g) = 63 := by
    have hcongr : sumBelow (rcFrom (fun _ _ => 0) (bs.map (Op.inc g)) g) 64
        = sumBelow (fun i => if i ∈ bs then 1 else 0) 64 := by
      refine sumBelow_congr _ 64 ?_
      intro i _
      rw [r7 i]
      simp
    rw [totalOf, hcongr, sumBelow_indicator bs hnd hbits, hlen]
  have h14' : rcFrom (fun _ _ => 0) (bs.map (Op.inc g)) g bit ≤ 14 := by
    rw [r7 bit]
    split <;> omega
  have hfree' : (runOps (SuccinctCountingBloomFilter.new n b)
      (bs.map (Op.inc g))).nextFreeOverflow
      < (runOps (SuccinctCountingBloomFilter.new n b) (bs.map (Op.inc g))).overflowLength := by
    rw [r2, r5]
    show (0 : Nat) < 100 + (n * b + 63) / 64 / 100 * 12
    omega
  rw [Increment_convert_spec r1 hbit h14' r6 hT63 hfree']
  intro hz
  have hcz : upd (runOps (SuccinctCountingBloomFilter.new n b) (bs.map (Op.inc g))).counts g
      (2 ^ 63 + 64 * 2 ^ 32
        + (runOps (SuccinctCountingBloomFilter.new n b) (bs.map (Op.inc g))).nextFreeOverflow)
      g &&& 0x8000000000000000 = 0 := hz
  rw [upd_self] at hcz
  have hidx28 : (runOps (SuccinctCountingBloomFilter.new n b)
      (bs.map (Op.inc g))).nextFreeOverflow < 2 ^ 28 := by
    have := r1.1.2
    omega
  exact header_and_top (by norm_num) hidx28 hcz

/-- Witness for the amended C3 on a concrete filter, group and bit list. -/
theorem scbf_promotion_at_64th_increment_witness :
    (SuccinctCountingBloomFilter.new 64 1).overflowLength ≤ 0x0fffffff ∧
    (∀ i, i ∈ List.range 63 → i < 64) ∧
    (List.range 63).Nodup ∧
    (List.range 63).length = 63 ∧
    0 < (SuccinctCountingBloomFilter.new 64 1).arrayLength ∧
    ((runOps (SuccinctCountingBloomFilter.new 64 1)
        ((List.range 63).map (Op.inc 0))).nextFreeOverflow
      = (SuccinctCountingBloomFilter.new 64 1).nextFreeOverflow ∧
    (runOps (SuccinctCountingBloomFilter.new 64 1)
        ((List.range 63).map (Op.inc 0))).overflow
      = (SuccinctCountingBloomFilter.new 64 1).overflow ∧
    ¬ IsPromoted (runOps (SuccinctCountingBloomFilter.new 64 1)
        ((List.range 63).map (Op.inc 0))) 0 ∧
    ∀ bit, bit < 64 →
      IsPromoted (SuccinctCountingBloomFilter.Increment
        (runOps (SuccinctCountingBloomFilter.new 64 1)
          ((List.range 63).map (Op.inc 0))) 0 bit) 0) :=
  ⟨by decide, by decide, by decide, by decide, by decide,
    scbf_promotion_at_64th_increment 64 1 0 (List.range 63) (by decide) (by decide)
      (by decide) (by decide) (by decide)⟩

/-! ### Claim C4: add-then-remove restores an empty filter -/

section AddRemove

theorem runOps_append : ∀ (l1 l2 : List Op) (s : SCBF),
    runOps s (l1 ++ l2) = runOps (runOps s l1) l2 := by
  intro l1
  induction l1 with
  | nil =>
    intro l2 s
    rfl
  | cons op rest ih =>
    intro l2 s
    rw [List.cons_append, runOps, runOps]
    exact ih l2 _

theorem rcFrom_append : ∀ (l1 l2 : List Op) (rc : Nat → Nat → Nat),
    rcFrom rc (l1 ++ l2) = rcFrom (rcFrom rc l1) l2 := by
  intro l1
  induction l1 with
  | nil =>
    intro l2 rc
    rfl
  | cons op rest ih =>
    intro l2 rc
    cases op with
    | inc g b =>
      rw [List.cons_append, rcFrom, rcFrom]
      exact ih l2 _
    | dec g b =>
      rw [List.cons_append, rcFrom, rcFrom]
      exact ih l2 _

theorem foldl_arrayLength_const (f : SCBF → Nat → SCBF)
    (hf : ∀ t i, (f t i).arrayLength = t.arrayLength) :
    ∀ (l : List Nat) (t : SCBF), (List.foldl f t l).arrayLength = t.arrayLength := by
  intro l
  induction l with
  | nil =>
    intro t
    rfl
  | cons a rest ih =>
    intro t
    rw [List.foldl_cons, ih, hf]

/-- `Increment` never changes the length of the data array (all branches). -/
theorem Increment_arrayLength (s : SCBF) (g bit : Nat) :
    (SuccinctCountingBloomFilter.Increment s g bit).arrayLength = s.arrayLength := by
  simp only [SuccinctCountingBloomFilter.Increment]
  split
  · split
    · split
      · rfl
      · exact foldl_arrayLength_const _ (fun t i => rfl) (List.range 64) _
    · rfl
  · rfl

/-- `Decrement` never changes the length of the data array (all branches). -/
theorem Decrement_arrayLength (s : SCBF) (g bit : Nat) :
    (SuccinctCountingBloomFilter.Decrement s g bit).arrayLength = s.arrayLength := by
  simp only [SuccinctCountingBloomFilter.Decrement]
  split
  · split
    · split
      · rfl
      · rfl
    · split
      · rfl
      · rfl
  · rfl

theorem applyOp_arrayLength (s : SCBF) (op : Op) :
    (applyOp s op).arrayLength = s.arrayLength := by
  cases op with
  | inc g b => exact Increment_arrayLength s g b
  | dec g b => exact Decrement_arrayLength s g b

theorem runOps_arrayLength : ∀ (l : List Op) (s : SCBF),
    (runOps s l).arrayLength = s.arrayLength := by
  intro l
  induction l with
  | nil =>
    intro s
    rfl
  | cons op rest ih =>
    intro s
    rw [runOps, ih, applyOp_arrayLength]

/-- The probe loop of `Add` is the run of its abstract operation list. -/
theorem addLoop_eq_runOps : ∀ (k : Nat) (s : SCBF) (a b : Nat),
    SuccinctCountingBloomFilter.addLoop s a b k
      = runOps s (incOps s.arrayLength a b k) := by
  intro k
  induction k with
  | zero =>
    intro s a b
    rfl
  | succ k ih =>
    intro s a b
    rw [SuccinctCountingBloomFilter.addLoop, incOps, runOps, ih, Increment_arrayLength]
    rfl

/-- The probe loop of `Remove` is the run of its abstract operation list. -/
theorem removeLoop_eq_runOps : ∀ (k : Nat) (s : SCBF) (a b : Nat),
    SuccinctCountingBloomFilter.removeLoop s a b k
      = runOps s (decOps s.arrayLength a b k) := by
  intro k
  induction k with
  | zero =>
    intro s a b
    rfl
  | succ k ih =>
    intro s a b
    rw [SuccinctCountingBloomFilter.removeLoop, decOps, runOps, ih, Decrement_arrayLength]
    rfl

theorem Add_eq_runOps (s : SCBF) (k hash : Nat) :
    SuccinctCountingBloomFilter.Add s k hash
      = runOps s (incOps s.arrayLength ((hash >>> 32) % 2 ^ 32) (hash % 2 ^ 32) k) := by
  rw [SuccinctCountingBloomFilter.Add, addLoop_eq_runOps]

theorem Remove_eq_runOps (s : SCBF) (k hash : Nat) :
    SuccinctCountingBloomFilter.Remove s k hash
      = runOps s (decOps s.arrayLength ((hash >>> 32) % 2 ^ 32) (hash % 2 ^ 32) k) := by
  rw [SuccinctCountingBloomFilter.Remove, removeLoop_eq_runOps]

theorem foldl_Add_eq_runOps (k : Nat) (hasher : Nat → Nat) :
    ∀ (keys : List Nat) (s : SCBF),
      List.foldl (fun t key => SuccinctCountingBloomFilter.Add t k (hasher key)) s keys
        = runOps s (addOpsAll s.arrayLength k hasher keys) := by
  intro keys
  induction keys with
  | nil =>
    intro s
    rfl
  | cons key rest ih =>
    intro s
    rw [List.foldl_cons, addOpsAll, runOps_append, ih, Add_eq_runOps, runOps_arrayLength]

theorem foldl_Remove_eq_runOps (k : Nat) (hasher : Nat → Nat) :
    ∀ (keys : List Nat) (s : SCBF),
      List.foldl (fun t key => SuccinctCountingBloomFilter.Remove t k (hasher key)) s keys
        = runOps s (remOpsAll s.arrayLength k hasher keys) := by
  intro keys
  induction keys with
  | nil =>
    intro s
    rfl
  | cons key rest ih =>
    intro s
    rw [List.foldl_cons, remOpsAll, runOps_append, ih, Remove_eq_runOps, runOps_arrayLength]

theorem countIncAt_append : ∀ (l1 l2 : List Op) (g b : Nat),
    countIncAt (l1 ++ l2) g b = countIncAt l1 g b + countIncAt l2 g b := by
  intro l1
  induction l1 with
  | nil =>
    intro l2 g b
    rw [List.nil_append, countIncAt]
    omega
  | cons op rest ih =>
    intro l2 g b
    cases op with
    | inc g0 b0 =>
      rw [List.cons_append, countIncAt, countIncAt, ih]
      omega
    | dec g0 b0 =>
      rw [List.cons_append, countIncAt, countIncAt, ih]

theorem countDecAt_append : ∀ (l1 l2 : List Op) (g b : Nat),
    countDecAt (l1 ++ l2) g b = countDecAt l1 g b + countDecAt l2 g b := by
  intro l1
  induction l1 with
  | nil =>
    intro l2 g b
    rw [List.nil_append, countDecAt]
    omega
  | cons op rest ih =>
    intro l2 g b
    cases op with
    | dec g0 b0 =>
      rw [List.cons_append, countDecAt, countDecAt, ih]
      omega
    | inc g0 b0 =>
      rw [List.cons_append, countDecAt, countDecAt, ih]

/-- Per key, the add probes and the remove probes hit the same positions. -/
theorem countIncOps_eq_countDecOps (len gq bq : Nat) :
    ∀ (k a b : Nat),
      countIncAt (incOps len a b k) gq bq = countDecAt (decOps len a b k) gq bq := by
  intro k
  induction k with
  | zero =>
    intro a b
    rfl
  | succ k ih =>
    intro a b
    rw [incOps, decOps, countIncAt, countDecAt, ih]

theorem countIncAt_addOpsAll (len k : Nat) (hasher : Nat → Nat) (gq bq : Nat) :
    ∀ keys : List Nat,
      countIncAt (addOpsAll len k hasher keys) gq bq
        = (keys.map (fun key => countIncAt
            (incOps len ((hasher key >>> 32) % 2 ^ 32) (hasher key % 2 ^ 32) k) gq bq)).sum := by
  intro keys
  induction keys with
  | nil => rfl
  | cons key rest ih =>
    rw [addOpsAll, countIncAt_append, ih, List.map_cons, List.sum_cons]

theorem countDecAt_remOpsAll (len k : Nat) (hasher : Nat → Nat) (gq bq : Nat) :
    ∀ keys : List Nat,
      countDecAt (remOpsAll len k hasher keys) gq bq
        = (keys.map (fun key => countDecAt
            (decOps len ((hasher key >>> 32) % 2 ^ 32) (hasher key % 2 ^ 32) k) gq bq)).sum := by
  intro keys
  induction keys with
  | nil => rfl
  | cons key rest ih =>
    rw [remOpsAll, countDecAt_append, ih, List.map_cons, List.sum_cons]

/-- Adding a multiset of keys and removing a permutation of it applies the same
number of increments and decrements at every position. -/
theorem counts_perm (len k : Nat) (hasher : Nat → Nat) {keysA keysR : List Nat}
    (hperm : keysA.Perm keysR) (gq bq : Nat) :
    countIncAt (addOpsAll len k hasher keysA) gq bq
      = countDecAt (remOpsAll len k hasher keysR) gq bq := by
  rw [countIncAt_addOpsAll, countDecAt_remOpsAll]
  have hmap : (fun key => countIncAt
      (incOps len ((hasher key >>> 32) % 2 ^ 32) (hasher key % 2 ^ 32) k) gq bq)
      = (fun key => countDecAt
      (decOps len ((hasher key >>> 32) % 2 ^ 32) (hasher key % 2 ^ 32) k) gq bq) := by
    funext key
    exact countIncOps_eq_countDecOps len gq bq k _ _
  rw [hmap]
  exact List.Perm.sum_eq (hperm.map _)

theorem IsIncList_incOps (len : Nat) : ∀ (k a b : Nat), IsIncList (incOps len a b k) := by
  intro k
  induction k with
  | zero =>
    intro a b
    trivial
  | succ k ih =>
    intro a b
    rw [incOps, IsIncList]
    exact ih _ _

theorem IsIncList_append : ∀ {l1 l2 : List Op},
    IsIncList l1 → IsIncList l2 → IsIncList (l1 ++ l2) := by
  intro l1
  induction l1 with
  | nil =>
    intro l2 _ h2
    exact h2
  | cons op rest ih =>
    intro l2 h1 h2
    cases op with
    | inc g b =>
      rw [List.cons_append, IsIncList]
      exact ih h1 h2
    | dec g b => exact (h1 : False).elim

theorem IsIncList_addOpsAll (len k : Nat) (hasher : Nat → Nat) :
    ∀ keys : List Nat, IsIncList (addOpsAll len k hasher keys) := by
  intro keys
  induction keys with
  | nil => trivial
  | cons key rest ih =>
    rw [addOpsAll]
    exact IsIncList_append (IsIncList_incOps len k _ _) ih

/-- Running an all-increment list adds the per-position increment counts. -/
theorem rcFrom_incList : ∀ (l : List Op), IsIncList l →
    ∀ (rc : Nat → Nat → Nat) (g b : Nat),
      rcFrom rc l g b = rc g b + countIncAt l g b := by
  intro l
  induction l with
  | nil =>
    intro _ rc g b
    rw [rcFrom, countIncAt]
    omega
  | cons op rest ih =>
    intro hl rc g b
    cases op with
    | inc g0 b0 =>
      have hrest : IsIncList rest := hl
      rw [rcFrom, ih hrest, countIncAt]
      simp only [rcInc]
      by_cases hgb : g = g0 ∧ b = b0
      · rw [if_pos hgb, if_pos ⟨hgb.1.symm, hgb.2.symm⟩]
        omega
      · rw [if_neg hgb, if_neg (fun hc => hgb ⟨hc.1.symm, hc.2.symm⟩)]
        omega
    | dec g0 b0 => exact (hl : False).elim

/-- Running an all-decrement list whose per-position counts never exceed the
current abstract counts is valid and subtracts those counts. -/
theorem rcFrom_decBounded : ∀ (l : List Op) (len : Nat), DecBounded len l →
    ∀ rc : Nat → Nat → Nat, (∀ g b, countDecAt l g b ≤ rc g b) →
      ValidFrom len rc l ∧ ∀ g b, rcFrom rc l g b = rc g b - countDecAt l g b := by
  intro l
  induction l with
  | nil =>
    intro len _ rc _
    refine ⟨trivial, ?_⟩
    intro g b
    rw [rcFrom, countDecAt]
    omega
  | cons op rest ih =>
    intro len hdb rc hle
    cases op with
    | inc g0 b0 => exact (hdb : False).elim
    | dec g0 b0 =>
      obtain ⟨hg0, hb0, hrest⟩ := hdb
      have hpos : 1 ≤ rc g0 b0 := by
        have h0 := hle g0 b0
        rw [countDecAt, if_pos ⟨rfl, rfl⟩] at h0
        omega
      have hle' : ∀ g b, countDecAt rest g b ≤ rcDec rc g0 b0 g b := by
        intro g b
        have h0 := hle g b
        rw [countDecAt] at h0
        simp only [rcDec]
        by_cases hgb : g = g0 ∧ b = b0
        · rw [if_pos hgb]
          rw [if_pos ⟨hgb.1.symm, hgb.2.symm⟩] at h0
          omega
        · rw [if_neg hgb]
          rw [if_neg (fun hc => hgb ⟨hc.1.symm, hc.2.symm⟩)] at h0
          omega
      obtain ⟨hvf, heq⟩ := ih len hrest (rcDec rc g0 b0) hle'
      refine ⟨⟨hg0, hb0, hpos, hvf⟩, ?_⟩
      intro g b
      rw [rcFrom, heq g b, countDecAt]
      simp only [rcDec]
      by_cases hgb : g = g0 ∧ b = b0
      · rw [if_pos hgb, if_pos ⟨hgb.1.symm, hgb.2.symm⟩]
        omega
      · rw [if_neg hgb, if_neg (fun hc => hgb ⟨hc.1.symm, hc.2.symm⟩)]
        omega

/-- The hash-to-group map lands in range for a nonempty array. -/
theorem reduce_lt {n : Nat} (hn : 0 < n) (a : Nat) : reduce a n < n := by
  rw [reduce]
  rcases Nat.eq_zero_or_pos (n % 2 ^ 32) with h0 | hpos
  · rw [h0, Nat.mul_zero, Nat.zero_div]
    exact hn
  · have h1 : a % 2 ^ 32 < 2 ^ 32 := Nat.mod_lt _ (by norm_num)
    have hlt : a % 2 ^ 32 * (n % 2 ^ 32) < 2 ^ 32 * (n % 2 ^ 32) :=
      mul_lt_mul_of_pos_right h1 hpos
    have hdiv : a % 2 ^ 32 * (n % 2 ^ 32) / 2 ^ 32 < n % 2 ^ 32 :=
      Nat.div_lt_of_lt_mul (by omega)
    exact lt_of_lt_of_le hdiv (Nat.mod_le n _)

theorem and63_lt (a : Nat) : a &&& 63 < 64 := by
  rw [show (63 : Nat) = 2 ^ 6 - 1 from rfl, and_two_pow_sub_one]
  exact Nat.mod_lt _ (by norm_num)

theorem DecBounded_decOps {len : Nat} (hlen : 0 < len) :
    ∀ (k a b : Nat), DecBounded len (decOps len a b k) := by
  intro k
  induction k with
  | zero =>
    intro a b
    trivial
  | succ k ih =>
    intro a b
    rw [decOps, DecBounded]
    exact ⟨reduce_lt hlen a, and63_lt a, ih _ _⟩

theorem DecBounded_append {len : Nat} : ∀ {l1 l2 : List Op},
    DecBounded len l1 → DecBounded len l2 → DecBounded len (l1 ++ l2) := by
  intro l1
  induction l1 with
  | nil =>
    intro l2 _ h2
    exact h2
  | cons op rest ih =>
    intro l2 h1 h2
    cases op with
    | dec g b =>
      obtain ⟨ha, hb, hc⟩ := h1
      rw [List.cons_append, DecBounded]
      exact ⟨ha, hb, ih hc h2⟩
    | inc g b => exact (h1 : False).elim

theorem DecBounded_remOpsAll {len : Nat} (hlen : 0 < len) (k : Nat) (hasher : Nat → Nat) :
    ∀ keys : List Nat, DecBounded len (remOpsAll len k hasher keys) := by
  intro keys
  induction keys with
  | nil => trivial
  | cons key rest ih =>
    rw [remOpsAll]
    exact DecBounded_append (DecBounded_decOps hlen k _ _) ih

/-- Validity composes across concatenation. -/
theorem ValidFrom_compose {len : Nat} : ∀ (l1 l2 : List Op) (rc : Nat → Nat → Nat),
    ValidFrom len rc l1 → ValidFrom len (rcFrom rc l1) l2 → ValidFrom len rc (l1 ++ l2) := by
  intro l1
  induction l1 with
  | nil =>
    intro l2 rc _ h2
    exact h2
  | cons op rest ih =>
    intro l2 rc h1 h2
    cases op with
    | inc g b =>
      obtain ⟨ha, hb, hc, hd⟩ := h1
      exact ⟨ha, hb, hc, ih l2 _ hd h2⟩
    | dec g b =>
      obtain ⟨ha, hb, hc, hd⟩ := h1
      exact ⟨ha, hb, hc, ih l2 _ hd h2⟩

/-- A state satisfying the invariant with all-zero abstract counts has zero
`data` and `counts` arrays and a free list holding every slot. -/
theorem Inv_zero_state {s : SCBF} {rc : Nat → Nat → Nat}
    (hInv : Inv s rc) (hz : ∀ g i, rc g i = 0) :
    (∀ g, s.data g = 0) ∧ (∀ g, s.counts g = 0) ∧
    ∃ fl, Chain s.overflow s.overflowLength s.nextFreeOverflow fl ∧
      ∀ slot, slot % 4 = 0 → slot < s.overflowLength → slot ∈ fl := by
  obtain ⟨hcfg, hgrp, fl, hch, hnd, hal2, hiff, hinj⟩ := hInv
  have hnp : ∀ g, ¬ IsPromoted s g := by
    intro g hp
    have h63 := ((hgrp g).2.2.2.2.2 hp).2.2.2.1
    have h0 : totalOf (rc g) = 0 := by
      rw [totalOf, sumBelow_congr _ 64 (fun i _ => hz g i), sumBelow_zero]
    omega
  refine ⟨?_, ?_, fl, hch, ?_⟩
  · intro g
    rw [(hgrp g).2.2.2.1, maskBelow_congr _ 64 (fun i _ => hz g i), maskBelow_zero]
  · intro g
    have hc := ((hgrp g).2.2.2.2.1 (hnp g)).1
    rw [hc]
    show encAbove (rc g) 0 = 0
    rw [encAbove, encAboveAux_congr _ (64 - 0) (fun i _ => hz g i), encAboveAux_zero]
  · intro slot hs4 hslt
    exact (hiff slot hs4 hslt).mpr (fun g hp => absurd hp (hnp g))

end AddRemove

/-- C4: for every multiset of keys (given as a list `keysA` and a permutation
`keysR` of it), adding every key of `keysA` to a fresh
`SuccinctCountingBloomFilter` and then removing every key of `keysR` — under
the claim's provisos that the add phase keeps every per-position count within
the representable range and the overflow pool is never exhausted — yields a
state whose `data` array is all zeros, whose `counts` array is all zeros, and
whose overflow free list again contains every slot. -/
theorem scbf_add_remove_restores_empty (n b k : Nat) (hasher : Nat → Nat)
    (keysA keysR : List Nat) (hperm : keysA.Perm keysR)
    (hpos : 0 < (SuccinctCountingBloomFilter.new n b).arrayLength)
    (hsize : (SuccinctCountingBloomFilter.new n b).overflowLength ≤ 0x0fffffff)
    (hval : ValidOps (SuccinctCountingBloomFilter.new n b).arrayLength
      (addOpsAll (SuccinctCountingBloomFilter.new n b).arrayLength k hasher keysA))
    (hne : NoExhaust (SuccinctCountingBloomFilter.new n b)
      (addOpsAll (SuccinctCountingBloomFilter.new n b).arrayLength k hasher keysA
        ++ remOpsAll (SuccinctCountingBloomFilter.new n b).arrayLength k hasher keysR)) :
    ∀ t, t = List.foldl (fun u key => SuccinctCountingBloomFilter.Remove u k (hasher key))
        (List.foldl (fun u key => SuccinctCountingBloomFilter.Add u k (hasher key))
          (SuccinctCountingBloomFilter.new n b) keysA) keysR →
      (∀ g, t.data g = 0) ∧ (∀ g, t.counts g = 0) ∧
      ∃ fl, Chain t.overflow t.overflowLength t.nextFreeOverflow fl ∧
        ∀ slot, slot % 4 = 0 → slot < t.overflowLength → slot ∈ fl := by
  intro t ht
  have hIncL := IsIncList_addOpsAll (SuccinctCountingBloomFilter.new n b).arrayLength
    k hasher keysA
  have hcnt : ∀ gq bq,
      countIncAt (addOpsAll (SuccinctCountingBloomFilter.new n b).arrayLength
        k hasher keysA) gq bq
      = countDecAt (remOpsAll (SuccinctCountingBloomFilter.new n b).arrayLength
        k hasher keysR) gq bq :=
    fun gq bq => counts_perm _ k hasher hperm gq bq
  have hdb := DecBounded_remOpsAll hpos k hasher keysR
  have hleDec : ∀ gq bq,
      countDecAt (remOpsAll (SuccinctCountingBloomFilter.new n b).arrayLength
        k hasher keysR) gq bq
      ≤ rcFrom (fun _ _ => 0) (addOpsAll (SuccinctCountingBloomFilter.new n b).arrayLength
        k hasher keysA) gq bq := by
    intro gq bq
    rw [rcFrom_incList _ hIncL _ gq bq, ← hcnt gq bq]
    omega
  obtain ⟨hvR, heqR⟩ := rcFrom_decBounded
    (remOpsAll (SuccinctCountingBloomFilter.new n b).arrayLength k hasher keysR)
    (SuccinctCountingBloomFilter.new n b).arrayLength hdb _ hleDec
  have hvalFull := ValidFrom_compose
    (addOpsAll (SuccinctCountingBloomFilter.new n b).arrayLength k hasher keysA)
    (remOpsAll (SuccinctCountingBloomFilter.new n b).arrayLength k hasher keysR)
    (fun _ _ => 0) hval hvR
  have hInv := runOps_inv
    (addOpsAll (SuccinctCountingBloomFilter.new n b).arrayLength k hasher keysA
      ++ remOpsAll (SuccinctCountingBloomFilter.new n b).arrayLength k hasher keysR)
    (SuccinctCountingBloomFilter.new n b) (fun _ _ => 0)
    (Inv_new n b hsize) hvalFull hne
  have hzero : ∀ gq bq,
      rcFrom (fun _ _ => 0)
        (addOpsAll (SuccinctCountingBloomFilter.new n b).arrayLength k hasher keysA
          ++ remOpsAll (SuccinctCountingBloomFilter.new n b).arrayLength k hasher keysR)
        gq bq = 0 := by
    intro gq bq
    rw [rcFrom_append, heqR gq bq, rcFrom_incList _ hIncL _ gq bq, ← hcnt gq bq]
    omega
  have htr : t = runOps (SuccinctCountingBloomFilter.new n b)
      (addOpsAll (SuccinctCountingBloomFilter.new n b).arrayLength k hasher keysA
        ++ remOpsAll (SuccinctCountingBloomFilter.new n b).arrayLength k hasher keysR) := by
    rw [ht, foldl_Add_eq_runOps, foldl_Remove_eq_runOps, runOps_arrayLength, runOps_append]
  rw [htr]
  exact Inv_zero_state hInv hzero

/-- Witness for C4 at a concrete filter and key multiset. -/
theorem scbf_add_remove_restores_empty_witness :
    ([3, 5].Perm [5, 3]) ∧
    0 < (SuccinctCountingBloomFilter.new 64 1).arrayLength ∧
    (SuccinctCountingBloomFilter.new 64 1).overflowLength ≤ 0x0fffffff ∧
    ValidOps (SuccinctCountingBloomFilter.new 64 1).arrayLength
      (addOpsAll (SuccinctCountingBloomFilter.new 64 1).arrayLength 1 (fun x => x) [3, 5]) ∧
    NoExhaust (SuccinctCountingBloomFilter.new 64 1)
      (addOpsAll (SuccinctCountingBloomFilter.new 64 1).arrayLength 1 (fun x => x) [3, 5]
        ++ remOpsAll (SuccinctCountingBloomFilter.new 64 1).arrayLength 1 (fun x => x)
          [5, 3]) ∧
    ((∀ g, (List.foldl (fun u key => SuccinctCountingBloomFilter.Remove u 1 key)
        (List.foldl (fun u key => SuccinctCountingBloomFilter.Add u 1 key)
          (SuccinctCountingBloomFilter.new 64 1) [3, 5]) [5, 3]).data g = 0) ∧
     (∀ g, (List.foldl (fun u key => SuccinctCountingBloomFilter.Remove u 1 key)
        (List.foldl (fun u key => SuccinctCountingBloomFilter.Add u 1 key)
          (SuccinctCountingBloomFilter.new 64 1) [3, 5]) [5, 3]).counts g = 0) ∧
     ∃ fl, Chain (List.foldl (fun u key => SuccinctCountingBloomFilter.Remove u 1 key)
        (List.foldl (fun u key => SuccinctCountingBloomFilter.Add u 1 key)
          (SuccinctCountingBloomFilter.new 64 1) [3, 5]) [5, 3]).overflow
        (List.foldl (fun u key => SuccinctCountingBloomFilter.Remove u 1 key)
        (List.foldl (fun u key => SuccinctCountingBloomFilter.Add u 1 key)
          (SuccinctCountingBloomFilter.new 64 1) [3, 5]) [5, 3]).overflowLength
        (List.foldl (fun u key => SuccinctCountingBloomFilter.Remove u 1 key)
        (List.foldl (fun u key => SuccinctCountingBloomFilter.Add u 1 key)
          (SuccinctCountingBloomFilter.new 64 1) [3, 5]) [5, 3]).nextFreeOverflow fl ∧
       ∀ slot, slot % 4 = 0 →
         slot < (List.foldl (fun u key => SuccinctCountingBloomFilter.Remove u 1 key)
        (List.foldl (fun u key => SuccinctCountingBloomFilter.Add u 1 key)
          (SuccinctCountingBloomFilter.new 64 1) [3, 5]) [5, 3]).overflowLength →
         slot ∈ fl) :=
  ⟨by decide, by decide, by decide, by decide, by decide,
    scbf_add_remove_restores_empty 64 1 1 (fun x => x) [3, 5] [5, 3]
      (by decide) (by decide) (by decide) (by decide) (by decide) _ rfl⟩

/-! ### Claim C8: 4-bit counters of the plain filter do not saturate -/

theorem add_div_exact {d x y : Nat} (hd : 0 < d) (hx : d ∣ x) :
    (x + y) / d = x / d + y / d := by
  obtain ⟨q, hq⟩ := hx
  subst hq
  rw [Nat.mul_add_div hd, Nat.mul_div_cancel_left q hd]

/-- Adding `1 << 4*j` to a word whose `j`-th nibble is 15 wraps that nibble to
0 and carries 1 into nibble `j+1`; lower nibbles are unchanged. -/
theorem nib_wrap_carry {w j : Nat} (hj : j + 1 < 16)
    (h15 : CountingBloomFilter.nib w j = 15) (hov : w + 2 ^ (4 * j) < U64) :
    add64 w (shl64 1 (4 * j)) = w + 2 ^ (4 * j) ∧
    CountingBloomFilter.nib (w + 2 ^ (4 * j)) j = 0 ∧
    CountingBloomFilter.nib (w + 2 ^ (4 * j)) (j + 1)
      = (CountingBloomFilter.nib w (j + 1) + 1) % 16 ∧
    ∀ jq, jq < j → CountingBloomFilter.nib (w + 2 ^ (4 * j)) jq
      = CountingBloomFilter.nib w jq := by
  have hP : 0 < 2 ^ (4 * j) := pow_pos (by norm_num) _
  have hdiv1 : (w + 2 ^ (4 * j)) / 2 ^ (4 * j) = w / 2 ^ (4 * j) + 1 :=
    Nat.add_div_right w hP
  have h15' : w / 2 ^ (4 * j) % 16 = 15 := h15
  have heq : add64 w (shl64 1 (4 * j)) = w + 2 ^ (4 * j) := by
    rw [shl64_one (show 4 * j < 64 from by omega), add64]
    exact mod_U64_of_lt hov
  have hsplit : 2 ^ (4 * (j + 1)) = 2 ^ (4 * j) * 16 := by
    rw [show 4 * (j + 1) = 4 * j + 4 from by omega, pow_add]
    norm_num
  refine ⟨heq, ?_, ?_, ?_⟩
  · simp only [CountingBloomFilter.nib]
    rw [hdiv1]
    omega
  · simp only [CountingBloomFilter.nib]
    rw [hsplit, ← Nat.div_div_eq_div_mul, ← Nat.div_div_eq_div_mul, hdiv1]
    omega
  · intro jq hlt
    simp only [CountingBloomFilter.nib]
    have hQ : 0 < 2 ^ (4 * jq) := pow_pos (by norm_num) _
    have hdvd : 2 ^ (4 * jq) ∣ 2 ^ (4 * j) := pow_dvd_pow 2 (by omega)
    rw [Nat.add_comm w (2 ^ (4 * j)), add_div_exact hQ hdvd,
      Nat.pow_div (by omega) (by norm_num)]
    have h16 : (16 : Nat) ∣ 2 ^ (4 * j - 4 * jq) := by
      rw [show (16 : Nat) = 2 ^ 4 from by norm_num]
      exact pow_dvd_pow 2 (by omega)
    obtain ⟨c, hc⟩ := h16
    omega

/-- C8 (counterexample): in the plain `CountingBloomFilter`, a probe that
increments a 4-bit counter holding 15 does not leave it at 15: after fifteen
`Add`s of the same key the probed counter reads 15, and a sixteenth `Add` wraps
it to 0 and changes the neighbouring counter from 0 to 1. -/
theorem cbf_counter_saturation_counterexample :
    CountingBloomFilter.nib ((List.foldl (fun t key => CountingBloomFilter.Add t 1 key)
      (CountingBloomFilter.new 1 1) (List.replicate 15 0)).data 0) 0 = 15 ∧
    CountingBloomFilter.nib ((List.foldl (fun t key => CountingBloomFilter.Add t 1 key)
      (CountingBloomFilter.new 1 1) (List.replicate 16 0)).data 0) 0 = 0 ∧
    CountingBloomFilter.nib ((List.foldl (fun t key => CountingBloomFilter.Add t 1 key)
      (CountingBloomFilter.new 1 1) (List.replicate 16 0)).data 0) 1 = 1 := by
  decide

/-- C8 (amended): in the plain `CountingBloomFilter`, an `Add` probe that
increments a 4-bit counter holding 15 wraps that counter to 0 and carries 1
into the next 4-bit counter of the word (mod 16); counters below the
incremented one and all other words are unchanged — there is no saturation. -/
theorem cbf_add_probe_wraps_counter (s : CountingBloomFilter) (hash : Nat) :
    ∀ a idx j, a = (hash >>> 32) % 2 ^ 32 → idx = reduce a s.arrayLength →
      j = a % 16 → j + 1 < 16 →
      CountingBloomFilter.nib (s.data idx) j = 15 →
      s.data idx + 2 ^ (4 * j) < U64 →
      ((∀ i, i ≠ idx → (CountingBloomFilter.Add s 1 hash).data i = s.data i) ∧
       CountingBloomFilter.nib ((CountingBloomFilter.Add s 1 hash).data idx) j = 0 ∧
       CountingBloomFilter.nib ((CountingBloomFilter.Add s 1 hash).data idx) (j + 1)
         = (CountingBloomFilter.nib (s.data idx) (j + 1) + 1) % 16 ∧
       ∀ jq, jq < j →
         CountingBloomFilter.nib ((CountingBloomFilter.Add s 1 hash).data idx) jq
           = CountingBloomFilter.nib (s.data idx) jq) := by
  intro a idx j ha hidx hjdef hj h15 hov
  subst ha
  subst hidx
  subst hjdef
  have hAdd : (CountingBloomFilter.Add s 1 hash).data
      = upd s.data (reduce ((hash >>> 32) % 2 ^ 32) s.arrayLength)
        (add64 (s.data (reduce ((hash >>> 32) % 2 ^ 32) s.arrayLength))
          (shl64 1 ((((hash >>> 32) % 2 ^ 32) <<< 2) &&& 0x3f))) := rfl
  have hshift : ((((hash >>> 32) % 2 ^ 32) <<< 2) &&& 0x3f)
      = 4 * (((hash >>> 32) % 2 ^ 32) % 16) := by
    rw [Nat.shiftLeft_eq, show (0x3f : Nat) = 2 ^ 6 - 1 from rfl, and_two_pow_sub_one]
    omega
  obtain ⟨heq, h0, h1, hlow⟩ := nib_wrap_carry hj h15 hov
  refine ⟨?_, ?_, ?_, ?_⟩
  · intro i hi
    rw [hAdd, upd_other _ _ hi]
  · rw [hAdd, upd_self, hshift, heq]
    exact h0
  · rw [hAdd, upd_self, hshift, heq]
    exact h1
  · intro jq hq
    rw [hAdd, upd_self, hshift, heq]
    exact hlow jq hq

/-- Witness for the amended C8 at a concrete filter whose probed counter
holds 15. -/
theorem cbf_add_probe_wraps_counter_witness :
    ((∀ i, i ≠ 0 → (CountingBloomFilter.Add (List.foldl
        (fun t key => CountingBloomFilter.Add t 1 key)
        (CountingBloomFilter.new 1 1) (List.replicate 15 0)) 1 0).data i
      = (List.foldl (fun t key => CountingBloomFilter.Add t 1 key)
        (CountingBloomFilter.new 1 1) (List.replicate 15 0)).data i) ∧
     CountingBloomFilter.nib ((CountingBloomFilter.Add (List.foldl
        (fun t key => CountingBloomFilter.Add t 1 key)
        (CountingBloomFilter.new 1 1) (List.replicate 15 0)) 1 0).data 0) 0 = 0 ∧
     CountingBloomFilter.nib ((CountingBloomFilter.Add (List.foldl
        (fun t key => CountingBloomFilter.Add t 1 key)
        (CountingBloomFilter.new 1 1) (List.replicate 15 0)) 1 0).data 0) (0 + 1)
       = (CountingBloomFilter.nib ((List.foldl
          (fun t key => CountingBloomFilter.Add t 1 key)
          (CountingBloomFilter.new 1 1) (List.replicate 15 0)).data 0) (0 + 1) + 1) % 16 ∧
     ∀ jq, jq < 0 →
       CountingBloomFilter.nib ((CountingBloomFilter.Add (List.foldl
          (fun t key => CountingBloomFilter.Add t 1 key)
          (CountingBloomFilter.new 1 1) (List.replicate 15 0)) 1 0).data 0) jq
         = CountingBloomFilter.nib ((List.foldl
            (fun t key => CountingBloomFilter.Add t 1 key)
            (CountingBloomFilter.new 1 1) (List.replicate 15 0)).data 0) jq) :=
  cbf_add_probe_wraps_counter (List.foldl (fun t key => CountingBloomFilter.Add t 1 key)
      (CountingBloomFilter.new 1 1) (List.replicate 15 0)) 0 0 0 0
    (by decide) (by decide) (by decide) (by decide) (by decide) (by decide)

/-! ### Claim C5: bulk AddAll versus sequential Add -/

section BulkAdd

theorem applyEntry_arrayLength (t : CountingBloomFilter) (e : Nat) :
    (applyEntry t e).arrayLength = t.arrayLength := rfl

theorem foldl_applyEntry_arrayLength : ∀ (l : List Nat) (t : CountingBloomFilter),
    (List.foldl applyEntry t l).arrayLength = t.arrayLength := by
  intro l
  induction l with
  | nil =>
    intro t
    rfl
  | cons e rest ih =>
    intro t
    rw [List.foldl_cons, ih, applyEntry_arrayLength]

/-- `AddBlock` applies the buffered entries of one block in buffer order. -/
theorem AddBlock_eq (t : CountingBloomFilter) (tmp : Nat → Nat) (block len : Nat) :
    CountingBloomFilter.AddBlock t tmp block len
      = List.foldl applyEntry t ((List.range len).map (fun i => tmp ((block <<< 14) + i))) := by
  rw [CountingBloomFilter.AddBlock, List.foldl_map]
  rfl

/-- Under the 28-bit index bound the packed entry decodes losslessly: applying
it hits the probed word with the probed shift. -/
theorem applyEntry_probeEntry {L : Nat} (hL : L ≤ 2 ^ 28) (t : CountingBloomFilter) (a : Nat) :
    applyEntry t (probeEntry L a)
      = { t with data := upd t.data (reduce a L) (add64 (t.data (reduce a L)) (shl64 1 ((a <<< 2) &&& 0x3f))) } := by
  have hidx : reduce a L < 2 ^ 28 := by
    rcases Nat.eq_zero_or_pos L with h0 | hpos
    · subst h0
      show (a % 2 ^ 32) * (0 % 2 ^ 32) / 2 ^ 32 < 2 ^ 28
      norm_num
    · exact lt_of_lt_of_le (reduce_lt hpos a) hL
  have hm16 : a % 16 < 16 := Nat.mod_lt _ (by norm_num)
  have hpack : probeEntry L a = reduce a L * 16 + a % 16 := by
    rw [probeEntry, Nat.shiftLeft_eq, and_fifteen,
      Nat.mod_eq_of_lt (show reduce a L * 2 ^ 4 + a % 16 < 2 ^ 32 from by omega)]
    norm_num
  have he4 : probeEntry L a >>> 4 = reduce a L := by
    rw [hpack, Nat.shiftRight_eq_div_pow]
    omega
  have hsh : (probeEntry L a <<< 2) &&& 0x3f = (a <<< 2) &&& 0x3f := by
    rw [hpack, Nat.shiftLeft_eq, Nat.shiftLeft_eq,
      show (0x3f : Nat) = 2 ^ 6 - 1 from rfl, and_two_pow_sub_one, and_two_pow_sub_one]
    omega
  show { t with data := upd t.data (probeEntry L a >>> 4) (add64 (t.data (probeEntry L a >>> 4)) (shl64 1 ((probeEntry L a <<< 2) &&& 0x3f))) } = { t with data := upd t.data (reduce a L) (add64 (t.data (reduce a L)) (shl64 1 ((a <<< 2) &&& 0x3f))) }
  rw [he4, hsh]

theorem upd_add64_comm (f : Nat → Nat) (w1 w2 v1 v2 : Nat) :
    upd (upd f w1 (add64 (f w1) v1)) w2 (add64 ((upd f w1 (add64 (f w1) v1)) w2) v2)
      = upd (upd f w2 (add64 (f w2) v2)) w1 (add64 ((upd f w2 (add64 (f w2) v2)) w1) v1) := by
  by_cases h : w1 = w2
  · subst h
    rw [upd_self, upd_self, upd_upd_same, upd_upd_same]
    have key : add64 (add64 (f w1) v1) v2 = add64 (add64 (f w1) v2) v1 := by
      rw [add64, add64, add64, add64, Nat.mod_add_mod, Nat.mod_add_mod,
        Nat.add_right_comm]
    rw [key]
  · have h21 : w2 ≠ w1 := fun hh => h hh.symm
    rw [upd_other _ _ h21, upd_other _ _ h]
    exact upd_comm f _ _ h

/-- Buffered probe effects on the plain filter commute. -/
theorem applyEntry_comm (t : CountingBloomFilter) (e1 e2 : Nat) :
    applyEntry (applyEntry t e1) e2 = applyEntry (applyEntry t e2) e1 := by
  exact congrArg (CountingBloomFilter.mk t.arrayLength)
    (upd_add64_comm t.data (e1 >>> 4) (e2 >>> 4)
      (shl64 1 ((e1 <<< 2) &&& 0x3f)) (shl64 1 ((e2 <<< 2) &&& 0x3f)))

theorem cbf_addLoop_arrayLength : ∀ (c : Nat) (t : CountingBloomFilter) (a b : Nat),
    (CountingBloomFilter.addLoop t a b c).arrayLength = t.arrayLength := by
  intro c
  induction c with
  | zero =>
    intro t a b
    rfl
  | succ c ih =>
    intro t a b
    rw [CountingBloomFilter.addLoop, ih]

/-- The probe loop of the plain `Add` applies its packed entries in order. -/
theorem cbf_addLoop_eq {L : Nat} (hL : L ≤ 2 ^ 28) :
    ∀ (c : Nat) (t : CountingBloomFilter) (a b : Nat), t.arrayLength = L →
      CountingBloomFilter.addLoop t a b c
        = List.foldl applyEntry t (probeEntries L a b c) := by
  intro c
  induction c with
  | zero =>
    intro t a b _
    rfl
  | succ c ih =>
    intro t a b hAL
    rw [CountingBloomFilter.addLoop, probeEntries, List.foldl_cons,
      applyEntry_probeEntry hL t a, hAL]
    exact ih _ _ _ rfl

theorem pendingAll_nil {bs : CountingBloomFilter.AddAllState}
    (h0 : ∀ b, bs.tmpLen b = 0) : ∀ B, pendingAll bs B = [] := by
  intro B
  induction B with
  | zero => rfl
  | succ B ih =>
    rw [pendingAll, ih, pendingIn, h0, List.range_zero, List.map_nil, List.append_nil]

/-- The final flush of `AddAll` applies all pending entries in block order. -/
theorem cbf_flush_fold (bs : CountingBloomFilter.AddAllState) :
    ∀ (B : Nat) (t : CountingBloomFilter),
      (List.range B).foldl
        (fun u block => CountingBloomFilter.AddBlock u bs.tmp block (bs.tmpLen block)) t
        = List.foldl applyEntry t (pendingAll bs B) := by
  intro B
  induction B with
  | zero =>
    intro t
    rfl
  | succ B ih =>
    intro t
    rw [List.range_succ, List.foldl_append, List.foldl_cons, List.foldl_nil, ih,
      AddBlock_eq, pendingAll, List.foldl_append]
    simp only [pendingIn]

theorem map_range_congr {α : Type} (f g : Nat → α) :
    ∀ (n : Nat), (∀ i, i < n → f i = g i) →
      (List.range n).map f = (List.range n).map g := by
  intro n
  induction n with
  | zero =>
    intro _
    rfl
  | succ n ih =>
    intro h
    rw [List.range_succ, List.map_append, List.map_append,
      ih (fun i hi => h i (by omega))]
    simp [h n (by omega)]

theorem block_addr_ne {b block i len : Nat} (hb : b ≠ block) (hi : i < 2 ^ 14)
    (hl : len < 2 ^ 14) : (b <<< 14) + i ≠ (block <<< 14) + len := by
  rw [Nat.shiftLeft_eq, Nat.shiftLeft_eq]
  intro h
  exact hb (by omega)

/-- Appending one entry to a block's buffer permutes the pending multiset by
appending that entry. -/
theorem pendingAll_insert {bs bsq : CountingBloomFilter.AddAllState} {block e : Nat}
    (hblk : pendingIn bsq block = pendingIn bs block ++ [e])
    (hoth : ∀ b, b ≠ block → pendingIn bsq b = pendingIn bs b) :
    ∀ B, List.Perm (pendingAll bsq B)
      (pendingAll bs B ++ (if block < B then [e] else [])) := by
  intro B
  induction B with
  | zero =>
    rw [pendingAll, pendingAll, if_neg (by omega)]
    exact List.Perm.refl _
  | succ B ih =>
    rw [pendingAll, pendingAll]
    by_cases hB : B = block
    · have hblkq : pendingIn bsq B = pendingIn bs B ++ [e] := by
        rw [hB]
        exact hblk
      rw [if_neg (show ¬ block < B from by omega)] at ih
      rw [if_pos (show block < B + 1 from by omega), hblkq]
      refine List.perm_iff_count.mpr ?_
      intro x
      have h1 := List.Perm.count_eq ih x
      simp only [List.count_append, List.count_nil] at h1 ⊢
      omega
    · have hblkq : pendingIn bsq B = pendingIn bs B := hoth B hB
      rw [hblkq]
      by_cases hlt : block < B
      · rw [if_pos hlt] at ih
        rw [if_pos (show block < B + 1 from by omega)]
        refine List.perm_iff_count.mpr ?_
        intro x
        have h1 := List.Perm.count_eq ih x
        simp only [List.count_append] at h1 ⊢
        omega
      · rw [if_neg hlt] at ih
        rw [if_neg (show ¬ block < B + 1 from by omega)]
        refine List.perm_iff_count.mpr ?_
        intro x
        have h1 := List.Perm.count_eq ih x
        simp only [List.count_append, List.count_nil] at h1 ⊢
        omega

/-- Emptying one block's buffer extracts exactly its pending entries from the
pending multiset. -/
theorem pendingAll_extract {bs bsq : CountingBloomFilter.AddAllState} {block : Nat}
    (hblk : pendingIn bsq block = [])
    (hoth : ∀ b, b ≠ block → pendingIn bsq b = pendingIn bs b) :
    ∀ B, List.Perm ((if block < B then pendingIn bs block else []) ++ pendingAll bsq B)
      (pendingAll bs B) := by
  intro B
  induction B with
  | zero =>
    rw [pendingAll, pendingAll, if_neg (by omega)]
    exact List.Perm.refl _
  | succ B ih =>
    rw [pendingAll, pendingAll]
    by_cases hB : B = block
    · have hblkq : pendingIn bsq B = [] := by
        rw [hB]
        exact hblk
      have hpb : pendingIn bs B = pendingIn bs block := by
        rw [hB]
      rw [if_neg (show ¬ block < B from by omega)] at ih
      rw [if_pos (show block < B + 1 from by omega), hblkq, hpb]
      refine List.perm_iff_count.mpr ?_
      intro x
      have h1 := List.Perm.count_eq ih x
      simp only [List.count_append, List.count_nil] at h1 ⊢
      omega
    · have hblkq : pendingIn bsq B = pendingIn bs B := hoth B hB
      rw [hblkq]
      by_cases hlt : block < B
      · rw [if_pos hlt] at ih
        rw [if_pos (show block < B + 1 from by omega)]
        refine List.perm_iff_count.mpr ?_
        intro x
        have h1 := List.Perm.count_eq ih x
        simp only [List.count_append] at h1 ⊢
        omega
      · rw [if_neg hlt] at ih
        rw [if_neg (show ¬ block < B + 1 from by omega)]
        refine List.perm_iff_count.mpr ?_
        intro x
        have h1 := List.Perm.count_eq ih x
        simp only [List.count_append, List.count_nil] at h1 ⊢
        omega

/-- One buffered probe of the plain `AddAll`: buffers stay below the block
size, the filter absorbs exactly the flushed entries, and the multiset of
flushed-plus-pending entries grows by the probe's packed entry. -/
theorem addAllProbe_spec {L blocks : Nat} (hblocks : blocks = 1 + L / 2 ^ 14)
    (bs : CountingBloomFilter.AddAllState) (a : Nat)
    (hTL : ∀ b, bs.tmpLen b < 2 ^ 14)
    (hAL : bs.filt.arrayLength = L) :
    (∀ b, (CountingBloomFilter.addAllProbe bs a).tmpLen b < 2 ^ 14) ∧
    (CountingBloomFilter.addAllProbe bs a).filt.arrayLength = L ∧
    ∃ fl, (CountingBloomFilter.addAllProbe bs a).filt = List.foldl applyEntry bs.filt fl ∧
      List.Perm (fl ++ pendingAll (CountingBloomFilter.addAllProbe bs a) blocks)
        (pendingAll bs blocks ++ [probeEntry L a]) := by
  have hidxle : reduce a L ≤ L := by
    rcases Nat.eq_zero_or_pos L with h0 | hpos
    · subst h0
      show (a % 2 ^ 32) * (0 % 2 ^ 32) / 2 ^ 32 ≤ 0
      norm_num
    · exact le_of_lt (reduce_lt hpos a)
  have hblk_lt : reduce a L >>> 14 < blocks := by
    rw [Nat.shiftRight_eq_div_pow, hblocks]
    omega
  have hlen14 : bs.tmpLen (reduce a L >>> 14) < 2 ^ 14 := hTL _
  by_cases hflush : bs.tmpLen (reduce a L >>> 14) + 1 = 2 ^ 14
  · have hres : CountingBloomFilter.addAllProbe bs a = { tmp := upd bs.tmp (((reduce a L >>> 14) <<< 14) + bs.tmpLen (reduce a L >>> 14)) (probeEntry L a), tmpLen := upd bs.tmpLen (reduce a L >>> 14) 0, filt := CountingBloomFilter.AddBlock bs.filt (upd bs.tmp (((reduce a L >>> 14) <<< 14) + bs.tmpLen (reduce a L >>> 14)) (probeEntry L a)) (reduce a L >>> 14) (bs.tmpLen (reduce a L >>> 14) + 1) } := by
      simp only [CountingBloomFilter.addAllProbe, hAL, probeEntry]
      rw [if_pos hflush]
    have hmap : (List.range (bs.tmpLen (reduce a L >>> 14) + 1)).map
        (fun i => (upd bs.tmp (((reduce a L >>> 14) <<< 14) + bs.tmpLen (reduce a L >>> 14)) (probeEntry L a)) (((reduce a L >>> 14) <<< 14) + i))
        = pendingIn bs (reduce a L >>> 14) ++ [probeEntry L a] := by
      show _ = (List.range (bs.tmpLen (reduce a L >>> 14))).map (fun i => bs.tmp (((reduce a L >>> 14) <<< 14) + i)) ++ [probeEntry L a]
      rw [List.range_succ, List.map_append, List.map_cons, List.map_nil, upd_self]
      congr 1
      refine map_range_congr _ _ _ ?_
      intro i hi
      exact upd_other _ _ (show ((reduce a L >>> 14) <<< 14) + i ≠ ((reduce a L >>> 14) <<< 14) + bs.tmpLen (reduce a L >>> 14) from by omega)
    have hpin0 : pendingIn (CountingBloomFilter.addAllProbe bs a) (reduce a L >>> 14) = [] := by
      rw [hres]
      show (List.range (upd bs.tmpLen (reduce a L >>> 14) 0 (reduce a L >>> 14))).map (fun i => (upd bs.tmp (((reduce a L >>> 14) <<< 14) + bs.tmpLen (reduce a L >>> 14)) (probeEntry L a)) (((reduce a L >>> 14) <<< 14) + i)) = []
      rw [upd_self, List.range_zero, List.map_nil]
    have hpoth : ∀ b, b ≠ reduce a L >>> 14 →
        pendingIn (CountingBloomFilter.addAllProbe bs a) b = pendingIn bs b := by
      intro b hb
      rw [hres]
      show (List.range (upd bs.tmpLen (reduce a L >>> 14) 0 b)).map (fun i => (upd bs.tmp (((reduce a L >>> 14) <<< 14) + bs.tmpLen (reduce a L >>> 14)) (probeEntry L a)) ((b <<< 14) + i)) = (List.range (bs.tmpLen b)).map (fun i => bs.tmp ((b <<< 14) + i))
      rw [upd_other _ _ hb]
      refine map_range_congr _ _ _ ?_
      intro i hi
      exact upd_other _ _ (block_addr_ne hb (Nat.lt_trans hi (hTL b)) hlen14)
    refine ⟨?_, ?_, pendingIn bs (reduce a L >>> 14) ++ [probeEntry L a], ?_, ?_⟩
    · intro b
      rw [hres]
      show upd bs.tmpLen (reduce a L >>> 14) 0 b < 2 ^ 14
      by_cases hb : b = reduce a L >>> 14
      · rw [hb, upd_self]
        norm_num
      · rw [upd_other _ _ hb]
        exact hTL b
    · rw [hres]
      show (CountingBloomFilter.AddBlock bs.filt (upd bs.tmp (((reduce a L >>> 14) <<< 14) + bs.tmpLen (reduce a L >>> 14)) (probeEntry L a)) (reduce a L >>> 14) (bs.tmpLen (reduce a L >>> 14) + 1)).arrayLength = L
      rw [AddBlock_eq, foldl_applyEntry_arrayLength, hAL]
    · rw [hres]
      show CountingBloomFilter.AddBlock bs.filt (upd bs.tmp (((reduce a L >>> 14) <<< 14) + bs.tmpLen (reduce a L >>> 14)) (probeEntry L a)) (reduce a L >>> 14) (bs.tmpLen (reduce a L >>> 14) + 1) = List.foldl applyEntry bs.filt (pendingIn bs (reduce a L >>> 14) ++ [probeEntry L a])
      rw [AddBlock_eq, hmap]
    · have hext := pendingAll_extract hpin0 hpoth blocks
      rw [if_pos hblk_lt] at hext
      refine List.perm_iff_count.mpr ?_
      intro x
      have h1 := List.Perm.count_eq hext x
      simp only [List.count_append] at h1 ⊢
      omega
  · have hres : CountingBloomFilter.addAllProbe bs a = { tmp := upd bs.tmp (((reduce a L >>> 14) <<< 14) + bs.tmpLen (reduce a L >>> 14)) (probeEntry L a), tmpLen := upd bs.tmpLen (reduce a L >>> 14) (bs.tmpLen (reduce a L >>> 14) + 1), filt := bs.filt } := by
      simp only [CountingBloomFilter.addAllProbe, hAL, probeEntry]
      rw [if_neg hflush]
    have hpinb : pendingIn (CountingBloomFilter.addAllProbe bs a) (reduce a L >>> 14)
        = pendingIn bs (reduce a L >>> 14) ++ [probeEntry L a] := by
      rw [hres]
      show (List.range (upd bs.tmpLen (reduce a L >>> 14) (bs.tmpLen (reduce a L >>> 14) + 1) (reduce a L >>> 14))).map (fun i => (upd bs.tmp (((reduce a L >>> 14) <<< 14) + bs.tmpLen (reduce a L >>> 14)) (probeEntry L a)) (((reduce a L >>> 14) <<< 14) + i)) = (List.range (bs.tmpLen (reduce a L >>> 14))).map (fun i => bs.tmp (((reduce a L >>> 14) <<< 14) + i)) ++ [probeEntry L a]
      rw [upd_self, List.range_succ, List.map_append, List.map_cons, List.map_nil, upd_self]
      congr 1
      refine map_range_congr _ _ _ ?_
      intro i hi
      exact upd_other _ _ (show ((reduce a L >>> 14) <<< 14) + i ≠ ((reduce a L >>> 14) <<< 14) + bs.tmpLen (reduce a L >>> 14) from by omega)
    have hpoth : ∀ b, b ≠ reduce a L >>> 14 →
        pendingIn (CountingBloomFilter.addAllProbe bs a) b = pendingIn bs b := by
      intro b hb
      rw [hres]
      show (List.range (upd bs.tmpLen (reduce a L >>> 14) (bs.tmpLen (reduce a L >>> 14) + 1) b)).map (fun i => (upd bs.tmp (((reduce a L >>> 14) <<< 14) + bs.tmpLen (reduce a L >>> 14)) (probeEntry L a)) ((b <<< 14) + i)) = (List.range (bs.tmpLen b)).map (fun i => bs.tmp ((b <<< 14) + i))
      rw [upd_other _ _ hb]
      refine map_range_congr _ _ _ ?_
      intro i hi
      exact upd_other _ _ (block_addr_ne hb (Nat.lt_trans hi (hTL b)) hlen14)
    refine ⟨?_, ?_, [], ?_, ?_⟩
    · intro b
      rw [hres]
      show upd bs.tmpLen (reduce a L >>> 14) (bs.tmpLen (reduce a L >>> 14) + 1) b < 2 ^ 14
      by_cases hb : b = reduce a L >>> 14
      · rw [hb, upd_self]
        omega
      · rw [upd_other _ _ hb]
        exact hTL b
    · rw [hres]
      exact hAL
    · rw [hres]
      rfl
    · have hins := pendingAll_insert hpinb hpoth blocks
      rw [if_pos hblk_lt] at hins
      refine List.perm_iff_count.mpr ?_
      intro x
      have h1 := List.Perm.count_eq hins x
      simp only [List.count_append, List.count_nil] at h1 ⊢
      omega

/-- The `k` probes of one key inside the plain `AddAll`. -/
theorem addAllKey_spec {L blocks : Nat} (hblocks : blocks = 1 + L / 2 ^ 14) :
    ∀ (c : Nat) (bs : CountingBloomFilter.AddAllState) (a b : Nat),
      (∀ bq, bs.tmpLen bq < 2 ^ 14) → bs.filt.arrayLength = L →
      (∀ bq, (CountingBloomFilter.addAllKey bs a b c).tmpLen bq < 2 ^ 14) ∧
      (CountingBloomFilter.addAllKey bs a b c).filt.arrayLength = L ∧
      ∃ fl, (CountingBloomFilter.addAllKey bs a b c).filt
          = List.foldl applyEntry bs.filt fl ∧
        List.Perm (fl ++ pendingAll (CountingBloomFilter.addAllKey bs a b c) blocks)
          (pendingAll bs blocks ++ probeEntries L a b c) := by
  intro c
  induction c with
  | zero =>
    intro bs a b hTL hAL
    refine ⟨hTL, hAL, [], rfl, ?_⟩
    show List.Perm (([] : List Nat) ++ pendingAll bs blocks)
      (pendingAll bs blocks ++ probeEntries L a b 0)
    show List.Perm (([] : List Nat) ++ pendingAll bs blocks) (pendingAll bs blocks ++ [])
    simp
  | succ c ih =>
    intro bs a b hTL hAL
    obtain ⟨hTL1, hAL1, fl1, hfl1, hperm1⟩ := addAllProbe_spec hblocks bs a hTL hAL
    obtain ⟨hTL2, hAL2, fl2, hfl2, hperm2⟩ :=
      ih (CountingBloomFilter.addAllProbe bs a) ((a + b) % 2 ^ 32) b hTL1 hAL1
    rw [CountingBloomFilter.addAllKey]
    refine ⟨hTL2, hAL2, fl1 ++ fl2, ?_, ?_⟩
    · rw [hfl2, hfl1, List.foldl_append]
    · rw [probeEntries]
      refine List.perm_iff_count.mpr ?_
      intro x
      have h1 := List.Perm.count_eq hperm1 x
      have h2 := List.Perm.count_eq hperm2 x
      simp only [List.count_append, List.count_cons, List.count_nil] at h1 h2 ⊢
      omega

/-- The key loop of the plain `AddAll`, over `c` keys from index `start`. -/
theorem addAllKeys_spec {L blocks : Nat} (hblocks : blocks = 1 + L / 2 ^ 14)
    (kk : Nat) (hasher : Nat → Nat) (keys : List Nat) :
    ∀ (c start : Nat) (bs : CountingBloomFilter.AddAllState),
      (∀ bq, bs.tmpLen bq < 2 ^ 14) → bs.filt.arrayLength = L →
      (∀ bq, ((List.range' start c).foldl (fun u i => CountingBloomFilter.addAllKey u ((hasher (keys.getD i 0) >>> 32) % 2 ^ 32) (hasher (keys.getD i 0) % 2 ^ 32) kk) bs).tmpLen bq < 2 ^ 14) ∧
      ((List.range' start c).foldl (fun u i => CountingBloomFilter.addAllKey u ((hasher (keys.getD i 0) >>> 32) % 2 ^ 32) (hasher (keys.getD i 0) % 2 ^ 32) kk) bs).filt.arrayLength = L ∧
      ∃ fl, ((List.range' start c).foldl (fun u i => CountingBloomFilter.addAllKey u ((hasher (keys.getD i 0) >>> 32) % 2 ^ 32) (hasher (keys.getD i 0) % 2 ^ 32) kk) bs).filt
          = List.foldl applyEntry bs.filt fl ∧
        List.Perm (fl ++ pendingAll ((List.range' start c).foldl (fun u i => CountingBloomFilter.addAllKey u ((hasher (keys.getD i 0) >>> 32) % 2 ^ 32) (hasher (keys.getD i 0) % 2 ^ 32) kk) bs) blocks)
          (pendingAll bs blocks ++ seqEntries L kk hasher keys start c) := by
  intro c
  induction c with
  | zero =>
    intro start bs hTL hAL
    refine ⟨hTL, hAL, [], rfl, ?_⟩
    show List.Perm (([] : List Nat) ++ pendingAll bs blocks) (pendingAll bs blocks ++ [])
    simp
  | succ c ih =>
    intro start bs hTL hAL
    rw [List.range'_succ, List.foldl_cons]
    obtain ⟨hTL1, hAL1, fl1, hfl1, hperm1⟩ := addAllKey_spec hblocks kk bs
      ((hasher (keys.getD start 0) >>> 32) % 2 ^ 32) (hasher (keys.getD start 0) % 2 ^ 32)
      hTL hAL
    obtain ⟨hTL2, hAL2, fl2, hfl2, hperm2⟩ := ih (start + 1)
      (CountingBloomFilter.addAllKey bs ((hasher (keys.getD start 0) >>> 32) % 2 ^ 32)
        (hasher (keys.getD start 0) % 2 ^ 32) kk) hTL1 hAL1
    refine ⟨hTL2, hAL2, fl1 ++ fl2, ?_, ?_⟩
    · rw [hfl2, hfl1, List.foldl_append]
    · rw [seqEntries]
      refine List.perm_iff_count.mpr ?_
      intro x
      have h1 := List.Perm.count_eq hperm1 x
      have h2 := List.Perm.count_eq hperm2 x
      simp only [List.count_append, List.count_cons, List.count_nil] at h1 h2 ⊢
      omega

/-- The sequential path applies the packed entries in probe order. -/
theorem cbf_AddSeq_eq (s : CountingBloomFilter) (kk : Nat) (hasher : Nat → Nat)
    (keys : List Nat) (start stop : Nat) (hlen : s.arrayLength ≤ 2 ^ 28) :
    CountingBloomFilter.AddSeq s kk hasher keys start stop
      = List.foldl applyEntry s
          (seqEntries s.arrayLength kk hasher keys start (stop - start)) := by
  suffices h : ∀ (c st : Nat) (t : CountingBloomFilter), t.arrayLength = s.arrayLength →
      (List.range' st c).foldl
          (fun u i => CountingBloomFilter.Add u kk (hasher (keys.getD i 0))) t
        = List.foldl applyEntry t (seqEntries s.arrayLength kk hasher keys st c) by
    exact h (stop - start) start s rfl
  intro c
  induction c with
  | zero =>
    intro st t _
    rfl
  | succ c ihc =>
    intro st t hAL
    rw [List.range'_succ, List.foldl_cons, seqEntries, List.foldl_append]
    have hAdd : CountingBloomFilter.Add t kk (hasher (keys.getD st 0))
        = List.foldl applyEntry t (probeEntries s.arrayLength
            ((hasher (keys.getD st 0) >>> 32) % 2 ^ 32)
            (hasher (keys.getD st 0) % 2 ^ 32) kk) := by
      show CountingBloomFilter.addLoop t ((hasher (keys.getD st 0) >>> 32) % 2 ^ 32)
        (hasher (keys.getD st 0) % 2 ^ 32) kk = _
      exact cbf_addLoop_eq hlen kk t _ _ hAL
    rw [hAdd]
    refine ihc (st + 1) _ ?_
    rw [foldl_applyEntry_arrayLength, hAL]

end BulkAdd

/-- C5 (counterexample): for the `SuccinctCountingBloomFilter` the bulk
`AddAll` path is not byte-identical to sequential insertion: on a 16385-group
filter whose keys force two groups to convert to overflow entries in opposite
orders, the two paths assign different overflow slots, so `counts[0]`
differs. -/
theorem scbf_addall_differs_counterexample :
    (SuccinctCountingBloomFilter.AddSeq (SuccinctCountingBloomFilter.new 1 1048640) 1
        (fun x => x) (List.replicate 64 (4294705168 * 2 ^ 32) ++ List.replicate 64 0)
        0 128).counts 0
      ≠ (SuccinctCountingBloomFilter.AddAll (SuccinctCountingBloomFilter.new 1 1048640) 1
        (fun x => x) (List.replicate 64 (4294705168 * 2 ^ 32) ++ List.replicate 64 0)
        0 128).counts 0 := by
  decide

/-- C5 (amended): for the plain `CountingBloomFilter` with an array of at most
`2^28` words (so buffered entries pack losslessly), `AddAll(keys, start, stop)`
produces a filter byte-identical to sequential `Add` of `keys[start..stop)`;
for the succinct filter the bulk path can differ (see the counterexample). -/
theorem cbf_addall_matches_sequential_add (s : CountingBloomFilter) (kk : Nat)
    (hasher : Nat → Nat) (keys : List Nat) (start stop : Nat)
    (hlen : s.arrayLength ≤ 2 ^ 28) :
    CountingBloomFilter.AddAll s kk hasher keys start stop
      = CountingBloomFilter.AddSeq s kk hasher keys start stop := by
  obtain ⟨hTL1, hAL1, fl, hfl, hperm⟩ := addAllKeys_spec (L := s.arrayLength) rfl kk hasher
    keys (stop - start) start { tmp := fun _ => 0, tmpLen := fun _ => 0, filt := s }
    (fun bq => by norm_num) rfl
  have hnil : pendingAll { tmp := fun _ => 0, tmpLen := fun _ => 0, filt := s } (1 + s.arrayLength / 2 ^ 14) = [] :=
    pendingAll_nil (fun b => rfl) _
  rw [hnil, List.nil_append] at hperm
  have hbs0 : ({ tmp := fun _ => 0, tmpLen := fun _ => 0, filt := s } : CountingBloomFilter.AddAllState).filt = s := rfl
  rw [hbs0] at hfl
  have hAA : CountingBloomFilter.AddAll s kk hasher keys start stop
      = List.foldl applyEntry s (fl ++ pendingAll ((List.range' start (stop - start)).foldl (fun u i => CountingBloomFilter.addAllKey u ((hasher (keys.getD i 0) >>> 32) % 2 ^ 32) (hasher (keys.getD i 0) % 2 ^ 32) kk) { tmp := fun _ => 0, tmpLen := fun _ => 0, filt := s }) (1 + s.arrayLength / 2 ^ 14)) := by
    show (List.range (1 + s.arrayLength / 2 ^ 14)).foldl (fun t block => CountingBloomFilter.AddBlock t ((List.range' start (stop - start)).foldl (fun u i => CountingBloomFilter.addAllKey u ((hasher (keys.getD i 0) >>> 32) % 2 ^ 32) (hasher (keys.getD i 0) % 2 ^ 32) kk) { tmp := fun _ => 0, tmpLen := fun _ => 0, filt := s }).tmp block (((List.range' start (stop - start)).foldl (fun u i => CountingBloomFilter.addAllKey u ((hasher (keys.getD i 0) >>> 32) % 2 ^ 32) (hasher (keys.getD i 0) % 2 ^ 32) kk) { tmp := fun _ => 0, tmpLen := fun _ => 0, filt := s }).tmpLen block)) ((List.range' start (stop - start)).foldl (fun u i => CountingBloomFilter.addAllKey u ((hasher (keys.getD i 0) >>> 32) % 2 ^ 32) (hasher (keys.getD i 0) % 2 ^ 32) kk) { tmp := fun _ => 0, tmpLen := fun _ => 0, filt := s }).filt = _
    rw [cbf_flush_fold, hfl, ← List.foldl_append]
  rw [hAA, cbf_AddSeq_eq s kk hasher keys start stop hlen]
  exact List.Perm.foldl_eq' hperm (fun x _ y _ z => applyEntry_comm z x y) s

/-- Witness for the amended C5 at a concrete plain filter and key list. -/
theorem cbf_addall_matches_sequential_add_witness :
    (CountingBloomFilter.new 8 1).arrayLength ≤ 2 ^ 28 ∧
    CountingBloomFilter.AddAll (CountingBloomFilter.new 8 1) 1 (fun x => x)
        [2 ^ 32, 3 * 2 ^ 32] 0 2
      = CountingBloomFilter.AddSeq (CountingBloomFilter.new 8 1) 1 (fun x => x)
        [2 ^ 32, 3 * 2 ^ 32] 0 2 :=
  ⟨by decide,
    cbf_addall_matches_sequential_add (CountingBloomFilter.new 8 1) 1 (fun x => x)
      [2 ^ 32, 3 * 2 ^ 32] 0 2 (by decide)⟩

/-! ### Claim C6: Add then Contain returns Ok -/

section AddContain

/-- The conversion loop only writes overflow words; `data` is untouched. -/
theorem convert_fold_data {g idx : Nat} : ∀ (l : List Nat) (t : SCBF),
    (List.foldl (fun t i => { t with overflow := upd t.overflow (idx + i / 16) (add64 (t.overflow (idx + i / 16)) (mul64 (SuccinctCountingBloomFilter.ReadCount t g i) (shl64 1 (i * 4)))) }) t l).data = t.data := by
  intro l
  induction l with
  | nil =>
    intro t
    rfl
  | cons a rest ih =>
    intro t
    rw [List.foldl_cons, ih]

/-- In every branch — inline, promoted, conversion, and pool exhaustion —
`Increment` ors the presence bit into `data[group]` and changes no other
`data` word. -/
theorem Increment_data (s : SCBF) (g bit : Nat) :
    (SuccinctCountingBloomFilter.Increment s g bit).data
      = upd s.data g (s.data g ||| shl64 1 bit) := by
  simp only [SuccinctCountingBloomFilter.Increment]
  split
  · split
    · split
      · rfl
      · dsimp only
        rw [convert_fold_data]
    · rfl
  · rfl

theorem addLoop_arrayLength (t : SCBF) (a b k : Nat) :
    (SuccinctCountingBloomFilter.addLoop t a b k).arrayLength = t.arrayLength := by
  rw [addLoop_eq_runOps, runOps_arrayLength]

/-- A presence bit, once set, survives any further probes of the add loop. -/
theorem addLoop_testBit : ∀ (k : Nat) (t : SCBF) (a b g bit : Nat),
    (t.data g).testBit bit = true →
    ((SuccinctCountingBloomFilter.addLoop t a b k).data g).testBit bit = true := by
  intro k
  induction k with
  | zero =>
    intro t a b g bit h
    exact h
  | succ k ih =>
    intro t a b g bit h
    rw [SuccinctCountingBloomFilter.addLoop]
    refine ih _ _ _ _ _ ?_
    rw [Increment_data]
    by_cases hg : g = reduce a t.arrayLength
    · rw [hg] at h ⊢
      rw [upd_self]
      simp [Nat.testBit_or, h]
    · rw [upd_other _ _ hg]
      exact h

/-- Reading a presence bit through the 64-bit shift is the bit test. -/
theorem shr64_and_one (m bit : Nat) (hbit : bit < 64) :
    shr64 m bit &&& 1 = if m.testBit bit then 1 else 0 := by
  have ht : (m % U64).testBit bit = m.testBit bit := by
    show (m % 2 ^ 64).testBit bit = m.testBit bit
    rw [Nat.testBit_mod_two_pow]
    simp [hbit]
  show ((m % U64) >>> (bit % 64)) &&& 1 = _
  rw [Nat.mod_eq_of_lt hbit, Nat.and_one_is_mod, Nat.shiftRight_eq_div_pow]
  rw [Nat.testBit_to_div_mod] at ht
  by_cases hb : m.testBit bit = true
  · rw [hb] at ht
    rw [if_pos hb]
    exact of_decide_eq_true ht
  · have hb' : m.testBit bit = false := by
      cases hq : m.testBit bit
      · rfl
      · exact absurd hq hb
    rw [hb'] at ht
    rw [if_neg (by rw [hb']; exact Bool.false_ne_true)]
    have := of_decide_eq_false ht
    omega

/-- After the `k` probes of the add loop, the contain loop over the same probe
sequence finds every presence bit set. -/
theorem contain_addLoop : ∀ (k : Nat) (s : SCBF) (a b : Nat),
    SuccinctCountingBloomFilter.containLoop
      (SuccinctCountingBloomFilter.addLoop s a b k) a b k = Status.Ok := by
  intro k
  induction k with
  | zero =>
    intro s a b
    rfl
  | succ k ih =>
    intro s a b
    rw [SuccinctCountingBloomFilter.addLoop, SuccinctCountingBloomFilter.containLoop]
    have hlen : (SuccinctCountingBloomFilter.addLoop
        (SuccinctCountingBloomFilter.Increment s (reduce a s.arrayLength) (a &&& 63))
        ((a + b) % 2 ^ 32) b k).arrayLength = s.arrayLength := by
      rw [addLoop_arrayLength, Increment_arrayLength]
    rw [hlen]
    have hset : ((SuccinctCountingBloomFilter.addLoop
        (SuccinctCountingBloomFilter.Increment s (reduce a s.arrayLength) (a &&& 63))
        ((a + b) % 2 ^ 32) b k).data (reduce a s.arrayLength)).testBit (a &&& 63)
        = true := by
      refine addLoop_testBit k _ _ _ _ _ ?_
      rw [Increment_data, upd_self, shl64_one (and63_lt a)]
      simp [Nat.testBit_or, Nat.testBit_two_pow_self]
    rw [shr64_and_one _ _ (and63_lt a), if_pos hset,
      if_neg (show ¬ (1 : Nat) = 0 from by norm_num)]
    exact ih _ _ _

end AddContain

/-- C6: for every state of the `SuccinctCountingBloomFilter` — including
states whose overflow pool is exhausted, where `Increment` still sets the
presence bit — and every key (given by its probe count `k` and its hash
value), `Add` followed by `Contain` of the same key returns `Ok`. -/
theorem scbf_add_then_contain_ok (s : SCBF) (k hash : Nat) :
    SuccinctCountingBloomFilter.Contain (SuccinctCountingBloomFilter.Add s k hash) k hash
      = Status.Ok := by
  simp only [SuccinctCountingBloomFilter.Contain, SuccinctCountingBloomFilter.Add]
  exact contain_addLoop k s _ _

/-! ### Claim C7: promotion and demotion total-count bounds -/

/-- C7: at any state satisfying the reachability invariant (`Inv s rc` holds at
every state reached from a fresh filter by a valid, non-exhausting run): when an
`Increment` first promotes a group, the promoted header's total count is at
least 64 (it is exactly 64); and a promoted group is demoted back to inline
form by a `Decrement` only when its header total count after the decrement is
below 64. -/
theorem scbf_promotion_total_bounds (s : SCBF) (rc : Nat → Nat → Nat) (g bit : Nat)
    (hInv : Inv s rc) (hbit : bit < 64) :
    ((rc g bit ≤ 14 → ¬ IsPromoted s g →
        IsPromoted (SuccinctCountingBloomFilter.Increment s g bit) g →
        64 ≤ headerTotal (SuccinctCountingBloomFilter.Increment s g bit) g) ∧
     (1 ≤ rc g bit → IsPromoted s g →
        ¬ IsPromoted (SuccinctCountingBloomFilter.Decrement s g bit) g →
        headerTotal s g - 1 < 64)) := by
  constructor
  · intro h14 hnp hprom
    have h5' := (hInv.2.1 g).2.2.2.2.1 hnp
    by_cases hT : totalOf (rc g) ≤ 62
    · exfalso
      rw [Increment_inline_spec hInv hbit hT] at hprom
      refine hprom ?_
      show upd s.counts g (encAbove (bump1 (rc g) bit) 0) g &&& 0x8000000000000000 = 0
      rw [upd_self]
      refine encode_not_promoted ?_
      rw [totalOf_bump (rc g) hbit]
      omega
    · have hT63 : totalOf (rc g) = 63 := by
        have := h5'.2
        omega
      by_cases hfree : s.nextFreeOverflow < s.overflowLength
      · have hnf28 : s.nextFreeOverflow < 2 ^ 28 := by
          have := hInv.1.2
          omega
        have hc : (SuccinctCountingBloomFilter.Increment s g bit).counts g
            = 2 ^ 63 + 64 * 2 ^ 32 + s.nextFreeOverflow := by
          rw [Increment_convert_spec hInv hbit h14 hnp hT63 hfree]
          exact upd_self _ _ _
        simp only [headerTotal, hc]
        rw [header_count (by norm_num) hnf28]
      · exfalso
        have hcc := h5'.1
        rw [encode] at hcc
        have hcond : s.counts g &&& 0xc000000000000000 ≠ 0 := by
          intro h
          rw [hcc, inline_branch_iff (by omega)] at h
          omega
        have hnp0 : s.counts g &&& 0x8000000000000000 = 0 := by
          rw [hcc]
          exact encode_not_promoted (by omega)
        have hex : SuccinctCountingBloomFilter.Increment s g bit
            = { s with data := upd s.data g (s.data g ||| shl64 1 bit) } := by
          simp only [SuccinctCountingBloomFilter.Increment]
          rw [if_pos hcond, if_pos hnp0,
            if_pos (show s.overflowLength ≤ s.nextFreeOverflow from by omega)]
        rw [hex] at hprom
        exact hprom hnp0
  · intro hpos hp hnp'
    have hfacts := (hInv.2.1 g).2.2.2.2.2 hp
    have h3 := (hInv.2.1 g).2.2.1
    have hT63ge : 63 ≤ totalOf (rc g) := hfacts.2.2.2.1
    have hidx28 : slotIdx s g < 2 ^ 28 := by
      have := hInv.1.2
      have := hfacts.2.2.1
      omega
    have hT28 : totalOf (rc g) < 2 ^ 28 := totalOf_lt_two_pow (rc g) h3
    have hhead : headerTotal s g = totalOf (rc g) := by
      simp only [headerTotal]
      rw [hfacts.1, header_count hT28 hidx28]
    by_cases hT : totalOf (rc g) = 63
    · rw [hhead, hT]
      omega
    · exfalso
      have hT64 : 64 ≤ totalOf (rc g) := by omega
      rw [Decrement_promoted_spec hInv hbit hpos hp hT64] at hnp'
      have hz : upd s.counts g
          (2 ^ 63 + (totalOf (rc g) - 1) * 2 ^ 32 + slotIdx s g) g
          &&& 0x8000000000000000 = 0 := not_not.mp hnp'
      rw [upd_self] at hz
      have hT28' : totalOf (rc g) - 1 < 2 ^ 28 := by omega
      exact header_and_top hT28' hidx28 hz

/-- Witness for C7 at concrete reachable states exercising every antecedent:
a group filled by 63 distinct increments is not yet promoted and the next
increment promotes it with header total at least 64; after 64 increments and
one decrement the group is still promoted with header total 63, the next
decrement demotes it, and its post-decrement total is below 64. -/
theorem scbf_promotion_total_bounds_witness :
    (¬ IsPromoted (runOps (SuccinctCountingBloomFilter.new 64 1)
        ((List.range 63).map (Op.inc 0))) 0 ∧
     IsPromoted (SuccinctCountingBloomFilter.Increment
        (runOps (SuccinctCountingBloomFilter.new 64 1) ((List.range 63).map (Op.inc 0)))
        0 0) 0 ∧
     64 ≤ headerTotal (SuccinctCountingBloomFilter.Increment
        (runOps (SuccinctCountingBloomFilter.new 64 1) ((List.range 63).map (Op.inc 0)))
        0 0) 0) ∧
    (IsPromoted (runOps (SuccinctCountingBloomFilter.new 64 1)
        ((List.range 64).map (Op.inc 0) ++ [Op.dec 0 0])) 0 ∧
     ¬ IsPromoted (SuccinctCountingBloomFilter.Decrement
        (runOps (SuccinctCountingBloomFilter.new 64 1)
          ((List.range 64).map (Op.inc 0) ++ [Op.dec 0 0]))
        0 1) 0 ∧
     headerTotal (runOps (SuccinctCountingBloomFilter.new 64 1)
        ((List.range 64).map (Op.inc 0) ++ [Op.dec 0 0])) 0 - 1 < 64) :=
  ⟨⟨by decide, by decide,
    (scbf_promotion_total_bounds
        (runOps (SuccinctCountingBloomFilter.new 64 1) ((List.range 63).map (Op.inc 0)))
        (rcFrom (fun _ _ => 0) ((List.range 63).map (Op.inc 0))) 0 0
        (runOps_inv ((List.range 63).map (Op.inc 0)) (SuccinctCountingBloomFilter.new 64 1)
          (fun _ _ => 0) (Inv_new 64 1 (by decide)) (by decide) (by decide))
        (by decide)).1 (by decide) (by decide) (by decide)⟩,
   ⟨by decide, by decide,
    (scbf_promotion_total_bounds
        (runOps (SuccinctCountingBloomFilter.new 64 1)
          ((List.range 64).map (Op.inc 0) ++ [Op.dec 0 0]))
        (rcFrom (fun _ _ => 0) ((List.range 64).map (Op.inc 0) ++ [Op.dec 0 0])) 0 1
        (runOps_inv ((List.range 64).map (Op.inc 0) ++ [Op.dec 0 0])
          (SuccinctCountingBloomFilter.new 64 1)
          (fun _ _ => 0) (Inv_new 64 1 (by decide)) (by decide) (by decide))
        (by decide)).2 (by decide) (by decide) (by decide)⟩⟩

/-! ### Claim C9: the blocked filter clears a presence bit iff its lane was 1 -/

/-- On a promoted group, the blocked filter's `Decrement` leaves `data`
untouched unless the probed 8-bit lane (read with the source's `bit & 0xf`
shift) holds 1, in which case it clears the presence bit. -/
theorem blocked_Decrement_data (s : SuccinctCountingBlockedBloomFilter) (group bit : Nat)
    (hprom : s.counts group &&& 0x8000000000000000 ≠ 0) :
    (SuccinctCountingBlockedBloomFilter.Decrement s group bit).data
      = if shr64 (s.overflow ((s.counts group &&& 0x0fffffff) + bit / 8))
            (8 * (bit &&& 0xf)) &&& 0xff = 1
        then upd s.data group (s.data group &&& not64 (shl64 1 bit))
        else s.data := by
  simp only [SuccinctCountingBlockedBloomFilter.Decrement]
  rw [if_pos hprom]
  by_cases hc : shr64 (s.overflow ((s.counts group &&& 0x0fffffff) + bit / 8))
      (8 * (bit &&& 0xf)) &&& 0xff = 1
  · simp only [if_pos hc]
    split <;> rfl
  · simp only [if_neg hc]
    split <;> rfl

/-- Masking a word with the complement of a presence bit clears that bit. -/
theorem shr64_and_one_clear {m bit : Nat} (hbit : bit < 64) :
    shr64 (m &&& not64 (shl64 1 bit)) bit &&& 1 = 0 := by
  have h2 : (2 : Nat) ^ bit < U64 := by
    show (2 : Nat) ^ bit < 2 ^ 64
    exact Nat.pow_lt_pow_right (by norm_num) hbit
  have hnot : not64 (shl64 1 bit) < U64 := by
    show mask64 ^^^ (shl64 1 bit % U64) < 2 ^ 64
    refine Nat.xor_lt_two_pow ?_ ?_
    · show (2 : Nat) ^ 64 - 1 < 2 ^ 64
      omega
    · exact Nat.mod_lt _ U64_pos
  have hv : m &&& not64 (shl64 1 bit) < U64 := lt_of_le_of_lt Nat.and_le_right hnot
  have htb : (m &&& not64 (shl64 1 bit)).testBit bit = false := by
    rw [Nat.testBit_land]
    have hnotb : (not64 (shl64 1 bit)).testBit bit = false := by
      show (mask64 ^^^ (shl64 1 bit % U64)).testBit bit = false
      rw [shl64_one hbit, Nat.mod_eq_of_lt h2, Nat.testBit_xor, Nat.testBit_two_pow_self,
        show mask64 = 2 ^ 64 - 1 from rfl, Nat.testBit_two_pow_sub_one]
      simp [hbit]
    rw [hnotb, Bool.and_false]
  show ((m &&& not64 (shl64 1 bit)) % U64) >>> (bit % 64) &&& 1 = 0
  rw [mod_U64_of_lt hv, Nat.mod_eq_of_lt hbit, Nat.and_one_is_mod,
    Nat.shiftRight_eq_div_pow]
  rw [Nat.testBit_to_div_mod] at htb
  simp only [decide_eq_false_iff_not] at htb
  omega

/-- C9: in the `SuccinctCountingBlockedBloomFilter`, for every `bit < 64`, when
`Decrement` targets a promoted group whose presence bit for `bit` is set, that
presence bit is cleared exactly when the bit's 8-bit overflow lane held the
value 1 immediately before the decrement (the source's `8*(bit & 0xf)` shift
count coincides with `8*(bit % 8)` modulo 64, so the right lane is read). -/
theorem scbbf_clear_presence_iff_lane_one
    (s : SuccinctCountingBlockedBloomFilter) (group bit : Nat) (hbit : bit < 64)
    (hprom : s.counts group &&& 0x8000000000000000 ≠ 0)
    (hset : shr64 (s.data group) bit &&& 1 = 1) :
    (shr64 ((SuccinctCountingBlockedBloomFilter.Decrement s group bit).data group) bit
        &&& 1 = 0
      ↔ SuccinctCountingBlockedBloomFilter.lane8 s.overflow
          (s.counts group &&& 0x0fffffff) bit = 1) := by
  have hmod : (8 * (bit &&& 0xf)) % 64 = (8 * (bit % 8)) % 64 := by
    rw [and_fifteen]
    omega
  have hlane : shr64 (s.overflow ((s.counts group &&& 0x0fffffff) + bit / 8))
      (8 * (bit &&& 0xf)) &&& 0xff
      = SuccinctCountingBlockedBloomFilter.lane8 s.overflow
          (s.counts group &&& 0x0fffffff) bit := by
    show (s.overflow ((s.counts group &&& 0x0fffffff) + bit / 8) % U64)
        >>> ((8 * (bit &&& 0xf)) % 64) &&& 0xff = _
    rw [hmod]
    rfl
  rw [blocked_Decrement_data s group bit hprom]
  by_cases hc : shr64 (s.overflow ((s.counts group &&& 0x0fffffff) + bit / 8))
      (8 * (bit &&& 0xf)) &&& 0xff = 1
  · rw [if_pos hc, upd_self]
    refine iff_of_true (shr64_and_one_clear hbit) ?_
    rw [← hlane]
    exact hc
  · rw [if_neg hc]
    refine iff_of_false ?_ ?_
    · intro h0
      omega
    · intro hl
      refine hc ?_
      rw [hlane]
      exact hl

/-- Witness for C9 at a concrete promoted blocked-filter state. -/
theorem scbbf_clear_presence_iff_lane_one_witness :
    (5 : Nat) < 64 ∧
    ({ bucketCount := 1, overflowLength := 8, data := fun _ => 32, counts := fun _ => 0x8000000000000000, overflow := fun i => if i = 0 then 2 ^ 40 else 0, nextFreeOverflow := 8 } : SuccinctCountingBlockedBloomFilter).counts 0 &&& 0x8000000000000000 ≠ 0 ∧
    shr64 (({ bucketCount := 1, overflowLength := 8, data := fun _ => 32, counts := fun _ => 0x8000000000000000, overflow := fun i => if i = 0 then 2 ^ 40 else 0, nextFreeOverflow := 8 } : SuccinctCountingBlockedBloomFilter).data 0) 5 &&& 1 = 1 ∧
    (shr64 ((SuccinctCountingBlockedBloomFilter.Decrement { bucketCount := 1, overflowLength := 8, data := fun _ => 32, counts := fun _ => 0x8000000000000000, overflow := fun i => if i = 0 then 2 ^ 40 else 0, nextFreeOverflow := 8 } 0 5).data 0) 5 &&& 1 = 0
      ↔ SuccinctCountingBlockedBloomFilter.lane8
          ({ bucketCount := 1, overflowLength := 8, data := fun _ => 32, counts := fun _ => 0x8000000000000000, overflow := fun i => if i = 0 then 2 ^ 40 else 0, nextFreeOverflow := 8 } : SuccinctCountingBlockedBloomFilter).overflow
          (({ bucketCount := 1, overflowLength := 8, data := fun _ => 32, counts := fun _ => 0x8000000000000000, overflow := fun i => if i = 0 then 2 ^ 40 else 0, nextFreeOverflow := 8 } : SuccinctCountingBlockedBloomFilter).counts 0 &&& 0x0fffffff) 5 = 1) :=
  ⟨by decide, by decide, by decide,
    scbbf_clear_presence_iff_lane_one
      { bucketCount := 1, overflowLength := 8, data := fun _ => 32, counts := fun _ => 0x8000000000000000, overflow := fun i => if i = 0 then 2 ^ 40 else 0, nextFreeOverflow := 8 }
      0 5 (by decide) (by decide) (by decide)⟩

/-- C10: the portable (non-BMI2) fallback of `select64(x, n)` returns `-1`
whenever the 64-bit word `x` has at most `n` set bits, for every `x < 2^64`
and every `n` in `[0, 64)`: the result is defined on this input. -/
theorem select64_fallback_returns_neg_one (x n : Nat) (hx : x < U64) (hn : n < 64)
    (hcnt : bitCount64 x ≤ n) : select64 x n = -1 := by
  refine select64_none hx ?_
  rw [← bitCount64_eq hx]
  exact hcnt

/-- Witness for C10 at a concrete word and rank. -/
theorem select64_fallback_returns_neg_one_witness :
    (5 : Nat) < U64 ∧ (2 : Nat) < 64 ∧ bitCount64 5 ≤ 2 ∧ select64 5 2 = -1 :=
  ⟨by decide, by decide, by decide,
    select64_fallback_returns_neg_one 5 2 (by decide) (by decide) (by decide)⟩

/-- Witness for C2 at a concrete filter and operation sequence. -/
theorem scbf_presence_bit_iff_positive_count_witness :
    (SuccinctCountingBloomFilter.new 64 1).overflowLength ≤ 0x0fffffff ∧
    ValidOps (SuccinctCountingBloomFilter.new 64 1).arrayLength [Op.inc 0 5, Op.inc 0 5] ∧
    NoExhaust (SuccinctCountingBloomFilter.new 64 1) [Op.inc 0 5, Op.inc 0 5] ∧
    (shr64 ((runOps (SuccinctCountingBloomFilter.new 64 1) [Op.inc 0 5, Op.inc 0 5]).data 0)
        5 &&& 1 = 1 ↔
      0 < (runOps (SuccinctCountingBloomFilter.new 64 1) [Op.inc 0 5, Op.inc 0 5]).ReadCount
        0 5) :=
  ⟨by decide, by decide, by decide,
    scbf_presence_bit_iff_positive_count 64 1 [Op.inc 0 5, Op.inc 0 5]
      (by decide) (by decide) (by decide) 0 5 (by decide)⟩

end counting_bloomfilter
